import Mathlib

/-!
Verification of the Worksheeter document-tree editor, drag-reorder engine,
serialization codec and segmentation logic.

The definitions below are shallow embeddings of the TypeScript sources:
  * src/helpers.ts          (createBlock, encodeState, decodeState, duplicateBlockHelper)
  * src/QuestionBoard.tsx   (removeBlockRecursive, findBlock, insertBlockAt,
                             updateBlock, removeBlock, duplicateBlock,
                             handleDragDrop, segments)
  * src/index.tsx           (the legacy monolithic handleDragDrop)
  * src/components/EditorBlockWrapper.tsx (onDrop dispatch, canDropInGroup)

The impure generateId calls are modelled by threading an explicit id supply
(a Nat counter together with a generator function Nat -> String); machine
details of the browser (btoa, atob, JSON.stringify, JSON.parse) are modelled
by faithful executable implementations over lists of characters.
-/

namespace Worksheeter

/-- Question subtype tag, from src/types (QuestionType). -/
inductive QuestionType where
  | multipleChoice
  | openAnswer
  | clozeText
  | clozeDropdown
  | dragInline
deriving DecidableEq, Repr

/-- Block type tag, from src/types (BlockType). -/
inductive BlockType where
  | text
  | divider
  | embed
  | group
  | question
deriving DecidableEq, Repr

/-- The tagged union of document blocks, from src/types (Block).
Optional fields are Option; an absent field and a field holding the
JavaScript value undefined are identified (JSON.stringify omits both). -/
inductive Block where
  | text (id : String) (content : String)
  | divider (id : String)
  | embed (id : String) (url : String) (title : Option String)
  | question (id : String) (qType : QuestionType) (prompt : String)
      (listItems : Option (List String)) (image : Option String)
      (description : Option String) (options : Option (List String))
      (multiSelect : Option Bool) (correctAnswer : Option (String ⊕ List String))
  | group (id : String) (title : Option String) (children : List Block)
deriving Repr

mutual

/-- Structural equality test for blocks (DecidableEq cannot be derived for
the nested inductive). -/
def beqB : Block → Block → Bool
  | .text i c, .text j d => decide (i = j) && decide (c = d)
  | .divider i, .divider j => decide (i = j)
  | .embed i u t, .embed j v s => decide (i = j) && decide (u = v) && decide (t = s)
  | .question i q p li im de op ms ca, .question j r pp li2 im2 de2 op2 ms2 ca2 =>
      decide (i = j) && decide (q = r) && decide (p = pp) && decide (li = li2) &&
      decide (im = im2) && decide (de = de2) && decide (op = op2) &&
      decide (ms = ms2) && decide (ca = ca2)
  | .group i t ch, .group j s ch2 => decide (i = j) && decide (t = s) && beqL ch ch2
  | _, _ => false

/-- Structural equality test for block lists. -/
def beqL : List Block → List Block → Bool
  | [], [] => true
  | a :: as, b :: bs => beqB a b && beqL as bs
  | _, _ => false

end


instance : DecidableEq Block := fun a b =>
  decidable_of_iff (beqB a b = true) (by
    suffices h : ∀ n : Nat,
        (∀ a b : Block, sizeOf a ≤ n → (beqB a b = true ↔ a = b)) ∧
        (∀ l m : List Block, sizeOf l ≤ n → (beqL l m = true ↔ l = m)) from
      (h (sizeOf a)).1 a b (le_refl _)
    intro n
    induction n using Nat.strong_induction_on with
    | _ n ih =>
      constructor
      · intro a b hs
        cases a <;> cases b <;> simp_all [beqB, beqL] <;> try tauto
        case group.group i t ch j s ch2 =>
          have hlt : sizeOf ch < n := by omega
          have hrec := (ih _ hlt).2 ch ch2 (le_refl _)
          rw [hrec]
          tauto
      · intro l m hs
        cases l with
        | nil => cases m <;> simp [beqL]
        | cons a as =>
          cases m with
          | nil => simp [beqL]
          | cons b bs =>
            simp only [List.cons.sizeOf_spec] at hs
            have ha : sizeOf a < n := by omega
            have has : sizeOf as < n := by omega
            simp [beqL, (ih _ ha).1 a b (le_refl _), (ih _ has).2 as bs (le_refl _)])


/-- The id property of a block. -/
def Block.bid : Block → String
  | .text i _ => i
  | .divider i => i
  | .embed i _ _ => i
  | .question i _ _ _ _ _ _ _ _ => i
  | .group i _ _ => i

/-- The type tag of a block. -/
def Block.btype : Block → BlockType
  | .text _ _ => .text
  | .divider _ => .divider
  | .embed _ _ _ => .embed
  | .question _ _ _ _ _ _ _ _ _ => .question
  | .group _ _ _ => .group

/-- Whether a block is a divider. -/
def Block.isDivider (b : Block) : Bool := b.btype = BlockType.divider

/-- Whether a block is a group. -/
def Block.isGroup (b : Block) : Bool := b.btype = BlockType.group

/-- Children of a group block, empty list for the other variants. -/
def Block.childrenD : Block → List Block
  | .group _ _ ch => ch
  | _ => []

/-- Number of blocks in a tree: every node counts, group children included. -/
def countBlocksL : List Block → Nat
  | [] => 0
  | .group _ _ ch :: bs => 1 + countBlocksL ch + countBlocksL bs
  | _ :: bs => 1 + countBlocksL bs

/-- Number of blocks in the subtree rooted at one block. -/
def countBlock (b : Block) : Nat := countBlocksL [b]

/-- All ids appearing anywhere in the tree, in preorder. -/
def idsOfL : List Block → List String
  | [] => []
  | .group i _ ch :: bs => i :: (idsOfL ch ++ idsOfL bs)
  | b :: bs => b.bid :: idsOfL bs

/-- Ids of the subtree rooted at one block. -/
def idsOfBlock (b : Block) : List String := idsOfL [b]

/-- All nodes of the tree, the nested ones included, in preorder. -/
def nodesL : List Block → List Block
  | [] => []
  | .group i t ch :: bs => .group i t ch :: (nodesL ch ++ nodesL bs)
  | b :: bs => b :: nodesL bs

/-- The documented invariant that ids are unique across the entire tree. -/
def UniqueIds (blocks : List Block) : Prop := (idsOfL blocks).Nodup

/-- Mirrors removeBlockRecursive in src/QuestionBoard.tsx: filter the id out
of every level and rebuild groups with recursively filtered children (the
filter-then-map of the source is fused into a single pass). -/
def removeBlockRecursive : List Block → String → List Block
  | [], _ => []
  | b :: bs, i =>
    if b.bid = i then removeBlockRecursive bs i
    else
      match b with
      | .group gid t ch => .group gid t (removeBlockRecursive ch i) :: removeBlockRecursive bs i
      | b => b :: removeBlockRecursive bs i

/-- Mirrors findBlock in src/QuestionBoard.tsx: first match by id, descending
into group children before continuing with later siblings. -/
def findBlock : List Block → String → Option Block
  | [], _ => none
  | b :: bs, i =>
    if b.bid = i then some b
    else
      match b with
      | .group _ _ ch =>
        match findBlock ch i with
        | some r => some r
        | none => findBlock bs i
      | _ => findBlock bs i

/-- Array.prototype.splice insertion at a clamped nonnegative position. -/
def spliceIn : List Block → Nat → Block → List Block
  | xs, 0, b => b :: xs
  | [], _ + 1, b => [b]
  | x :: xs, n + 1, b => x :: spliceIn xs n b

/-- The safe index computation of insertBlockAt: clamp an integer index into
the bounds of a list of the given length. -/
def safeIndex (index : Int) (len : Nat) : Nat := (max 0 (min index (len : Int))).toNat

/-- Mirrors insertBlockAt in src/QuestionBoard.tsx: with no parent id, splice
into the root list at a clamped index; otherwise map over the list, splicing
into the children of every group whose id matches and recursing into the
children of the other groups. -/
def insertBlockAt : List Block → Option String → Int → Block → List Block
  | blocks, none, index, block => spliceIn blocks (safeIndex index blocks.length) block
  | [], some _, _, _ => []
  | b :: bs, some pid, index, block =>
    match b with
    | .group gid t ch =>
      if gid = pid then
        .group gid t (spliceIn ch (safeIndex index ch.length) block) :: insertBlockAt bs (some pid) index block
      else
        .group gid t (insertBlockAt ch (some pid) index block) :: insertBlockAt bs (some pid) index block
    | b => b :: insertBlockAt bs (some pid) index block

/-- Mirrors the updateRecursive closure of updateBlock in
src/QuestionBoard.tsx: replace the block whose id matches wholesale, recurse
into the children of the other groups. -/
def updateRecursive : List Block → String → Block → List Block
  | [], _, _ => []
  | b :: bs, i, newData =>
    if b.bid = i then newData :: updateRecursive bs i newData
    else
      match b with
      | .group gid t ch => .group gid t (updateRecursive ch i newData) :: updateRecursive bs i newData
      | b => b :: updateRecursive bs i newData

mutual

/-- Mirrors duplicateBlockHelper in src/helpers.ts. The impure generateId is
modelled by a generator gen applied to a running counter: the copy takes the
id gen n, and for a group every descendant is re-identified with the
subsequent counter values, in the order the source visits them. Returns the
copy together with the counter after the last consumed id. -/
def duplicateBlockHelper (gen : Nat → String) : Block → Nat → Block × Nat
  | .text _ c, n => (.text (gen n) c, n + 1)
  | .divider _, n => (.divider (gen n), n + 1)
  | .embed _ u t, n => (.embed (gen n) u t, n + 1)
  | .question _ q p li im de op ms ca, n => (.question (gen n) q p li im de op ms ca, n + 1)
  | .group _ t ch, n =>
    let r := duplicateChildren gen ch (n + 1)
    (.group (gen n) t r.1, r.2)

/-- Re-identify a list of children in order, threading the id counter. -/
def duplicateChildren (gen : Nat → String) : List Block → Nat → List Block × Nat
  | [], n => ([], n)
  | c :: cs, n =>
    let r1 := duplicateBlockHelper gen c n
    let r2 := duplicateChildren gen cs r1.2
    (r1.1 :: r2.1, r2.2)

end

mutual

/-- Mirrors the insertAfterRecursive closure of duplicateBlock in
src/QuestionBoard.tsx: if some block of the current list carries the target
id, splice the new block in right after it; otherwise rebuild the list,
recursing into the children of every group. -/
def insertAfterRecursive (blocks : List Block) (tid : String) (nb : Block) : List Block :=
  if (blocks.findIdx fun b => b.bid = tid) < blocks.length then
    spliceIn blocks ((blocks.findIdx fun b => b.bid = tid) + 1) nb
  else insertAfterChildren blocks tid nb

/-- The recursive map branch of insertAfterRecursive. -/
def insertAfterChildren : List Block → String → Block → List Block
  | [], _, _ => []
  | .group gid t ch :: bs, tid, nb => .group gid t (insertAfterRecursive ch tid nb) :: insertAfterChildren bs tid nb
  | b :: bs, tid, nb => b :: insertAfterChildren bs tid nb

end

/-- Mirrors duplicateBlock in src/QuestionBoard.tsx: duplicate the given
block with fresh ids and insert the copy immediately after the original. -/
def duplicateBlock (gen : Nat → String) (n : Nat) (blocks : List Block) (block : Block) : List Block :=
  insertAfterRecursive blocks block.bid (duplicateBlockHelper gen block n).1

/-- JavaScript Array.prototype.findIndex: the first index satisfying the
predicate, or -1. -/
def jsFindIdx (p : Block → Bool) (l : List Block) : Int :=
  if l.findIdx p < l.length then (l.findIdx p : Int) else -1

/-- Mirrors the findIndexInParent closure of handleDragDrop in
src/QuestionBoard.tsx: without a parent id, the index of the target id in
the root list; with one, the index of the target id inside the children of
the first group carrying the parent id, found recursively (returned as is,
even when negative, exactly as the early return of the source does). -/
def findIndexInParent (targetId : String) : List Block → Option String → Int
  | blocks, none => jsFindIdx (fun b => b.bid = targetId) blocks
  | [], some _ => -1
  | b :: bs, some pid =>
    match b with
    | .group gid _ ch =>
      if gid = pid then jsFindIdx (fun c => c.bid = targetId) ch
      else
        let res := findIndexInParent targetId ch (some pid)
        if res ≠ -1 then res else findIndexInParent targetId bs (some pid)
    | _ => findIndexInParent targetId bs (some pid)

/-- Mirrors createBlock in src/helpers.ts, with the generated id passed
explicitly. The source asserts qType non-null for questions; the model
defaults it, the argument being always supplied at question creation sites. -/
def createBlock (i : String) (type : BlockType) (qType : Option QuestionType) : Block :=
  match type with
  | .question =>
    let qt := qType.getD .multipleChoice
    let defaultPrompt :=
      match qt with
      | .multipleChoice => "Select the correct option"
      | .openAnswer => "Type your answer below"
      | .clozeText => "Fill in the missing words"
      | .clozeDropdown => "Select the correct options"
      | .dragInline => "Drag and drop the words"
    let listItems : Option (List String) :=
      match qt with
      | .clozeText => some ["The capital of France is [Paris]."]
      | .clozeDropdown => some ["The sky is [blue|green|red]."]
      | .dragInline => some ["The [cat] sat on the [mat]."]
      | _ => none
    let options : Option (List String) :=
      match qt with
      | .multipleChoice => some ["Option 1", "Option 2"]
      | _ => none
    .question i qt defaultPrompt listItems none none options none none
  | .text => .text i "### Instructions\n\nEnter your text instructions here..."
  | .group => .group i (some "New Group") []
  | .embed => .embed i "" (some "Video Resource")
  | .divider => .divider i

/-- Kind tag of a drag payload, from src/types (DragItem.type). -/
inductive DragKind where
  | block
  | newBlock
deriving DecidableEq, Repr

/-- The drag payload, from src/types (DragItem). -/
structure DragItem where
  kind : DragKind
  id : Option String
  parentId : Option String
  payload : Option (BlockType × Option QuestionType)
deriving DecidableEq, Repr

/-- Mirrors the setData transformation of handleDragDrop in
src/QuestionBoard.tsx. For a palette item the created block receives the
explicitly supplied fresh id genId. Returns the new root list. -/
def handleDragDrop (prev : List Block) (item : DragItem) (genId : String)
    (targetId targetParentId : Option String) (targetIndex : Option Int) : List Block :=
  let resolved : Option (Block × List Block) :=
    match item.kind with
    | .newBlock =>
      match item.payload with
      | none => none
      | some (t, qt) => some (createBlock genId t qt, prev)
    | .block =>
      match item.id with
      | none => none
      | some i =>
        match findBlock prev i with
        | none => none
        | some mb => some (mb, removeBlockRecursive prev i)
  match resolved with
  | none => prev
  | some (movingBlock, currentBlocks) =>
    if movingBlock.isDivider ∧ targetParentId.isSome then prev
    else
      let finalIndex : Option Int :=
        match targetIndex with
        | some t => some t
        | none =>
          match targetId with
          | none => none
          | some tid =>
            let idx := findIndexInParent tid currentBlocks targetParentId
            if idx ≠ -1 then some (idx + 1) else none
      insertBlockAt currentBlocks targetParentId (finalIndex.getD (-1)) movingBlock

/-- Array.prototype.splice insertion with the JavaScript index convention:
negative indices count from the end, out-of-range indices are clamped. -/
def spliceInJs (l : List Block) (n : Int) (b : Block) : List Block :=
  if n < 0 then spliceIn l (max 0 ((l.length : Int) + n)).toNat b
  else spliceIn l (min n (l.length : Int)).toNat b

/-- Mirrors the setData transformation of the legacy handleDragDrop in
src/index.tsx, which removes by the recorded parentId, corrects the
insertion index by one for same-list moves to a later position, and only
resolves target parents at the root level. -/
def handleDragDropLegacy (prev : List Block) (item : DragItem) (genId : String)
    (targetId targetParentId : Option String) (targetIndex : Option Int) : List Block :=
  let removed : Option (Block × List Block × Int) :=
    match item.kind with
    | .newBlock =>
      match item.payload with
      | none => none
      | some (t, qt) => some (createBlock genId t qt, prev, -1)
    | .block =>
      match item.parentId with
      | none =>
        let oi := jsFindIdx (fun b => item.id = some b.bid) prev
        if oi = -1 then none
        else
          match prev.get? oi.toNat with
          | none => none
          | some mb => some (mb, prev.eraseIdx oi.toNat, oi)
      | some pid =>
        let pIdx := jsFindIdx (fun b => b.bid = pid) prev
        if pIdx = -1 then none
        else
          match prev.get? pIdx.toNat with
          | some (.group gid t ch) =>
            let oi := jsFindIdx (fun b => item.id = some b.bid) ch
            if oi = -1 then none
            else
              match ch.get? oi.toNat with
              | none => none
              | some mb => some (mb, prev.set pIdx.toNat (.group gid t (ch.eraseIdx oi.toNat)), oi)
          | _ => none
  match removed with
  | none => prev
  | some (movingBlock, newBlocks, originalIndex) =>
    match targetParentId with
    | none =>
      let insertIdx0 : Int := targetIndex.getD (newBlocks.length : Int)
      let insertIdx1 : Int :=
        if item.kind ≠ DragKind.newBlock ∧ item.parentId = none ∧
            originalIndex ≠ -1 ∧ originalIndex < insertIdx0 then insertIdx0 - 1
        else insertIdx0
      let insertIdx2 : Int :=
        match targetId, targetIndex with
        | some tid, none =>
          let tIdx := jsFindIdx (fun b => b.bid = tid) newBlocks
          if tIdx ≠ -1 then tIdx + 1 else insertIdx1
        | _, _ => insertIdx1
      spliceInJs newBlocks insertIdx2 movingBlock
    | some tpid =>
      let pIdx := jsFindIdx (fun b => b.bid = tpid) newBlocks
      if pIdx = -1 then newBlocks
      else
        match newBlocks.get? pIdx.toNat with
        | some (.group gid t ch) =>
          let insertIdx0 : Int := targetIndex.getD (ch.length : Int)
          let insertIdx1 : Int :=
            if item.kind ≠ DragKind.newBlock ∧ item.parentId = some tpid ∧
                originalIndex ≠ -1 ∧ originalIndex < insertIdx0 then insertIdx0 - 1
            else insertIdx0
          let insertIdx2 : Int :=
            match targetId, targetIndex with
            | some tid, none =>
              let tIdx := jsFindIdx (fun b => b.bid = tid) ch
              if tIdx ≠ -1 then tIdx + 1 else insertIdx1
            | _, _ => insertIdx1
          newBlocks.set pIdx.toNat (.group gid t (spliceInJs ch insertIdx2 movingBlock))
        | _ => newBlocks

/-- The vertical pointer region of a drop, abstracting the clientY
comparisons of EditorBlockWrapper.onDrop: within 20px of the top edge,
within 20px of the bottom edge, in the middle but within 80px of the top,
or below that. -/
inductive DropPos where
  | top
  | bottom
  | middleUpper
  | middleLower
deriving DecidableEq, Repr

/-- Mirrors the argument computation of EditorBlockWrapper.onDrop in
src/components/EditorBlockWrapper.tsx: a drop in the upper middle region of
a group at depth < 1 targets the inside of that group at the end of its
children; any other drop targets a sibling slot of the wrapped block.
Returns (targetId, targetParentId, targetIndex) for handleDragDrop. -/
def wrapperOnDropArgs (block : Block) (index : Nat) (parentId : Option String)
    (depth : Nat) (pos : DropPos) : Option String × Option String × Option Int :=
  if block.isGroup ∧ pos = DropPos.middleUpper ∧ depth < 1 then
    (none, some block.bid, some (block.childrenD.length : Int))
  else
    (none, parentId, some (if pos = DropPos.top then (index : Int) else (index : Int) + 1))

/-- A drop on the wrapper of a block, composed with handleDragDrop. -/
def wrapperDrop (prev : List Block) (item : DragItem) (genId : String) (block : Block)
    (index : Nat) (parentId : Option String) (depth : Nat) (pos : DropPos) : List Block :=
  let args := wrapperOnDropArgs block index parentId depth pos
  handleDragDrop prev item genId args.1 args.2.1 args.2.2

/-- Mirrors canDropInGroup in src/components/EditorBlockWrapper.tsx: the
inner drop zone of a group refuses group drags at maximal depth and divider
drags everywhere. -/
def canDropInGroup (draggedType : Option BlockType) (depth : Nat) : Bool :=
  ¬(draggedType = some BlockType.group ∧ 1 ≤ depth) ∧ ¬(draggedType = some BlockType.divider)

/-- Mirrors the segments computation of src/QuestionBoard.tsx and
src/components/Answer.tsx: the accumulator run is closed by every divider,
which becomes its own singleton segment, and the final run is always
appended. -/
def segmentsGo : List Block → List Block → List (List Block)
  | [], cur => [cur]
  | b :: bs, cur =>
    if b.isDivider then cur :: [b] :: segmentsGo bs []
    else segmentsGo bs (cur ++ [b])

/-- The segmentation of the top-level block list. -/
def segments (blocks : List Block) : List (List Block) := segmentsGo blocks []

/-- Number of divider blocks in the top-level list. -/
def dividerCount (blocks : List Block) : Nat := blocks.countP fun b => b.isDivider

/-- The block addressed by a path of child indices: the head index picks a
top-level block, each further index descends into group children. -/
def lookupPath : List Block → List Nat → Option Block
  | _, [] => none
  | blocks, [j] => blocks.get? j
  | blocks, j :: r :: rs =>
    match blocks.get? j with
    | some (.group _ _ ch) => lookupPath ch (r :: rs)
    | _ => none

/-- Replace the block addressed by a path, leaving everything else as is. -/
def replacePath : List Block → List Nat → Block → List Block
  | blocks, [], _ => blocks
  | blocks, [j], nb => blocks.set j nb
  | blocks, j :: r :: rs, nb =>
    match blocks.get? j with
    | some (.group gid t ch) => blocks.set j (.group gid t (replacePath ch (r :: rs) nb))
    | _ => blocks

/-- The sibling list addressed by a path of group indices: the empty path is
the root list, each index descends into the children of a group. -/
def lookupListPath : List Block → List Nat → Option (List Block)
  | blocks, [] => some blocks
  | blocks, j :: rest =>
    match blocks.get? j with
    | some (.group _ _ ch) => lookupListPath ch rest
    | _ => none

/-- Replace the sibling list addressed by a path of group indices. -/
def updateListPath : List Block → List Nat → List Block → List Block
  | _, [], newL => newL
  | blocks, j :: rest, newL =>
    match blocks.get? j with
    | some (.group gid t ch) => blocks.set j (.group gid t (updateListPath ch rest newL))
    | _ => blocks

/-- No divider occurs anywhere in the tree, nested groups included. -/
def noDivInside : List Block → Bool
  | [] => true
  | .divider _ :: _ => false
  | .group _ _ ch :: bs => noDivInside ch && noDivInside bs
  | _ :: bs => noDivInside bs

/-- The invariant that page breaks are root-level only: the subtree of every
group in the list is free of dividers (top-level dividers are allowed). -/
def groupsDividerFree : List Block → Bool
  | [] => true
  | .group _ _ ch :: bs => noDivInside ch && groupsDividerFree bs
  | _ :: bs => groupsDividerFree bs

mutual

/-- Erase every id in the subtree, keeping all other fields: two blocks have
equal stripIds exactly when all their non-id fields agree, descendants
included. -/
def stripIds : Block → Block
  | .text _ c => .text "" c
  | .divider _ => .divider ""
  | .embed _ u t => .embed "" u t
  | .question _ q p li im de op ms ca => .question "" q p li im de op ms ca
  | .group _ t ch => .group "" t (stripIdsL ch)

/-- Pointwise stripIds over a list of blocks. -/
def stripIdsL : List Block → List Block
  | [] => []
  | b :: bs => stripIds b :: stripIdsL bs

end

/-- Ids of the group nodes of the tree. -/
def groupIdsL : List Block → List String
  | [] => []
  | .group i _ ch :: bs => i :: (groupIdsL ch ++ groupIdsL bs)
  | _ :: bs => groupIdsL bs

/-- One editor mutation, as dispatched by the UI of src/QuestionBoard.tsx.
The update step carries the fact, true at every call site, that the
replacement value never is a divider nor hides one inside (all call sites
spread an existing block of the same type, and dividers have no editable
fields); the duplicate step carries the fact that the duplicated block is a
rendered node of the tree. -/
inductive EditStep : List Block → List Block → Prop where
  | add (s : List Block) (i : String) (t : BlockType) (qt : Option QuestionType) :
      EditStep s (s ++ [createBlock i t qt])
  | remove (s : List Block) (i : String) :
      EditStep s (removeBlockRecursive s i)
  | update (s : List Block) (i : String) (nb : Block) (hnb : noDivInside [nb] = true) :
      EditStep s (updateRecursive s i nb)
  | duplicate (s : List Block) (gen : Nat → String) (n : Nat) (b : Block)
      (hb : b ∈ nodesL s) :
      EditStep s (duplicateBlock gen n s b)
  | drop (s : List Block) (item : DragItem) (genId : String)
      (targetId targetParentId : Option String) (targetIndex : Option Int) :
      EditStep s (handleDragDrop s item genId targetId targetParentId targetIndex)


def blockInnerOk (m : Block) : Bool :=
  match m with
  | Block.group _ _ ch => noDivInside ch
  | _ => true


/-- JSON document trees, the value space of JSON.parse and JSON.stringify.
Numbers keep their raw token text (the worksheet data model produces no
numbers, so their numeric value never matters here). -/
inductive Json where
  | null
  | bool (b : Bool)
  | num (raw : String)
  | str (s : String)
  | arr (elems : List Json)
  | obj (fields : List (String × Json))
deriving Repr

/-- JSON whitespace accepted between tokens by JSON.parse. -/
def isJsonWs (c : Char) : Bool := c = ' ' ∨ c = '\t' ∨ c = '\n' ∨ c = '\r'

/-- ASCII whitespace removed by the forgiving base64 decode of atob. -/
def isAsciiWs (c : Char) : Bool :=
  c = ' ' ∨ c = '\t' ∨ c = '\n' ∨ c = '\x0c' ∨ c = '\r'

/-- Lowercase hexadecimal digit for a value below sixteen. -/
def hexDigit (n : Nat) : Char := if n < 10 then Char.ofNat (48 + n) else Char.ofNat (87 + n)

/-- Value of a hexadecimal digit, upper or lower case. -/
def hexVal (c : Char) : Option Nat :=
  if 48 ≤ c.toNat ∧ c.toNat ≤ 57 then some (c.toNat - 48)
  else if 97 ≤ c.toNat ∧ c.toNat ≤ 102 then some (c.toNat - 87)
  else if 65 ≤ c.toNat ∧ c.toNat ≤ 70 then some (c.toNat - 55)
  else none

/-- The string escaping of JSON.stringify: quote, backslash and the named
control characters get two-character escapes, the remaining control
characters a \u00xx escape, everything else is emitted as is. -/
def escapeChar (c : Char) : List Char :=
  if c = '"' then ['\\', '"']
  else if c = '\\' then ['\\', '\\']
  else if c = '\x08' then ['\\', 'b']
  else if c = '\t' then ['\\', 't']
  else if c = '\n' then ['\\', 'n']
  else if c = '\x0c' then ['\\', 'f']
  else if c = '\r' then ['\\', 'r']
  else if c.toNat < 32 then ['\\', 'u', '0', '0', hexDigit (c.toNat / 16), hexDigit (c.toNat % 16)]
  else [c]

/-- Body of a JSON string literal. -/
def strBody (s : String) : List Char := (s.data.map escapeChar).flatten

/-- A complete JSON string literal with its quotes. -/
def strLit (s : String) : List Char := '"' :: (strBody s ++ ['"'])

mutual

/-- The characters JSON.stringify emits for a value (compact form, no
added whitespace, object keys in insertion order). -/
def jsonChars : Json → List Char
  | .null => 'n' :: 'u' :: 'l' :: 'l' :: []
  | .bool true => 't' :: 'r' :: 'u' :: 'e' :: []
  | .bool false => 'f' :: 'a' :: 'l' :: 's' :: 'e' :: []
  | .num raw => raw.data
  | .str s => strLit s
  | .arr xs => '[' :: (jsonCharsArr xs ++ [']'])
  | .obj kvs => '{' :: (jsonCharsObj kvs ++ ['}'])

/-- Comma-separated array elements. -/
def jsonCharsArr : List Json → List Char
  | [] => []
  | [x] => jsonChars x
  | x :: y :: rest => jsonChars x ++ ',' :: jsonCharsArr (y :: rest)

/-- Comma-separated object entries, each a quoted key, a colon, a value. -/
def jsonCharsObj : List (String × Json) → List Char
  | [] => []
  | [(k, v)] => strLit k ++ ':' :: jsonChars v
  | (k, v) :: e :: rest => strLit k ++ ':' :: jsonChars v ++ ',' :: jsonCharsObj (e :: rest)

end

/-- Drop leading JSON whitespace. -/
def skipWs : List Char → List Char
  | [] => []
  | c :: cs => if isJsonWs c then skipWs cs else c :: cs

/-- Parse the remainder of a JSON string literal after the opening quote,
accumulating decoded characters in reverse. Raw control characters are
rejected and surrogate escape values are unrepresentable, as for
JSON.parse over scalar strings. -/
def parseStrAux : List Char → List Char → Option (String × List Char)
  | [], _ => none
  | c :: cs, acc =>
    if c = '"' then some (String.mk acc.reverse, cs)
    else if c = '\\' then
      match cs with
      | '"' :: r => parseStrAux r ('"' :: acc)
      | '\\' :: r => parseStrAux r ('\\' :: acc)
      | '/' :: r => parseStrAux r ('/' :: acc)
      | 'b' :: r => parseStrAux r ('\x08' :: acc)
      | 'f' :: r => parseStrAux r ('\x0c' :: acc)
      | 'n' :: r => parseStrAux r ('\n' :: acc)
      | 'r' :: r => parseStrAux r ('\r' :: acc)
      | 't' :: r => parseStrAux r ('\t' :: acc)
      | 'u' :: h1 :: h2 :: h3 :: h4 :: r =>
        match hexVal h1, hexVal h2, hexVal h3, hexVal h4 with
        | some v1, some v2, some v3, some v4 =>
          let code := ((v1 * 16 + v2) * 16 + v3) * 16 + v4
          if h : code.isValidChar then parseStrAux r (Char.ofNat code :: acc) else none
        | _, _, _, _ => none
      | _ => none
    else if c.toNat < 32 then none
    else parseStrAux cs (c :: acc)

/-- Longest prefix of decimal digits. -/
def takeDigits : List Char → List Char × List Char
  | [] => ([], [])
  | c :: cs =>
    if c.isDigit then
      let r := takeDigits cs
      (c :: r.1, r.2)
    else ([], c :: cs)

/-- Parse a JSON number token (sign, integer part, optional fraction and
exponent), returning its raw characters. -/
def parseNumToken (cs : List Char) : Option (List Char × List Char) :=
  let signed := match cs with
    | '-' :: r => (['-'], r)
    | _ => (([] : List Char), cs)
  match signed.2 with
  | [] => none
  | c :: r =>
    if c = '0' then
      let afterInt := (signed.1 ++ ['0'], r)
      numFracExp afterInt.1 afterInt.2
    else if c.isDigit then
      let d := takeDigits r
      numFracExp (signed.1 ++ c :: d.1) d.2
    else none
where
  numFracExp (tok : List Char) (rest : List Char) : Option (List Char × List Char) :=
    let fr := match rest with
      | '.' :: r2 =>
        let d := takeDigits r2
        if d.1.isEmpty then none
        else some (tok ++ '.' :: d.1, d.2)
      | _ => some (tok, rest)
    match fr with
    | none => none
    | some (tok2, rest2) =>
      match rest2 with
      | 'e' :: r3 => numExp tok2 'e' r3
      | 'E' :: r3 => numExp tok2 'E' r3
      | _ => some (tok2, rest2)
  numExp (tok : List Char) (e : Char) (r : List Char) : Option (List Char × List Char) :=
    let signed := match r with
      | '+' :: r2 => (['+'], r2)
      | '-' :: r2 => (['-'], r2)
      | _ => (([] : List Char), r)
    let d := takeDigits signed.2
    if d.1.isEmpty then none else some (tok ++ e :: (signed.1 ++ d.1), d.2)

mutual

/-- Fuel-indexed recursive-descent JSON value parser, faithful to
JSON.parse on the constructs the codec emits; the fuel only bounds the
nesting plus element recursion and is chosen large enough by jsonParse. -/
def pVal : Nat → List Char → Option (Json × List Char)
  | 0, _ => none
  | fuel + 1, cs =>
    match skipWs cs with
    | [] => none
    | 'n' :: 'u' :: 'l' :: 'l' :: r => some (.null, r)
    | 't' :: 'r' :: 'u' :: 'e' :: r => some (.bool true, r)
    | 'f' :: 'a' :: 'l' :: 's' :: 'e' :: r => some (.bool false, r)
    | '"' :: r =>
      match parseStrAux r [] with
      | some (s, r2) => some (.str s, r2)
      | none => none
    | '[' :: r =>
      if (skipWs r).head? = some ']' then some (.arr [], (skipWs r).tail)
      else pArrItems fuel (skipWs r) []
    | '{' :: r =>
      if (skipWs r).head? = some '}' then some (.obj [], (skipWs r).tail)
      else pObjItems fuel (skipWs r) []
    | c :: r =>
      if c = '-' ∨ c.isDigit then
        match parseNumToken (c :: r) with
        | some (tok, r2) => some (.num (String.mk tok), r2)
        | none => none
      else none

/-- Array elements after the opening bracket of a nonempty array. -/
def pArrItems : Nat → List Char → List Json → Option (Json × List Char)
  | 0, _, _ => none
  | fuel + 1, cs, acc =>
    match pVal fuel cs with
    | none => none
    | some (v, r) =>
      match skipWs r with
      | ',' :: r2 => pArrItems fuel r2 (acc ++ [v])
      | ']' :: r2 => some (.arr (acc ++ [v]), r2)
      | _ => none

/-- Object entries after the opening brace of a nonempty object. -/
def pObjItems : Nat → List Char → List (String × Json) → Option (Json × List Char)
  | 0, _, _ => none
  | fuel + 1, cs, acc =>
    match skipWs cs with
    | '"' :: r =>
      match parseStrAux r [] with
      | none => none
      | some (k, r2) =>
        match skipWs r2 with
        | ':' :: r3 =>
          match pVal fuel r3 with
          | none => none
          | some (v, r4) =>
            match skipWs r4 with
            | ',' :: r5 => pObjItems fuel r5 (acc ++ [(k, v)])
            | '}' :: r5 => some (.obj (acc ++ [(k, v)]), r5)
            | _ => none
        | _ => none
    | _ => none

end

/-- JSON.parse: parse one value and require only whitespace to remain. -/
def jsonParse (s : String) : Option Json :=
  match pVal (s.data.length + 1) s.data with
  | some (j, rest) => if (skipWs rest).isEmpty then some j else none
  | none => none

/-- The base64 alphabet. -/
def b64Alpha : List Char :=
  "ABCDEFGHIJKLMNOPQRSTUVWXYZabcdefghijklmnopqrstuvwxyz0123456789+/".data

/-- Character for a sextet value. -/
def b64Char (n : Nat) : Char := b64Alpha.getD n 'A'

/-- Position of a character in the alphabet helper. -/
def b64IndexAux : List Char → Char → Nat → Option Nat
  | [], _, _ => none
  | a :: as, c, k => if a = c then some k else b64IndexAux as c (k + 1)

/-- Position of a character in the base64 alphabet, if any. -/
def b64Index (c : Char) : Option Nat := b64IndexAux b64Alpha c 0

/-- btoa: encode a byte sequence in base64, three bytes to four characters,
padding the final group with equals signs. -/
def b64EncodeBytes : List Nat → List Char
  | [] => []
  | [a] => [b64Char (a / 4), b64Char (a % 4 * 16), '=', '=']
  | [a, b] => [b64Char (a / 4), b64Char (a % 4 * 16 + b / 16), b64Char (b % 16 * 4), '=']
  | a :: b :: c :: rest =>
    b64Char (a / 4) :: b64Char (a % 4 * 16 + b / 16) :: b64Char (b % 16 * 4 + c / 64) ::
      b64Char (c % 64) :: b64EncodeBytes rest

/-- Remove up to two trailing equals signs. -/
def stripPadding (cs : List Char) : List Char :=
  match cs.reverse with
  | '=' :: '=' :: r => r.reverse
  | '=' :: r => r.reverse
  | _ => cs

/-- Decode base64 data with no padding left: full groups of four sextets
give three bytes, a trailing group of two or three gives one or two bytes
with the leftover bits discarded, a single leftover character is invalid. -/
def b64DecodeQuads : List Char → Option (List Nat)
  | [] => some []
  | [c1, c2] =>
    match b64Index c1, b64Index c2 with
    | some i1, some i2 => some [i1 * 4 + i2 / 16]
    | _, _ => none
  | [c1, c2, c3] =>
    match b64Index c1, b64Index c2, b64Index c3 with
    | some i1, some i2, some i3 => some [i1 * 4 + i2 / 16, i2 % 16 * 16 + i3 / 4]
    | _, _, _ => none
  | [_] => none
  | c1 :: c2 :: c3 :: c4 :: rest =>
    match b64Index c1, b64Index c2, b64Index c3, b64Index c4, b64DecodeQuads rest with
    | some i1, some i2, some i3, some i4, some bs =>
      some ((i1 * 4 + i2 / 16) :: (i2 % 16 * 16 + i3 / 4) :: (i3 % 4 * 64 + i4) :: bs)
    | _, _, _, _, _ => none

/-- atob over characters: the forgiving base64 decode of the platform,
which removes ASCII whitespace, strips the padding of a complete final
group, rejects a leftover length of one and any character outside the
alphabet, and decodes the sextets. -/
def atobChars (cs : List Char) : Option (List Nat) :=
  let cs2 := cs.filter fun c => !(isAsciiWs c)
  let cs3 := if cs2.length % 4 = 0 then stripPadding cs2 else cs2
  if cs3.length % 4 = 1 then none
  else b64DecodeQuads cs3

/-- atob: characters of the result are the decoded bytes. -/
def atob (s : String) : Option String :=
  (atobChars s.data).map fun bytes => String.mk (bytes.map Char.ofNat)

/-- btoa: defined on strings whose code points fit in one byte, failing
(like the DOMException of the platform) otherwise. -/
def btoa (s : String) : Option String :=
  if s.data.all (fun c => c.toNat ≤ 255) then
    some (String.mk (b64EncodeBytes (s.data.map Char.toNat)))
  else none

/-- String.prototype.replace with a plain string pattern: replace the
first occurrence only. -/
def replaceFirstAux : List Char → List Char → List Char → List Char
  | [], _, _ => []
  | c :: cs, pat, repl =>
    if pat.isPrefixOf (c :: cs) then repl ++ (c :: cs).drop pat.length
    else c :: replaceFirstAux cs pat repl

/-- String-level first-occurrence replace. -/
def jsReplaceFirst (s pat repl : String) : String :=
  String.mk (replaceFirstAux s.data pat.data repl.data)

/-- Font choice of the design settings, from src/types (DesignSettings). -/
inductive Font where
  | sans
  | serif
  | mono
deriving DecidableEq, Repr

/-- Design settings, from src/types (DesignSettings). -/
structure DesignSettings where
  accentColor : String
  font : Font
deriving DecidableEq, Repr

/-- The root aggregate, from src/types (WorksheetData). -/
structure WorksheetData where
  title : String
  description : String
  blocks : List Block
  design : Option DesignSettings
deriving Repr

/-- The wire string of a question subtype. -/
def qTypeStr : QuestionType → String
  | .multipleChoice => "multiple-choice"
  | .openAnswer => "open-answer"
  | .clozeText => "cloze-text"
  | .clozeDropdown => "cloze-dropdown"
  | .dragInline => "drag-inline"

/-- The wire string of a font choice. -/
def fontStr : Font → String
  | .sans => "sans"
  | .serif => "serif"
  | .mono => "mono"

/-- An optional object entry: absent fields are omitted, as JSON.stringify
omits undefined properties. -/
def optField (name : String) (v : Option Json) : List (String × Json) :=
  match v with
  | none => []
  | some j => [(name, j)]

/-- JSON form of a correctAnswer value (a string or a string array). -/
def caJson : String ⊕ List String → Json
  | .inl s => .str s
  | .inr l => .arr (l.map Json.str)

mutual

/-- The JSON object graph of a block, mirroring the runtime object shape
that JSON.stringify serializes. -/
def blockJson : Block → Json
  | .text i c => .obj [("id", .str i), ("type", .str "text"), ("content", .str c)]
  | .divider i => .obj [("id", .str i), ("type", .str "divider")]
  | .embed i u t =>
    .obj ([("id", .str i), ("type", .str "embed"), ("url", .str u)]
      ++ optField "title" (t.map Json.str))
  | .question i q p li im de op ms ca =>
    .obj ([("id", .str i), ("type", .str "question"), ("qType", .str (qTypeStr q)),
        ("prompt", .str p)]
      ++ optField "listItems" (li.map fun l => Json.arr (l.map Json.str))
      ++ optField "image" (im.map Json.str)
      ++ optField "description" (de.map Json.str)
      ++ optField "options" (op.map fun l => Json.arr (l.map Json.str))
      ++ optField "multiSelect" (ms.map Json.bool)
      ++ optField "correctAnswer" (ca.map caJson))
  | .group i t ch =>
    .obj ([("id", .str i), ("type", .str "group")]
      ++ optField "title" (t.map Json.str)
      ++ [("children", .arr (blockJsonL ch))])

/-- JSON graphs of a list of blocks. -/
def blockJsonL : List Block → List Json
  | [] => []
  | b :: bs => blockJson b :: blockJsonL bs

end

/-- JSON object of the design settings. -/
def designJson (d : DesignSettings) : Json :=
  .obj [("accentColor", .str d.accentColor), ("font", .str (fontStr d.font))]

/-- The JSON object graph of a worksheet, the value JSON.stringify
serializes and JSON.parse restores. -/
def toJson (x : WorksheetData) : Json :=
  .obj ([("title", .str x.title), ("description", .str x.description),
      ("blocks", .arr (blockJsonL x.blocks))]
    ++ optField "design" (x.design.map designJson))

/-- Mirrors encodeState in src/helpers.ts: JSON.stringify then btoa, with
the empty string as the failure sentinel of the catch block. -/
def encodeState (data : WorksheetData) : String :=
  match btoa (String.mk (jsonChars (toJson data))) with
  | some r => r
  | none => ""

/-- Mirrors decodeState in src/helpers.ts: strip the first occurrence of
the fragment marker, atob, JSON.parse; null (here none) on any failure.
The parsed JSON object is returned as is, the source applying only an
unchecked type assertion to it. -/
def decodeStateJson (hash : String) : Option Json :=
  match atob (jsReplaceFirst hash "#data=" "") with
  | none => none
  | some json => jsonParse json

/-- The value decodeState actually returns: its JavaScript result type is
WorksheetData or null, and null is at once the catch-branch failure value
and the result of JSON.parse applied to the text "null", so a parsed JSON
null is indistinguishable from failure in the source and both map to none
here. -/
def decodeState (hash : String) : Option Json :=
  match decodeStateJson hash with
  | some Json.null => none
  | r => r


/-- Characters the single-byte text encoding of btoa can represent. -/
def strOk (s : String) : Bool := s.data.all fun c => c.toNat ≤ 255

mutual

/-- The JSON values the worksheet serializer can emit: no numbers occur. -/
def jsonGood : Json → Bool
  | .null => true
  | .bool _ => true
  | .num _ => false
  | .str _ => true
  | .arr xs => jsonGoodL xs
  | .obj kvs => jsonGoodF kvs

/-- jsonGood on every element. -/
def jsonGoodL : List Json → Bool
  | [] => true
  | x :: xs => jsonGood x && jsonGoodL xs

/-- jsonGood on every field value. -/
def jsonGoodF : List (String × Json) → Bool
  | [] => true
  | kv :: kvs => jsonGood kv.2 && jsonGoodF kvs

end

mutual

/-- Every string in the JSON value fits the single-byte encoding. -/
def jsonLatin : Json → Bool
  | .null => true
  | .bool _ => true
  | .num raw => strOk raw
  | .str s => strOk s
  | .arr xs => jsonLatinL xs
  | .obj kvs => jsonLatinF kvs

/-- jsonLatin on every element. -/
def jsonLatinL : List Json → Bool
  | [] => true
  | x :: xs => jsonLatin x && jsonLatinL xs

/-- jsonLatin on every key and field value. -/
def jsonLatinF : List (String × Json) → Bool
  | [] => true
  | kv :: kvs => strOk kv.1 && jsonLatin kv.2 && jsonLatinF kvs

end

mutual

/-- Fuel needed by pVal to parse the printed form of a value. -/
def wVal : Json → Nat
  | .arr [] => 1
  | .arr (x :: xs) => 1 + wItems (x :: xs)
  | .obj [] => 1
  | .obj (kv :: kvs) => 1 + wFields (kv :: kvs)
  | _ => 1

/-- Fuel needed by pArrItems for the remaining elements. -/
def wItems : List Json → Nat
  | [] => 0
  | x :: xs => 1 + max (wVal x) (wItems xs)

/-- Fuel needed by pObjItems for the remaining fields. -/
def wFields : List (String × Json) → Nat
  | [] => 0
  | kv :: kvs => 1 + max (wVal kv.2) (wFields kvs)

end

/-- The unpadded base64 encoding: b64EncodeBytes without the equals signs. -/
def b64Sextets : List Nat → List Char
  | [] => []
  | [a] => [b64Char (a / 4), b64Char (a % 4 * 16)]
  | [a, b] => [b64Char (a / 4), b64Char (a % 4 * 16 + b / 16), b64Char (b % 16 * 4)]
  | a :: b :: c :: rest =>
    b64Char (a / 4) :: b64Char (a % 4 * 16 + b / 16) :: b64Char (b % 16 * 4 + c / 64) ::
      b64Char (c % 64) :: b64Sextets rest

mutual

/-- Every string of the block fits the single-byte encoding of btoa. -/
def blockOk : Block → Bool
  | .text i c => strOk i && strOk c
  | .divider i => strOk i
  | .embed i u t => strOk i && strOk u && t.all strOk
  | .question i _ p li im de op _ ca =>
      strOk i && strOk p && li.all (fun l => l.all strOk) && im.all strOk &&
      de.all strOk && op.all (fun l => l.all strOk) &&
      ca.all (fun v => match v with | .inl s => strOk s | .inr l => l.all strOk)
  | .group i t ch => strOk i && t.all strOk && blockOkL ch

/-- blockOk on every element. -/
def blockOkL : List Block → Bool
  | [] => true
  | b :: bs => blockOk b && blockOkL bs

end

/-- Structural validity for the round-trip law: every string of the
worksheet fits the single-byte text encoding that btoa accepts. -/
def dataOk (x : WorksheetData) : Bool :=
  strOk x.title && strOk x.description && blockOkL x.blocks &&
    x.design.all fun d => strOk d.accentColor

theorem segmentsGo_length (bs : List Block) :
    ∀ cur, (segmentsGo bs cur).length = 2 * dividerCount bs + 1 := by
  induction bs with
  | nil => intro cur; simp [segmentsGo, dividerCount]
  | cons b bs ih =>
    intro cur
    by_cases hd : b.isDivider
    · simp [segmentsGo, hd, dividerCount, List.countP_cons] at ih ⊢
      have := ih []
      simp [dividerCount] at this
      omega
    · simp [segmentsGo, hd, dividerCount, List.countP_cons] at ih ⊢
      have := ih (cur ++ [b])
      simp [dividerCount] at this
      omega

theorem segmentsGo_join (bs : List Block) :
    ∀ cur, (segmentsGo bs cur).flatten = cur ++ bs := by
  induction bs with
  | nil => intro cur; simp [segmentsGo]
  | cons b bs ih =>
    intro cur
    by_cases hd : b.isDivider
    · simp [segmentsGo, hd, ih []]
    · simp [segmentsGo, hd, ih (cur ++ [b])]

theorem segmentsGo_alternation (bs : List Block) :
    ∀ cur, (∀ b ∈ cur, b.isDivider = false) → ∀ k seg,
      (segmentsGo bs cur).get? k = some seg →
      (k % 2 = 0 → ∀ b ∈ seg, b.isDivider = false) ∧
      (k % 2 = 1 → ∃ d, d.isDivider = true ∧ seg = [d]) := by
  induction bs with
  | nil =>
    intro cur hcur k seg hget
    cases k with
    | zero =>
      simp [segmentsGo] at hget
      subst hget
      exact ⟨fun _ => hcur, by omega⟩
    | succ m => simp [segmentsGo] at hget
  | cons b bs ih =>
    intro cur hcur k seg hget
    by_cases hd : b.isDivider
    · rw [segmentsGo, if_pos (by simp [hd])] at hget
      match k with
      | 0 =>
        simp at hget
        subst hget
        exact ⟨fun _ => hcur, by omega⟩
      | 1 =>
        simp at hget
        subst hget
        refine ⟨by omega, fun _ => ⟨b, hd, rfl⟩⟩
      | Nat.succ (Nat.succ m) =>
        simp only [List.get?] at hget
        have := ih [] (by simp) m seg hget
        constructor
        · intro hk; exact this.1 (by omega)
        · intro hk; exact this.2 (by omega)
    · rw [segmentsGo, if_neg (by simp [hd])] at hget
      refine ih (cur ++ [b]) ?_ k seg hget
      intro x hx
      rcases List.mem_append.mp hx with h | h
      · exact hcur x h
      · simp at h; subst h; simpa using hd

/-- C6: segmentation of a top-level list with d dividers yields exactly
2d+1 segments: the even positions are divider-free runs (d+1 of them, the
first always present even if empty, the last appended even if empty), the
odd positions are singleton divider segments (d of them), their
concatenation restores the input, and the three concrete examples of the
specification evaluate as stated. -/
theorem C6_segmentation (blocks : List Block) :
    (segments blocks).length = 2 * dividerCount blocks + 1 ∧
    (∀ k seg, (segments blocks).get? k = some seg →
      (k % 2 = 0 → ∀ b ∈ seg, b.isDivider = false) ∧
      (k % 2 = 1 → ∃ d, d.isDivider = true ∧ seg = [d])) ∧
    (segments blocks).flatten = blocks ∧
    segments [] = [[]] ∧
    segments [Block.divider "d1"] = [[], [Block.divider "d1"], []] ∧
    segments [Block.text "t1" "Intro", Block.divider "d1",
        createBlock "q1" BlockType.question (some QuestionType.multipleChoice)] =
      [[Block.text "t1" "Intro"], [Block.divider "d1"],
        [createBlock "q1" BlockType.question (some QuestionType.multipleChoice)]] := by
  refine ⟨segmentsGo_length blocks [], ?_, by simpa using segmentsGo_join blocks [], rfl, rfl, rfl⟩
  intro k seg hget
  exact segmentsGo_alternation blocks [] (by simp) k seg hget

/-- C6 witness: the characterization applied to a concrete two-segment
list, discharging the hypotheses at segment index one. -/
theorem C6_segmentation_witness :
    ∃ d, d.isDivider = true ∧ [Block.divider "x"] = [d] := by
  have h := (C6_segmentation [Block.text "a" "A", Block.divider "x"]).2.1 1 [Block.divider "x"]
  exact (h (by rfl)).2 (by decide)

theorem blist_ind_aux (P : List Block → Prop) (h0 : P [])
    (hg : ∀ i t ch bs, P ch → P bs → P (Block.group i t ch :: bs))
    (ho : ∀ b bs, b.isGroup = false → P bs → P (b :: bs)) :
    ∀ n bs, sizeOf bs ≤ n → P bs := by
  intro n
  induction n using Nat.strong_induction_on with
  | _ n ih =>
    intro bs hbs
    match bs with
    | [] => exact h0
    | Block.text i c :: rest =>
      simp at hbs
      exact ho _ _ rfl (ih (sizeOf rest) (by omega) rest (le_refl _))
    | Block.divider i :: rest =>
      simp at hbs
      exact ho _ _ rfl (ih (sizeOf rest) (by omega) rest (le_refl _))
    | Block.embed i u t :: rest =>
      simp at hbs
      exact ho _ _ rfl (ih (sizeOf rest) (by omega) rest (le_refl _))
    | Block.question i q p li im de op ms ca :: rest =>
      simp at hbs
      exact ho _ _ rfl (ih (sizeOf rest) (by omega) rest (le_refl _))
    | Block.group i t ch :: rest =>
      simp at hbs
      exact hg i t ch rest (ih (sizeOf ch) (by omega) ch (le_refl _))
        (ih (sizeOf rest) (by omega) rest (le_refl _))

/-- Induction over block lists that also descends into group children. -/
theorem blist_ind (P : List Block → Prop) (h0 : P [])
    (hg : ∀ i t ch bs, P ch → P bs → P (Block.group i t ch :: bs))
    (ho : ∀ b bs, b.isGroup = false → P bs → P (b :: bs)) :
    ∀ bs, P bs :=
  fun bs => blist_ind_aux P h0 hg ho (sizeOf bs) bs (le_refl _)

/-- C7: the legacy handleDragDrop of src/index.tsx decrements the nominal
target index for a same-list move to a later position, so the dropped block
lands at the slot the target denoted before removal; the active
handleDragDrop of src/QuestionBoard.tsx omits this correction and inserts
at the uncorrected nominal index of the post-removal list. Moving the first
block of a three-block root list to nominal index two (the slot just below
the second block) exhibits the divergence. -/
theorem C7_index_correction :
    handleDragDropLegacy
        [Block.text "a" "A", Block.text "b" "B", Block.text "c" "C"]
        (DragItem.mk DragKind.block (some "a") none none) "g" none none (some 2)
      = [Block.text "b" "B", Block.text "a" "A", Block.text "c" "C"] ∧
    handleDragDrop
        [Block.text "a" "A", Block.text "b" "B", Block.text "c" "C"]
        (DragItem.mk DragKind.block (some "a") none none) "g" none none (some 2)
      = [Block.text "b" "B", Block.text "c" "C", Block.text "a" "A"] := by
  constructor
  · simp [handleDragDropLegacy, jsFindIdx, spliceInJs, spliceIn, Block.bid,
      List.findIdx, List.findIdx.go]
  · simp [handleDragDrop, findBlock, removeBlockRecursive, insertBlockAt, spliceIn,
      safeIndex, Block.bid, Block.isDivider, Block.btype]

/-- C9 counterexample: after a worksheet has a group nested inside another
group (itself a reachable state, since the inside drop zone of a depth zero
group accepts group drags), a sibling drop targeting the child of the
nested group dispatches the nested group as target parent with no depth or
type check, and handleDragDrop inserts the dragged group there: the drop
mutates the tree and places a group at nesting depth two, against the claim
that every such drop is rejected. -/
theorem C9_counterexample :
    wrapperDrop
        [Block.group "g3" none [],
          Block.group "g2" none [Block.group "g1" none [Block.text "t" "T"]]]
        (DragItem.mk DragKind.block (some "g3") none none) "x"
        (Block.text "t" "T") 0 (some "g1") 2 DropPos.top
      = [Block.group "g2" none [Block.group "g1" none
          [Block.group "g3" none [], Block.text "t" "T"]]] ∧
    wrapperDrop
        [Block.group "g3" none [],
          Block.group "g2" none [Block.group "g1" none [Block.text "t" "T"]]]
        (DragItem.mk DragKind.block (some "g3") none none) "x"
        (Block.text "t" "T") 0 (some "g1") 2 DropPos.top
      ≠ [Block.group "g3" none [],
          Block.group "g2" none [Block.group "g1" none [Block.text "t" "T"]]] := by
  constructor
  · simp [wrapperDrop, wrapperOnDropArgs, handleDragDrop, findBlock, removeBlockRecursive,
      insertBlockAt, spliceIn, safeIndex, Block.bid, Block.isDivider, Block.isGroup,
      Block.btype, Block.childrenD]
  · simp [wrapperDrop, wrapperOnDropArgs, handleDragDrop, findBlock, removeBlockRecursive,
      insertBlockAt, spliceIn, safeIndex, Block.bid, Block.isDivider, Block.isGroup,
      Block.btype, Block.childrenD]

/-- C9 amended: the inside placement of the drop dispatch is only offered
for groups at depth zero, so every wrapper drop at depth at least one
resolves to a sibling slot of the wrapped block (target parent is the
parent of the wrapped block, never the block itself), and the inner drop
zone of a group at depth at least one refuses group drags; a sibling drop
whose target parent is a nested group is however forwarded unchecked, so a
group can still reach nesting depth two. -/
theorem C9_amended (b : Block) (idx : Nat) (pid : Option String) (depth : Nat)
    (pos : DropPos) (h : 1 ≤ depth) :
    wrapperOnDropArgs b idx pid depth pos
      = (none, pid, some (if pos = DropPos.top then (idx : Int) else (idx : Int) + 1)) ∧
    canDropInGroup (some BlockType.group) depth = false := by
  constructor
  · rw [wrapperOnDropArgs, if_neg]
    simp
    intro _ _
    omega
  · simp [canDropInGroup]
    omega

/-- C9 amended witness: the sibling dispatch and the refusal of group drags
at depth one, on a concrete group block. -/
theorem C9_amended_witness :
    wrapperOnDropArgs (Block.group "g" none []) 3 (some "p") 1 DropPos.middleUpper
      = (none, some "p", some 4) ∧
    canDropInGroup (some BlockType.group) 1 = false := by
  have h := C9_amended (Block.group "g" none []) 3 (some "p") 1 DropPos.middleUpper (by decide)
  simpa using h

theorem rm_cons_nonGroup (b : Block) (hb : b.isGroup = false) (bs : List Block) (i : String) :
    removeBlockRecursive (b :: bs) i =
      if b.bid = i then removeBlockRecursive bs i else b :: removeBlockRecursive bs i := by
  cases b <;> simp_all [Block.isGroup, Block.btype, removeBlockRecursive]

theorem rm_cons_group (gi : String) (t : Option String) (ch bs : List Block) (i : String) :
    removeBlockRecursive (Block.group gi t ch :: bs) i =
      if gi = i then removeBlockRecursive bs i
      else Block.group gi t (removeBlockRecursive ch i) :: removeBlockRecursive bs i := by
  simp [removeBlockRecursive, Block.bid]

theorem groupIdsL_cons_nonGroup (b : Block) (hb : b.isGroup = false) (bs : List Block) :
    groupIdsL (b :: bs) = groupIdsL bs := by
  cases b <;> simp_all [Block.isGroup, Block.btype, groupIdsL]

theorem idsOfL_cons_nonGroup (b : Block) (hb : b.isGroup = false) (bs : List Block) :
    idsOfL (b :: bs) = b.bid :: idsOfL bs := by
  cases b <;> simp_all [Block.isGroup, Block.btype, idsOfL]

theorem countBlocksL_cons_nonGroup (b : Block) (hb : b.isGroup = false) (bs : List Block) :
    countBlocksL (b :: bs) = 1 + countBlocksL bs := by
  cases b <;> simp_all [Block.isGroup, Block.btype, countBlocksL]

theorem nodesL_cons_nonGroup (b : Block) (hb : b.isGroup = false) (bs : List Block) :
    nodesL (b :: bs) = b :: nodesL bs := by
  cases b <;> simp_all [Block.isGroup, Block.btype, nodesL]

theorem groupIdsL_remove_subset (i : String) :
    ∀ bs, groupIdsL (removeBlockRecursive bs i) ⊆ groupIdsL bs := by
  refine blist_ind _ ?_ ?_ ?_
  · simp [removeBlockRecursive]
  · intro gi t ch bs ihch ihbs x hx
    rw [rm_cons_group] at hx
    by_cases hb : gi = i
    · rw [if_pos hb] at hx
      simp [groupIdsL]
      exact Or.inr (Or.inr (ihbs hx))
    · rw [if_neg hb] at hx
      simp [groupIdsL] at hx ⊢
      rcases hx with h | h | h
      exacts [Or.inl h, Or.inr (Or.inl (ihch h)), Or.inr (Or.inr (ihbs h))]
  · intro b bs hng ih x hx
    rw [rm_cons_nonGroup b hng] at hx
    rw [groupIdsL_cons_nonGroup b hng]
    by_cases hb : b.bid = i
    · rw [if_pos hb] at hx
      exact ih hx
    · rw [if_neg hb, groupIdsL_cons_nonGroup b hng] at hx
      exact ih hx

theorem insertBlockAt_cons_group (gi : String) (t : Option String) (ch bs : List Block)
    (pid : String) (idx : Int) (nb : Block) :
    insertBlockAt (Block.group gi t ch :: bs) (some pid) idx nb =
      (if gi = pid then Block.group gi t (spliceIn ch (safeIndex idx ch.length) nb)
       else Block.group gi t (insertBlockAt ch (some pid) idx nb)) :: insertBlockAt bs (some pid) idx nb := by
  by_cases h : gi = pid <;> simp [insertBlockAt, h]

theorem insertBlockAt_cons_nonGroup (b : Block) (hb : b.isGroup = false) (bs : List Block)
    (pid : String) (idx : Int) (nb : Block) :
    insertBlockAt (b :: bs) (some pid) idx nb = b :: insertBlockAt bs (some pid) idx nb := by
  cases b <;> simp_all [Block.isGroup, Block.btype, insertBlockAt]

theorem insertBlockAt_no_group (pid : String) (idx : Int) (nb : Block) :
    ∀ bs, pid ∉ groupIdsL bs → insertBlockAt bs (some pid) idx nb = bs := by
  refine blist_ind _ ?_ ?_ ?_
  · simp [insertBlockAt]
  · intro gi t ch bs ihch ihbs hpid
    simp [groupIdsL] at hpid
    rw [insertBlockAt_cons_group, if_neg (by tauto)]
    rw [ihch (by tauto), ihbs (by tauto)]
  · intro b bs hng ih hpid
    rw [groupIdsL_cons_nonGroup b hng] at hpid
    rw [insertBlockAt_cons_nonGroup b hng, ih hpid]

theorem findBlock_cons_group (gi : String) (t : Option String) (ch bs : List Block) (i : String) :
    findBlock (Block.group gi t ch :: bs) i =
      if gi = i then some (Block.group gi t ch)
      else
        match findBlock ch i with
        | some r => some r
        | none => findBlock bs i := by
  simp [findBlock, Block.bid]

theorem findBlock_cons_nonGroup (b : Block) (hb : b.isGroup = false) (bs : List Block) (i : String) :
    findBlock (b :: bs) i = if b.bid = i then some b else findBlock bs i := by
  cases b <;> simp_all [Block.isGroup, Block.btype, findBlock]

theorem findBlock_mem_ids (i : String) :
    ∀ bs mb, findBlock bs i = some mb → i ∈ idsOfL bs := by
  refine blist_ind _ ?_ ?_ ?_
  · simp [findBlock]
  · intro gi t ch bs ihch ihbs mb hf
    rw [findBlock_cons_group] at hf
    by_cases hb : gi = i
    · simp [idsOfL, hb]
    · rw [if_neg hb] at hf
      simp only [idsOfL, List.mem_cons, List.mem_append]
      cases hch : findBlock ch i with
      | some r =>
        rw [hch] at hf
        exact Or.inr (Or.inl (ihch r hch))
      | none =>
        rw [hch] at hf
        exact Or.inr (Or.inr (ihbs mb hf))
  · intro b bs hng ih mb hf
    rw [findBlock_cons_nonGroup b hng] at hf
    rw [idsOfL_cons_nonGroup b hng]
    by_cases hb : b.bid = i
    · simp [hb]
    · rw [if_neg hb] at hf
      exact List.mem_cons_of_mem _ (ih mb hf)

theorem removeL_count_le (i : String) :
    ∀ bs, countBlocksL (removeBlockRecursive bs i) ≤ countBlocksL bs := by
  refine blist_ind _ ?_ ?_ ?_
  · simp [removeBlockRecursive]
  · intro gi t ch bs ihch ihbs
    rw [rm_cons_group]
    by_cases hb : gi = i
    · rw [if_pos hb]
      simp [countBlocksL]
      omega
    · rw [if_neg hb]
      simp [countBlocksL]
      omega
  · intro b bs hng ih
    rw [rm_cons_nonGroup b hng]
    by_cases hb : b.bid = i
    · rw [if_pos hb, countBlocksL_cons_nonGroup b hng]
      omega
    · rw [if_neg hb, countBlocksL_cons_nonGroup b hng, countBlocksL_cons_nonGroup b hng]
      omega

theorem countBlock_pos (b : Block) : 1 ≤ countBlock b := by
  cases b <;> simp [countBlock, countBlocksL]

theorem removeL_count_lt (i : String) :
    ∀ bs, i ∈ idsOfL bs → countBlocksL (removeBlockRecursive bs i) < countBlocksL bs := by
  refine blist_ind _ ?_ ?_ ?_
  · simp [idsOfL]
  · intro gi t ch bs ihch ihbs hmem
    rw [rm_cons_group]
    by_cases hb : gi = i
    · rw [if_pos hb]
      have h1 := removeL_count_le i bs
      simp [countBlocksL]
      omega
    · rw [if_neg hb]
      simp [idsOfL] at hmem
      rcases hmem with h | h | h
      · exact absurd h.symm hb
      · have h1 := ihch h
        have h2 := removeL_count_le i bs
        simp [countBlocksL]
        omega
      · have h1 := ihbs h
        have h2 := removeL_count_le i ch
        simp [countBlocksL]
        omega
  · intro b bs hng ih hmem
    rw [rm_cons_nonGroup b hng]
    rw [idsOfL_cons_nonGroup b hng] at hmem
    by_cases hb : b.bid = i
    · rw [if_pos hb, countBlocksL_cons_nonGroup b hng]
      have h1 := removeL_count_le i bs
      omega
    · rw [if_neg hb, countBlocksL_cons_nonGroup b hng, countBlocksL_cons_nonGroup b hng]
      simp at hmem
      rcases hmem with h | h
      · exact absurd h.symm hb
      · have h1 := ih h
        omega

/-- C10: a drop of an existing non-divider block whose target parent id
matches no group of the tree removes the dragged block, with all its
descendants, but never re-inserts it: the result is exactly the tree after
removal, the total block count strictly decreases, and the operation is not
a no-op. -/
theorem C10_orphan_drop (prev : List Block) (i pid genId : String) (mb : Block)
    (targetId : Option String) (targetIndex : Option Int)
    (hfind : findBlock prev i = some mb)
    (hdiv : mb.isDivider = false)
    (hpid : pid ∉ groupIdsL prev) :
    handleDragDrop prev (DragItem.mk DragKind.block (some i) none none) genId
        targetId (some pid) targetIndex
      = removeBlockRecursive prev i ∧
    countBlocksL (removeBlockRecursive prev i) < countBlocksL prev ∧
    handleDragDrop prev (DragItem.mk DragKind.block (some i) none none) genId
        targetId (some pid) targetIndex
      ≠ prev := by
  have hcount : countBlocksL (removeBlockRecursive prev i) < countBlocksL prev :=
    removeL_count_lt i prev (findBlock_mem_ids i prev mb hfind)
  have hpid2 : pid ∉ groupIdsL (removeBlockRecursive prev i) :=
    fun h => hpid (groupIdsL_remove_subset i prev h)
  have hmain : handleDragDrop prev (DragItem.mk DragKind.block (some i) none none) genId
      targetId (some pid) targetIndex = removeBlockRecursive prev i := by
    rw [handleDragDrop]
    simp only [hfind]
    rw [if_neg (by simp [hdiv])]
    exact insertBlockAt_no_group pid _ mb _ hpid2
  refine ⟨hmain, hcount, ?_⟩
  intro heq
  rw [hmain] at heq
  rw [heq] at hcount
  omega

/-- C10 witness: dropping the first text block of a two-block list onto a
nonexistent parent group makes it disappear. -/
theorem C10_orphan_drop_witness :
    handleDragDrop [Block.text "a" "A", Block.text "b" "B"]
        (DragItem.mk DragKind.block (some "a") none none) "x" none (some "nope") (some 0)
      = removeBlockRecursive [Block.text "a" "A", Block.text "b" "B"] "a" ∧
    countBlocksL (removeBlockRecursive [Block.text "a" "A", Block.text "b" "B"] "a") <
      countBlocksL [Block.text "a" "A", Block.text "b" "B"] ∧
    handleDragDrop [Block.text "a" "A", Block.text "b" "B"]
        (DragItem.mk DragKind.block (some "a") none none) "x" none (some "nope") (some 0)
      ≠ [Block.text "a" "A", Block.text "b" "B"] := by
  refine C10_orphan_drop _ _ _ _ (Block.text "a" "A") _ _ ?_ rfl ?_
  · simp [findBlock, Block.bid]
  · simp [groupIdsL]

theorem removeL_noop (i : String) :
    ∀ bs, i ∉ idsOfL bs → removeBlockRecursive bs i = bs := by
  refine blist_ind _ ?_ ?_ ?_
  · simp [removeBlockRecursive]
  · intro gi t ch bs ihch ihbs hmem
    simp [idsOfL] at hmem
    rw [rm_cons_group, if_neg (by tauto)]
    rw [ihch (by tauto), ihbs (by tauto)]
  · intro b bs hng ih hmem
    rw [idsOfL_cons_nonGroup b hng] at hmem
    simp at hmem
    rw [rm_cons_nonGroup b hng, if_neg (by tauto), ih (by tauto)]

theorem mem_nodes_bid_mem :
    ∀ bs, ∀ g ∈ nodesL bs, g.bid ∈ idsOfL bs := by
  refine blist_ind _ ?_ ?_ ?_
  · simp [nodesL]
  · intro gi t ch bs ihch ihbs g hg
    simp only [nodesL, List.mem_cons, List.mem_append] at hg
    simp only [idsOfL, List.mem_cons, List.mem_append]
    rcases hg with h | h | h
    · subst h; simp [Block.bid]
    · exact Or.inr (Or.inl (ihch g h))
    · exact Or.inr (Or.inr (ihbs g h))
  · intro b bs hng ih g hg
    rw [nodesL_cons_nonGroup b hng] at hg
    rw [idsOfL_cons_nonGroup b hng]
    simp at hg ⊢
    rcases hg with h | h
    · subst h; simp
    · exact Or.inr (ih g h)

theorem idsOfL_length :
    ∀ bs, (idsOfL bs).length = countBlocksL bs := by
  refine blist_ind _ ?_ ?_ ?_
  · simp [idsOfL, countBlocksL]
  · intro gi t ch bs ihch ihbs
    simp [idsOfL, countBlocksL, ihch, ihbs]
    omega
  · intro b bs hng ih
    rw [idsOfL_cons_nonGroup b hng, countBlocksL_cons_nonGroup b hng]
    simp [ih]
    omega

theorem perm_rot (x y z : List String) : (y ++ (x ++ z)).Perm (x ++ (y ++ z)) := by
  rw [← List.append_assoc, ← List.append_assoc]
  exact List.Perm.append_right z List.perm_append_comm

theorem perm_helperA (a : String) (x y z : List String) :
    (a :: (y ++ (x ++ z))).Perm (x ++ (a :: (y ++ z))) :=
  (List.Perm.cons a (perm_rot x y z)).trans List.perm_middle.symm

theorem perm_helperB (a : String) (x y z : List String) :
    (a :: ((x ++ y) ++ z)).Perm (x ++ (a :: (y ++ z))) := by
  rw [List.append_assoc]
  exact List.perm_middle.symm

theorem idsOfBlock_nonGroup (b : Block) (hb : b.isGroup = false) :
    idsOfBlock b = [b.bid] := by
  cases b <;> simp_all [Block.isGroup, Block.btype, idsOfBlock, idsOfL]

theorem remove_perm_of_mem_nodes :
    ∀ bs, UniqueIds bs → ∀ g ∈ nodesL bs,
      (idsOfL bs).Perm (idsOfBlock g ++ idsOfL (removeBlockRecursive bs g.bid)) := by
  refine blist_ind _ ?_ ?_ ?_
  · simp [nodesL]
  · intro gi t ch bs ihch ihbs hU g hg
    simp only [UniqueIds, idsOfL, List.nodup_cons, List.nodup_append, List.mem_append] at hU
    have hgi : ¬(gi ∈ idsOfL ch ∨ gi ∈ idsOfL bs) := hU.1
    have hchnd : (idsOfL ch).Nodup := hU.2.1
    have hbsnd : (idsOfL bs).Nodup := hU.2.2.1
    have hdisj : (idsOfL ch).Disjoint (idsOfL bs) := hU.2.2.2
    simp only [nodesL, List.mem_cons, List.mem_append] at hg
    rcases hg with h | h | h
    · subst h
      rw [rm_cons_group]
      simp only [Block.bid]
      rw [if_pos trivial, removeL_noop _ bs (fun hm => hgi (Or.inr hm))]
      simp [idsOfBlock, idsOfL]
    · have hmemch : g.bid ∈ idsOfL ch := mem_nodes_bid_mem ch g h
      have hne : gi ≠ g.bid := fun he => hgi (Or.inl (he ▸ hmemch))
      have hnotbs : g.bid ∉ idsOfL bs := fun hm => hdisj hmemch hm
      rw [rm_cons_group, if_neg hne, removeL_noop _ bs hnotbs]
      have hperm := ihch hchnd g h
      simp only [idsOfL]
      refine (List.Perm.cons gi (List.Perm.append_right _ hperm)).trans ?_
      exact perm_helperB gi (idsOfBlock g) (idsOfL (removeBlockRecursive ch g.bid)) (idsOfL bs)
    · have hmembs : g.bid ∈ idsOfL bs := mem_nodes_bid_mem bs g h
      have hne : gi ≠ g.bid := fun he => hgi (Or.inr (he ▸ hmembs))
      have hnotch : g.bid ∉ idsOfL ch := fun hm => hdisj hm hmembs
      rw [rm_cons_group, if_neg hne, removeL_noop _ ch hnotch]
      have hperm := ihbs hbsnd g h
      simp only [idsOfL]
      refine (List.Perm.cons gi (List.Perm.append_left _ hperm)).trans ?_
      exact perm_helperA gi (idsOfBlock g) (idsOfL ch) (idsOfL (removeBlockRecursive bs g.bid))
  · intro b bs hng ihbs hU g hg
    simp only [UniqueIds] at hU
    rw [idsOfL_cons_nonGroup b hng] at hU ⊢
    simp only [List.nodup_cons] at hU
    have hb1 : b.bid ∉ idsOfL bs := hU.1
    have hbsnd : (idsOfL bs).Nodup := hU.2
    rw [nodesL_cons_nonGroup b hng] at hg
    simp only [List.mem_cons] at hg
    rcases hg with h | h
    · subst h
      rw [rm_cons_nonGroup g hng, if_pos rfl, removeL_noop _ bs hb1]
      rw [idsOfBlock_nonGroup g hng]
      simp
    · have hmembs : g.bid ∈ idsOfL bs := mem_nodes_bid_mem bs g h
      have hne : b.bid ≠ g.bid := fun he => hb1 (he ▸ hmembs)
      rw [rm_cons_nonGroup b hng, if_neg hne, idsOfL_cons_nonGroup b hng]
      have hperm := ihbs hbsnd g h
      exact (List.Perm.cons b.bid hperm).trans List.perm_middle.symm

/-- C3: under the documented id-uniqueness invariant, removing a group that
has N descendant blocks shrinks the total block count by exactly N+1 (the
statement adds countBlocksL ch + 1, the descendants plus the group node,
back to the count after removal), afterwards neither the group id nor any
former descendant id occurs anywhere in the tree, and removing an id that
occurs nowhere leaves the tree unchanged. -/
theorem C3_remove_cascade :
    (∀ blocks gi t ch, UniqueIds blocks → Block.group gi t ch ∈ nodesL blocks →
      countBlocksL blocks
        = countBlocksL (removeBlockRecursive blocks gi) + (countBlocksL ch + 1) ∧
      gi ∉ idsOfL (removeBlockRecursive blocks gi) ∧
      (∀ j ∈ idsOfL ch, j ∉ idsOfL (removeBlockRecursive blocks gi))) ∧
    (∀ blocks i, i ∉ idsOfL blocks → removeBlockRecursive blocks i = blocks) := by
  constructor
  · intro blocks gi t ch hU hmem
    have hperm := remove_perm_of_mem_nodes blocks hU (Block.group gi t ch) hmem
    have hbid : (Block.group gi t ch).bid = gi := rfl
    rw [hbid] at hperm
    have hids : idsOfBlock (Block.group gi t ch) = gi :: idsOfL ch := by
      simp [idsOfBlock, idsOfL]
    rw [hids] at hperm
    refine ⟨?_, ?_⟩
    · have hlen := hperm.length_eq
      have h1 := idsOfL_length blocks
      have h2 := idsOfL_length ch
      have h3 := idsOfL_length (removeBlockRecursive blocks gi)
      simp only [List.length_append, List.length_cons] at hlen
      omega
    · have hnd : ((gi :: idsOfL ch) ++ idsOfL (removeBlockRecursive blocks gi)).Nodup :=
        hperm.nodup (show (idsOfL blocks).Nodup from hU)
      rw [List.nodup_append] at hnd
      obtain ⟨_, _, hdisj⟩ := hnd
      exact ⟨fun hm => hdisj (by simp) hm, fun j hj hm => hdisj (by simp [hj]) hm⟩
  · exact fun blocks i h => removeL_noop i blocks h

/-- C3 witness: removing the group of a concrete two-entry worksheet with a
single descendant shrinks the count from three to one, no removed id stays
discoverable, and removing an absent id is the identity. -/
theorem C3_remove_cascade_witness :
    (countBlocksL [Block.text "a" "A", Block.group "g" none [Block.text "b" "B"]]
      = countBlocksL (removeBlockRecursive
          [Block.text "a" "A", Block.group "g" none [Block.text "b" "B"]] "g")
        + (countBlocksL [Block.text "b" "B"] + 1) ∧
    "g" ∉ idsOfL (removeBlockRecursive
          [Block.text "a" "A", Block.group "g" none [Block.text "b" "B"]] "g") ∧
    (∀ j ∈ idsOfL [Block.text "b" "B"], j ∉ idsOfL (removeBlockRecursive
          [Block.text "a" "A", Block.group "g" none [Block.text "b" "B"]] "g"))) ∧
    removeBlockRecursive [Block.text "a" "A"] "zz" = [Block.text "a" "A"] := by
  constructor
  · exact C3_remove_cascade.1 [Block.text "a" "A", Block.group "g" none [Block.text "b" "B"]]
      "g" none [Block.text "b" "B"]
      (by simp [UniqueIds, idsOfL, Block.bid])
      (by simp [nodesL])
  · exact C3_remove_cascade.2 [Block.text "a" "A"] "zz"
      (by simp [idsOfL, Block.bid])


theorem upd_cons_group (gi : String) (t : Option String) (ch bs : List Block)
    (i : String) (nb : Block) :
    updateRecursive (Block.group gi t ch :: bs) i nb =
      (if gi = i then nb else Block.group gi t (updateRecursive ch i nb)) :: updateRecursive bs i nb := by
  by_cases h : gi = i <;> simp [updateRecursive, Block.bid, h]

theorem upd_cons_nonGroup (b : Block) (hb : b.isGroup = false) (bs : List Block)
    (i : String) (nb : Block) :
    updateRecursive (b :: bs) i nb =
      (if b.bid = i then nb else b) :: updateRecursive bs i nb := by
  by_cases h : b.bid = i <;> cases b <;>
    simp_all [Block.isGroup, Block.btype, Block.bid, updateRecursive]

theorem upd_noop (i : String) (nb : Block) :
    ∀ bs, i ∉ idsOfL bs → updateRecursive bs i nb = bs := by
  refine blist_ind _ ?_ ?_ ?_
  · simp [updateRecursive]
  · intro gi t ch bs ihch ihbs hmem
    simp [idsOfL] at hmem
    rw [upd_cons_group, if_neg (by tauto), ihch (by tauto), ihbs (by tauto)]
  · intro b bs hng ih hmem
    rw [idsOfL_cons_nonGroup b hng] at hmem
    simp at hmem
    rw [upd_cons_nonGroup b hng, if_neg (by tauto), ih (by tauto)]

theorem idsOfL_sub_of_mem : ∀ bs, ∀ x ∈ bs, idsOfBlock x ⊆ idsOfL bs := by
  intro bs
  induction bs with
  | nil => simp
  | cons y ys ih =>
    intro x hx
    rcases List.mem_cons.mp hx with h | h
    · subst h
      intro j hj
      cases x <;> simp [idsOfBlock, idsOfL] at hj ⊢ <;> tauto
    · intro j hj
      have := ih x h hj
      cases y <;> simp [idsOfL] <;> tauto

theorem bid_mem_idsOfBlock (x : Block) : x.bid ∈ idsOfBlock x := by
  cases x <;> simp [idsOfBlock, idsOfL, Block.bid]

theorem lookupPath_single (bs : List Block) (j : Nat) : lookupPath bs [j] = bs.get? j := by
  rw [lookupPath]

theorem lookupPath_two (bs : List Block) (j r : Nat) (rs : List Nat) :
    lookupPath bs (j :: r :: rs) =
      match bs.get? j with
      | some (.group _ _ ch) => lookupPath ch (r :: rs)
      | _ => none := by
  rw [lookupPath]

theorem lookupPath_bid_mem :
    ∀ p bs b, lookupPath bs p = some b → b.bid ∈ idsOfL bs := by
  intro p
  induction p with
  | nil => simp [lookupPath]
  | cons j rest ih =>
    intro bs b hl
    cases rest with
    | nil =>
      rw [lookupPath_single] at hl
      exact idsOfL_sub_of_mem bs b (List.get?_mem hl) (bid_mem_idsOfBlock b)
    | cons r rs =>
      rw [lookupPath_two] at hl
      cases hj : bs.get? j with
      | none => rw [hj] at hl; simp at hl
      | some bj =>
        rw [hj] at hl
        have hjmem : bj ∈ bs := List.get?_mem hj
        match bj, hl with
        | Block.group gi t ch, hl =>
          have hm := ih ch b hl
          refine idsOfL_sub_of_mem bs _ hjmem ?_
          simp [idsOfBlock, idsOfL]
          tauto

theorem replacePath_cons_succ (x : Block) (bs : List Block) (j : Nat) (rest : List Nat)
    (nb : Block) :
    replacePath (x :: bs) ((j + 1) :: rest) nb = x :: replacePath bs (j :: rest) nb := by
  cases rest with
  | nil => simp [replacePath]
  | cons r rs =>
    rw [replacePath, replacePath]
    have hj : (x :: bs).get? (j + 1) = bs.get? j := rfl
    rw [hj]
    cases hg : bs.get? j with
    | none => simp
    | some bj => cases bj <;> simp

theorem lookupPath_cons_succ (x : Block) (bs : List Block) (j : Nat) (rest : List Nat) :
    lookupPath (x :: bs) ((j + 1) :: rest) = lookupPath bs (j :: rest) := by
  cases rest with
  | nil =>
    rw [lookupPath_single, lookupPath_single]
    rfl
  | cons r rs =>
    rw [lookupPath_two, lookupPath_two]
    have hj : (x :: bs).get? (j + 1) = bs.get? j := rfl
    rw [hj]

theorem upd_path_aux :
    ∀ n blocks, sizeOf blocks ≤ n → ∀ j rest i nb b, (idsOfL blocks).Nodup →
      lookupPath blocks (j :: rest) = some b → b.bid = i →
      updateRecursive blocks i nb = replacePath blocks (j :: rest) nb := by
  intro n
  induction n using Nat.strong_induction_on with
  | _ n ihn =>
    intro blocks hsz j rest i nb b hnd hl hbid
    match blocks with
    | [] =>
      cases rest with
      | nil => rw [lookupPath_single] at hl; simp at hl
      | cons r rs => rw [lookupPath_two] at hl; simp at hl
    | x :: bs =>
      simp only [List.cons.sizeOf_spec] at hsz
      match j with
      | 0 =>
        cases rest with
        | nil =>
          rw [lookupPath_single] at hl
          have hx : (x :: bs).get? 0 = some x := rfl
          rw [hx] at hl
          simp at hl
          subst hl
          have hhead : x.bid = i := hbid
          have hids : idsOfL (x :: bs) = x.bid :: (idsOfBlock x).tail ++ idsOfL bs ∨ True := Or.inr trivial
          have hnotbs : i ∉ idsOfL bs := by
            intro hm
            cases x with
            | group gi t ch =>
              simp only [idsOfL, List.nodup_cons] at hnd
              exact hnd.1 (by subst hhead; simp [Block.bid] at hm ⊢; exact Or.inr hm)
            | text a c =>
              simp only [idsOfL, List.nodup_cons] at hnd
              exact hnd.1 (by simp [Block.bid] at hhead ⊢; rw [hhead]; exact hm)
            | divider a =>
              simp only [idsOfL, List.nodup_cons] at hnd
              exact hnd.1 (by simp [Block.bid] at hhead ⊢; rw [hhead]; exact hm)
            | embed a u t =>
              simp only [idsOfL, List.nodup_cons] at hnd
              exact hnd.1 (by simp [Block.bid] at hhead ⊢; rw [hhead]; exact hm)
            | question a q p li im de op ms ca =>
              simp only [idsOfL, List.nodup_cons] at hnd
              exact hnd.1 (by simp [Block.bid] at hhead ⊢; rw [hhead]; exact hm)
          by_cases hgx : x.isGroup = true
          · match x, hgx with
            | Block.group gi t ch, _ =>
              rw [upd_cons_group]
              have : gi = i := hhead
              rw [if_pos this, upd_noop i nb bs hnotbs]
              simp [replacePath]
          · have hng : x.isGroup = false := by
              cases hv : x.isGroup
              · rfl
              · exact absurd hv hgx
            rw [upd_cons_nonGroup x hng, if_pos hhead, upd_noop i nb bs hnotbs]
            simp [replacePath]
        | cons r rs =>
          rw [lookupPath_two] at hl
          have hx : (x :: bs).get? 0 = some x := rfl
          rw [hx] at hl
          match x, hl, hsz with
          | Block.group gi t ch, hl, hsz =>
            replace hl : lookupPath ch (r :: rs) = some b := hl
            simp only [Block.group.sizeOf_spec] at hsz
            simp only [idsOfL, List.nodup_cons, List.nodup_append] at hnd
            have hich : i ∈ idsOfL ch := by
              rw [← hbid]
              exact lookupPath_bid_mem (r :: rs) ch b hl
            have hgi : gi ≠ i := by
              intro he
              exact hnd.1 (by rw [he]; exact List.mem_append.mpr (Or.inl hich))
            have hibs : i ∉ idsOfL bs := by
              intro hm
              exact hnd.2.2.2 hich hm
            rw [upd_cons_group, if_neg hgi, upd_noop i nb bs hibs]
            have hch : updateRecursive ch i nb = replacePath ch (r :: rs) nb := by
              refine ihn (sizeOf ch) (by omega) ch (le_refl _) r rs i nb b hnd.2.1 hl hbid
            rw [hch]
            simp [replacePath]
      | Nat.succ j2 =>
        rw [lookupPath_cons_succ] at hl
        have hibs : i ∈ idsOfL bs := by
          rw [← hbid]
          exact lookupPath_bid_mem (j2 :: rest) bs b hl
        have hnd2 : (idsOfL bs).Nodup := by
          cases x <;> simp only [idsOfL, List.nodup_cons, List.nodup_append] at hnd <;> tauto
        have hupd : updateRecursive bs i nb = replacePath bs (j2 :: rest) nb := by
          refine ihn (sizeOf bs) (by omega) bs (le_refl _) j2 rest i nb b hnd2 hl hbid
        rw [replacePath_cons_succ, ← hupd]
        cases x with
        | group gi t ch =>
          simp only [idsOfL, List.nodup_cons, List.nodup_append] at hnd
          have hgi : gi ≠ i := by
            intro he
            exact hnd.1 (by rw [he]; exact List.mem_append.mpr (Or.inr hibs))
          have hich : i ∉ idsOfL ch := by
            intro hm
            exact hnd.2.2.2 hm hibs
          rw [upd_cons_group, if_neg hgi, upd_noop i nb ch hich]
        | text a c =>
          simp only [idsOfL, List.nodup_cons] at hnd
          have : (Block.text a c).bid ≠ i := by
            intro he
            exact hnd.1 (by simp [Block.bid] at he; rw [show a = i from he]; exact hibs)
          rw [upd_cons_nonGroup (Block.text a c) rfl, if_neg this]
        | divider a =>
          simp only [idsOfL, List.nodup_cons] at hnd
          have : (Block.divider a).bid ≠ i := by
            intro he
            exact hnd.1 (by simp [Block.bid] at he; rw [show a = i from he]; exact hibs)
          rw [upd_cons_nonGroup (Block.divider a) rfl, if_neg this]
        | embed a u t =>
          simp only [idsOfL, List.nodup_cons] at hnd
          have : (Block.embed a u t).bid ≠ i := by
            intro he
            exact hnd.1 (by simp [Block.bid] at he; rw [show a = i from he]; exact hibs)
          rw [upd_cons_nonGroup (Block.embed a u t) rfl, if_neg this]
        | question a q p li im de op ms ca =>
          simp only [idsOfL, List.nodup_cons] at hnd
          have : (Block.question a q p li im de op ms ca).bid ≠ i := by
            intro he
            exact hnd.1 (by simp [Block.bid] at he; rw [show a = i from he]; exact hibs)
          rw [upd_cons_nonGroup (Block.question a q p li im de op ms ca) rfl, if_neg this]


/-- C5: under the documented id-uniqueness invariant, updateBlock replaces
the block with the matching id, wherever the path machinery locates it in
the tree, wholly by the new value while leaving every other position
untouched (the result is exactly the path-replacement of the input), and an
id that occurs nowhere makes the update a silent no-op. -/
theorem C5_update :
    (∀ blocks p i nb b, UniqueIds blocks → lookupPath blocks p = some b → b.bid = i →
      updateRecursive blocks i nb = replacePath blocks p nb) ∧
    (∀ blocks i nb, i ∉ idsOfL blocks → updateRecursive blocks i nb = blocks) := by
  constructor
  · intro blocks p i nb b hU hl hbid
    cases p with
    | nil => rw [lookupPath] at hl; cases hl
    | cons j rest =>
      exact upd_path_aux (sizeOf blocks) blocks (le_refl _) j rest i nb b hU hl hbid
  · intro blocks i nb h
    exact upd_noop i nb blocks h

/-- C5 witness: replacing the nested text block of a concrete worksheet
equals the path replacement at position [1, 0], and updating an absent id
changes nothing. -/
theorem C5_update_witness :
    updateRecursive [Block.text "a" "A", Block.group "g" none [Block.text "b" "B"]]
        "b" (Block.text "b" "B2")
      = replacePath [Block.text "a" "A", Block.group "g" none [Block.text "b" "B"]]
          [1, 0] (Block.text "b" "B2") ∧
    updateRecursive [Block.text "a" "A"] "zz" (Block.text "zz" "Z")
      = [Block.text "a" "A"] := by
  constructor
  · exact C5_update.1 [Block.text "a" "A", Block.group "g" none [Block.text "b" "B"]]
      [1, 0] "b" (Block.text "b" "B2") (Block.text "b" "B")
      (by simp [UniqueIds, idsOfL, Block.bid])
      (by simp [lookupPath]) rfl
  · exact C5_update.2 [Block.text "a" "A"] "zz" (Block.text "zz" "Z")
      (by simp [idsOfL, Block.bid])


theorem dupChildren_counter (gen : Nat → String) :
    ∀ l, ∀ n, (duplicateChildren gen l n).2 = n + countBlocksL l := by
  refine blist_ind _ ?_ ?_ ?_
  · intro n
    simp [duplicateChildren, countBlocksL]
  · intro gi t ch bs ihch ihbs n
    rw [duplicateChildren, duplicateBlockHelper]
    simp only [countBlocksL]
    rw [ihbs, ihch]
    omega
  · intro b bs hng ih n
    cases b <;> simp_all [Block.isGroup, Block.btype] <;>
      rw [duplicateChildren, duplicateBlockHelper] <;>
      simp only [countBlocksL] <;> rw [ih] <;> omega

theorem dupB_counter (gen : Nat → String) (b : Block) (n : Nat) :
    (duplicateBlockHelper gen b n).2 = n + countBlock b := by
  cases b <;> rw [duplicateBlockHelper] <;>
    simp [countBlock, countBlocksL, dupChildren_counter] <;> omega

theorem dupChildren_stripIds (gen : Nat → String) :
    ∀ l, ∀ n, stripIdsL (duplicateChildren gen l n).1 = stripIdsL l := by
  refine blist_ind _ ?_ ?_ ?_
  · intro n
    simp [duplicateChildren, stripIdsL]
  · intro gi t ch bs ihch ihbs n
    rw [duplicateChildren, duplicateBlockHelper]
    simp only [stripIdsL, stripIds]
    rw [ihbs, ihch]
  · intro b bs hng ih n
    cases b <;> simp_all [Block.isGroup, Block.btype] <;>
      rw [duplicateChildren, duplicateBlockHelper] <;>
      simp only [stripIdsL, stripIds] <;> rw [ih]

theorem dupB_stripIds (gen : Nat → String) (b : Block) (n : Nat) :
    stripIds (duplicateBlockHelper gen b n).1 = stripIds b := by
  cases b <;> rw [duplicateBlockHelper] <;>
    simp [stripIds, dupChildren_stripIds]

theorem dupChildren_ids (gen : Nat → String) :
    ∀ l, ∀ n x, x ∈ idsOfL (duplicateChildren gen l n).1 →
      ∃ m, m < countBlocksL l ∧ x = gen (n + m) := by
  refine blist_ind _ ?_ ?_ ?_
  · intro n x hx
    simp [duplicateChildren, idsOfL] at hx
  · intro gi t ch bs ihch ihbs n x hx
    rw [duplicateChildren, duplicateBlockHelper] at hx
    simp only [idsOfL, List.mem_cons, List.mem_append] at hx
    simp only [countBlocksL]
    rcases hx with h | h | h
    · exact ⟨0, by omega, by simpa using h⟩
    · obtain ⟨m, hm, he⟩ := ihch (n + 1) x h
      exact ⟨1 + m, by omega, by rw [he]; congr 1; omega⟩
    · rw [dupChildren_counter gen ch (n + 1)] at h
      obtain ⟨m, hm, he⟩ := ihbs (n + 1 + countBlocksL ch) x h
      exact ⟨1 + countBlocksL ch + m, by omega, by rw [he]; congr 1; omega⟩
  · intro b bs hng ih n x hx
    cases b with
    | group gi t ch => simp [Block.isGroup, Block.btype] at hng
    | text a c =>
      rw [duplicateChildren, duplicateBlockHelper] at hx
      simp only [idsOfL, Block.bid, List.mem_cons] at hx
      simp only [countBlocksL]
      rcases hx with h | h
      · exact ⟨0, by omega, by simpa using h⟩
      · obtain ⟨m, hm, he⟩ := ih (n + 1) x h
        exact ⟨1 + m, by omega, by rw [he]; congr 1; omega⟩
    | divider a =>
      rw [duplicateChildren, duplicateBlockHelper] at hx
      simp only [idsOfL, Block.bid, List.mem_cons] at hx
      simp only [countBlocksL]
      rcases hx with h | h
      · exact ⟨0, by omega, by simpa using h⟩
      · obtain ⟨m, hm, he⟩ := ih (n + 1) x h
        exact ⟨1 + m, by omega, by rw [he]; congr 1; omega⟩
    | embed a u t =>
      rw [duplicateChildren, duplicateBlockHelper] at hx
      simp only [idsOfL, Block.bid, List.mem_cons] at hx
      simp only [countBlocksL]
      rcases hx with h | h
      · exact ⟨0, by omega, by simpa using h⟩
      · obtain ⟨m, hm, he⟩ := ih (n + 1) x h
        exact ⟨1 + m, by omega, by rw [he]; congr 1; omega⟩
    | question a q p li im de op ms ca =>
      rw [duplicateChildren, duplicateBlockHelper] at hx
      simp only [idsOfL, Block.bid, List.mem_cons] at hx
      simp only [countBlocksL]
      rcases hx with h | h
      · exact ⟨0, by omega, by simpa using h⟩
      · obtain ⟨m, hm, he⟩ := ih (n + 1) x h
        exact ⟨1 + m, by omega, by rw [he]; congr 1; omega⟩

theorem dupB_ids (gen : Nat → String) (b : Block) (n : Nat) :
    ∀ x ∈ idsOfBlock (duplicateBlockHelper gen b n).1,
      ∃ m, m < countBlock b ∧ x = gen (n + m) := by
  intro x hx
  have hsing : (duplicateChildren gen [b] n).1 = [(duplicateBlockHelper gen b n).1] := by
    simp [duplicateChildren]
  have := dupChildren_ids gen [b] n x (by rw [hsing]; exact hx)
  simpa [countBlock] using this

theorem dupB_bid (gen : Nat → String) (b : Block) (n : Nat) :
    (duplicateBlockHelper gen b n).1.bid = gen n := by
  cases b <;> rw [duplicateBlockHelper] <;> simp [Block.bid]


theorem lookupListPath_cons_succ (x : Block) (bs : List Block) (j : Nat) (rest : List Nat) :
    lookupListPath (x :: bs) ((j + 1) :: rest) = lookupListPath bs (j :: rest) := by
  rw [lookupListPath, lookupListPath]
  rfl

theorem updateListPath_cons_succ (x : Block) (bs : List Block) (j : Nat) (rest : List Nat)
    (newL : List Block) :
    updateListPath (x :: bs) ((j + 1) :: rest) newL = x :: updateListPath bs (j :: rest) newL := by
  rw [updateListPath, updateListPath]
  have hj : (x :: bs).get? (j + 1) = bs.get? j := rfl
  rw [hj]
  cases hg : bs.get? j with
  | none => simp
  | some bj => cases bj <;> simp

theorem lookupListPath_sub :
    ∀ q bs L, lookupListPath bs q = some L → idsOfL L ⊆ idsOfL bs := by
  intro q
  induction q with
  | nil =>
    intro bs L h
    rw [lookupListPath] at h
    simp at h
    subst h
    exact fun x hx => hx
  | cons j rest ih =>
    intro bs L h
    rw [lookupListPath] at h
    cases hj : bs.get? j with
    | none => rw [hj] at h; simp at h
    | some bj =>
      rw [hj] at h
      match bj, h with
      | Block.group gi t ch, h =>
        intro x hx
        have hsub := ih ch L h hx
        refine idsOfL_sub_of_mem bs _ (List.get?_mem hj) ?_
        simp [idsOfBlock, idsOfL]
        tauto

theorem bid_not_in_tail (y : Block) (ys : List Block) (h : (idsOfL (y :: ys)).Nodup) :
    y.bid ∉ idsOfL ys ∧ (idsOfL ys).Nodup := by
  cases y <;> simp only [idsOfL, Block.bid, List.nodup_cons, List.nodup_append,
    List.mem_append] at h <;> tauto

theorem nested_bid_not_head :
    ∀ bs, (idsOfL bs).Nodup → ∀ j rest L, lookupListPath bs (j :: rest) = some L →
      ∀ w ∈ idsOfL L, ∀ x ∈ bs, x.bid ≠ w := by
  intro bs
  induction bs with
  | nil =>
    intro _ j rest L h
    rw [lookupListPath] at h
    simp at h
  | cons y ys ih =>
    intro hnd j rest L h w hw x hx
    match j with
    | 0 =>
      rw [lookupListPath] at h
      have h0 : (y :: ys).get? 0 = some y := rfl
      rw [h0] at h
      match y, h, hnd, hx with
      | Block.group gi t ch, h, hnd, hx =>
        have hwch : w ∈ idsOfL ch := lookupListPath_sub rest ch L h hw
        simp only [idsOfL, List.nodup_cons, List.nodup_append, List.mem_append] at hnd
        rcases List.mem_cons.mp hx with hxy | hxys
        · subst hxy
          intro he
          simp only [Block.bid] at he
          exact hnd.1 (Or.inl (he ▸ hwch))
        · intro he
          have hxbid : x.bid ∈ idsOfL ys :=
            idsOfL_sub_of_mem ys x hxys (bid_mem_idsOfBlock x)
          exact hnd.2.2.2 (he ▸ hwch) hxbid
    | Nat.succ j2 =>
      rw [lookupListPath_cons_succ] at h
      have hwys : w ∈ idsOfL ys := by
        refine lookupListPath_sub (j2 :: rest) ys L ?_ hw
        rw [lookupListPath]
        rw [lookupListPath] at h
        exact h
      obtain ⟨hynotin, hysnd⟩ := bid_not_in_tail y ys hnd
      rcases List.mem_cons.mp hx with hxy | hxys
      · subst hxy
        intro he
        exact hynotin (he ▸ hwys)
      · exact ih hysnd j2 rest L h w hw x hxys

theorem findIdx_bid_len (tid : String) :
    ∀ l : List Block, (∀ x ∈ l, x.bid ≠ tid) →
      (l.findIdx fun x => x.bid = tid) = l.length := by
  intro l h
  rw [List.findIdx_eq_length]
  intro x hx
  simp [h x hx]

theorem insc_cons_group (gi : String) (t : Option String) (ch bs : List Block)
    (tid : String) (nb : Block) :
    insertAfterChildren (Block.group gi t ch :: bs) tid nb =
      Block.group gi t (insertAfterRecursive ch tid nb) :: insertAfterChildren bs tid nb := by
  rw [insertAfterChildren]

theorem insc_cons_nonGroup (b : Block) (hb : b.isGroup = false) (bs : List Block)
    (tid : String) (nb : Block) :
    insertAfterChildren (b :: bs) tid nb = b :: insertAfterChildren bs tid nb := by
  cases b <;> simp_all [Block.isGroup, Block.btype] <;> rw [insertAfterChildren] <;> simp

theorem ins_children_noop (tid : String) (nb : Block) :
    ∀ l, tid ∉ idsOfL l →
      insertAfterChildren l tid nb = l ∧ insertAfterRecursive l tid nb = l := by
  refine blist_ind _ ?_ ?_ ?_
  · simp [insertAfterChildren, insertAfterRecursive, List.findIdx]
  · intro gi t ch bs ihch ihbs hmem
    simp only [idsOfL, List.mem_cons, List.mem_append] at hmem
    have hch := ihch (fun hm => hmem (Or.inr (Or.inl hm)))
    have hbs := ihbs (fun hm => hmem (Or.inr (Or.inr hm)))
    have hc : insertAfterChildren (Block.group gi t ch :: bs) tid nb
        = Block.group gi t ch :: bs := by
      rw [insc_cons_group, hch.2, hbs.1]
    refine ⟨hc, ?_⟩
    rw [insertAfterRecursive, if_neg, hc]
    have hhead : ∀ x ∈ Block.group gi t ch :: bs, x.bid ≠ tid := by
      intro x hx he
      rcases List.mem_cons.mp hx with h | h
      · subst h
        simp only [Block.bid] at he
        exact hmem (Or.inl he.symm)
      · exact hmem (Or.inr (Or.inr (he ▸ idsOfL_sub_of_mem bs x h (bid_mem_idsOfBlock x))))
    rw [findIdx_bid_len tid _ hhead]
    omega
  · intro b bs hng ih hmem
    rw [idsOfL_cons_nonGroup b hng] at hmem
    simp only [List.mem_cons] at hmem
    have hbs := ih (fun hm => hmem (Or.inr hm))
    have hc : insertAfterChildren (b :: bs) tid nb = b :: bs := by
      rw [insc_cons_nonGroup b hng, hbs.1]
    refine ⟨hc, ?_⟩
    rw [insertAfterRecursive, if_neg, hc]
    have hhead : ∀ x ∈ b :: bs, x.bid ≠ tid := by
      intro x hx he
      rcases List.mem_cons.mp hx with h | h
      · subst h; exact hmem (Or.inl he.symm)
      · exact hmem (Or.inr (he ▸ idsOfL_sub_of_mem bs x h (bid_mem_idsOfBlock x)))
    rw [findIdx_bid_len tid _ hhead]
    omega


theorem findIdx_get_eq (tid : String) :
    ∀ L k b, (idsOfL L).Nodup → L.get? k = some b → b.bid = tid →
      (L.findIdx fun x => x.bid = tid) = k := by
  intro L
  induction L with
  | nil => intro k b _ hk; simp at hk
  | cons y ys ih =>
    intro k b hnd hk hbid
    match k with
    | 0 =>
      have h0 : (y :: ys).get? 0 = some y := rfl
      rw [h0] at hk
      simp at hk
      subst hk
      rw [List.findIdx_cons]
      simp [hbid]
    | Nat.succ k2 =>
      have hs : (y :: ys).get? (k2 + 1) = ys.get? k2 := rfl
      rw [hs] at hk
      obtain ⟨hynot, hysnd⟩ := bid_not_in_tail y ys hnd
      have hbmem : b.bid ∈ idsOfL ys :=
        idsOfL_sub_of_mem ys b (List.get?_mem hk) (bid_mem_idsOfBlock b)
      have hyne : (y.bid = tid) = False := by
        simp only [eq_iff_iff, iff_false]
        intro he
        exact hynot (by rw [he, ← hbid]; exact hbmem)
      rw [List.findIdx_cons]
      simp only [hyne, decide_False, cond_false]
      rw [ih k2 b hysnd hk hbid]

theorem dup_ins_aux :
    ∀ n blocks, sizeOf blocks ≤ n → ∀ q L k b nb, (idsOfL blocks).Nodup →
      lookupListPath blocks q = some L → L.get? k = some b →
      insertAfterRecursive blocks b.bid nb = updateListPath blocks q (spliceIn L (k + 1) nb) := by
  intro n
  induction n using Nat.strong_induction_on with
  | _ n ihn =>
    intro blocks hsz q L k b nb hnd hq hk
    cases q with
    | nil =>
      rw [lookupListPath] at hq
      simp at hq
      subst hq
      rw [updateListPath, insertAfterRecursive]
      have hfi : (blocks.findIdx fun x => x.bid = b.bid) = k :=
        findIdx_get_eq b.bid blocks k b hnd hk rfl
      have hklen : k < blocks.length := by
        cases hlt : decide (k < blocks.length) with
        | true => exact of_decide_eq_true hlt
        | false =>
          have : blocks.get? k = none := List.get?_eq_none.mpr (by
            have := of_decide_eq_false hlt
            omega)
          rw [this] at hk
          cases hk
      rw [hfi, if_pos hklen]
    | cons j rest =>
      match blocks with
      | [] =>
        rw [lookupListPath] at hq
        simp at hq
      | x :: bs =>
        simp only [List.cons.sizeOf_spec] at hsz
        have hw : b.bid ∈ idsOfL L :=
          idsOfL_sub_of_mem L b (List.get?_mem hk) (bid_mem_idsOfBlock b)
        have hheads : ∀ y ∈ x :: bs, y.bid ≠ b.bid :=
          fun y hy => nested_bid_not_head (x :: bs) hnd j rest L hq b.bid hw y hy
        rw [insertAfterRecursive, if_neg (by rw [findIdx_bid_len _ _ hheads]; omega)]
        match j with
        | 0 =>
          rw [lookupListPath] at hq
          have h0 : (x :: bs).get? 0 = some x := rfl
          rw [h0] at hq
          match x, hq, hsz, hheads with
          | Block.group gi t ch, hq, hsz, hheads =>
            replace hq : lookupListPath ch rest = some L := hq
            simp only [Block.group.sizeOf_spec] at hsz
            have hchnd : (idsOfL ch).Nodup := by
              simp only [idsOfL, List.nodup_cons, List.nodup_append] at hnd
              exact hnd.2.1
            have hbidbs : b.bid ∉ idsOfL bs := by
              intro hm
              have hch : b.bid ∈ idsOfL ch := lookupListPath_sub rest ch L hq hw
              simp only [idsOfL, List.nodup_cons, List.nodup_append] at hnd
              exact hnd.2.2.2 hch hm
            rw [insc_cons_group, (ins_children_noop b.bid nb bs hbidbs).1]
            have hrec : insertAfterRecursive ch b.bid nb
                = updateListPath ch rest (spliceIn L (k + 1) nb) :=
              ihn (sizeOf ch) (by omega) ch (le_refl _) rest L k b nb hchnd hq hk
            rw [hrec]
            have hupd : updateListPath (Block.group gi t ch :: bs) (0 :: rest)
                  (spliceIn L (k + 1) nb)
                = Block.group gi t (updateListPath ch rest (spliceIn L (k + 1) nb)) :: bs := by
              rw [updateListPath]
              rfl
            rw [hupd]
        | Nat.succ j2 =>
          rw [lookupListPath_cons_succ] at hq
          obtain ⟨hxnot, hbsnd⟩ := bid_not_in_tail x bs hnd
          have hhb : ∀ y ∈ bs, y.bid ≠ b.bid :=
            fun y hy => hheads y (List.mem_cons_of_mem _ hy)
          have hrec : insertAfterRecursive bs b.bid nb
              = updateListPath bs (j2 :: rest) (spliceIn L (k + 1) nb) :=
            ihn (sizeOf bs) (by omega) bs (le_refl _) (j2 :: rest) L k b nb hbsnd hq hk
          have hchains : insertAfterRecursive bs b.bid nb = insertAfterChildren bs b.bid nb := by
            rw [insertAfterRecursive, if_neg]
            rw [findIdx_bid_len _ _ hhb]
            omega
          rw [updateListPath_cons_succ, ← hrec, hchains]
          cases x with
          | group gi t ch =>
            have hmembs : b.bid ∈ idsOfL bs := lookupListPath_sub (j2 :: rest) bs L hq hw
            have hnotch : b.bid ∉ idsOfL ch := by
              intro hm
              simp only [idsOfL, List.nodup_cons, List.nodup_append] at hnd
              exact hnd.2.2.2 hm hmembs
            rw [insc_cons_group, (ins_children_noop b.bid nb ch hnotch).2]
          | text a c => rw [insc_cons_nonGroup (Block.text a c) rfl]
          | divider a => rw [insc_cons_nonGroup (Block.divider a) rfl]
          | embed a u t => rw [insc_cons_nonGroup (Block.embed a u t) rfl]
          | question a q2 p li im de op ms ca =>
            rw [insc_cons_nonGroup (Block.question a q2 p li im de op ms ca) rfl]


/-- C4: with unique ids and fresh generated ids (the generator values
consumed by the duplication do not occur in the tree), duplicateBlock
inserts the deep copy immediately after the original in the very sibling
list, root or group children, that holds the original (the result is the
path replacement of that list by itself with the copy spliced in right
after the original); the copy carries a different id, every id of the copy
differs from every id inside the original, and stripping ids the copy
equals the original, so all non-id fields of the copy and of each
descendant agree with the original. -/
theorem C4_duplicate (gen : Nat → String) (blocks : List Block) (b : Block)
    (q : List Nat) (L : List Block) (k n : Nat)
    (hfresh : ∀ m, m < countBlock b → gen (n + m) ∉ idsOfL blocks)
    (hU : UniqueIds blocks)
    (hq : lookupListPath blocks q = some L)
    (hk : L.get? k = some b) :
    duplicateBlock gen n blocks b
      = updateListPath blocks q (spliceIn L (k + 1) (duplicateBlockHelper gen b n).1) ∧
    (duplicateBlockHelper gen b n).1.bid ≠ b.bid ∧
    (∀ x ∈ idsOfBlock (duplicateBlockHelper gen b n).1, x ∉ idsOfBlock b) ∧
    stripIds (duplicateBlockHelper gen b n).1 = stripIds b := by
  have hbsub : idsOfBlock b ⊆ idsOfL blocks := fun y hy =>
    lookupListPath_sub q blocks L hq (idsOfL_sub_of_mem L b (List.get?_mem hk) hy)
  refine ⟨?_, ?_, ?_, dupB_stripIds gen b n⟩
  · rw [duplicateBlock]
    exact dup_ins_aux (sizeOf blocks) blocks (le_refl _) q L k b _ hU hq hk
  · rw [dupB_bid]
    intro he
    refine hfresh 0 (countBlock_pos b) ?_
    rw [Nat.add_zero, he]
    exact hbsub (bid_mem_idsOfBlock b)
  · intro x hx hxb
    obtain ⟨m, hm, he⟩ := dupB_ids gen b n x hx
    exact hfresh m hm (he ▸ hbsub hxb)

/-- C4 witness: duplicating the group of a one-entry worksheet with the
two fresh ids n0 and n1. -/
theorem C4_duplicate_witness :
    duplicateBlock (fun m => if m = 0 then "n0" else "n1") 0
        [Block.group "g" none [Block.text "b" "B"]]
        (Block.group "g" none [Block.text "b" "B"])
      = updateListPath [Block.group "g" none [Block.text "b" "B"]] []
          (spliceIn [Block.group "g" none [Block.text "b" "B"]] 1
            (duplicateBlockHelper (fun m => if m = 0 then "n0" else "n1")
              (Block.group "g" none [Block.text "b" "B"]) 0).1) ∧
    (duplicateBlockHelper (fun m => if m = 0 then "n0" else "n1")
        (Block.group "g" none [Block.text "b" "B"]) 0).1.bid
      ≠ (Block.group "g" none [Block.text "b" "B"]).bid ∧
    (∀ x ∈ idsOfBlock (duplicateBlockHelper (fun m => if m = 0 then "n0" else "n1")
        (Block.group "g" none [Block.text "b" "B"]) 0).1,
      x ∉ idsOfBlock (Block.group "g" none [Block.text "b" "B"])) ∧
    stripIds (duplicateBlockHelper (fun m => if m = 0 then "n0" else "n1")
        (Block.group "g" none [Block.text "b" "B"]) 0).1
      = stripIds (Block.group "g" none [Block.text "b" "B"]) := by
  refine C4_duplicate (fun m => if m = 0 then "n0" else "n1")
    [Block.group "g" none [Block.text "b" "B"]]
    (Block.group "g" none [Block.text "b" "B"]) [] _ 0 0 ?_ ?_ ?_ ?_
  · intro m hm
    simp only [countBlock, countBlocksL] at hm
    match m with
    | 0 => simp [idsOfL, Block.bid]
    | 1 => simp [idsOfL, Block.bid]
    | m + 2 => omega
  · simp [UniqueIds, idsOfL, Block.bid]
  · rw [lookupListPath]
  · rfl


theorem ndi_cons_group (gi : String) (t : Option String) (ch bs : List Block) :
    noDivInside (Block.group gi t ch :: bs) = (noDivInside ch && noDivInside bs) := by
  rw [noDivInside]

theorem ndi_cons_divider (i : String) (bs : List Block) :
    noDivInside (Block.divider i :: bs) = false := by
  rw [noDivInside]

theorem ndi_cons_plain (b : Block) (hb : b.isGroup = false) (hd : b.isDivider = false)
    (bs : List Block) : noDivInside (b :: bs) = noDivInside bs := by
  cases b <;> simp_all [Block.isGroup, Block.isDivider, Block.btype] <;>
    rw [noDivInside] <;> simp

theorem gdf_cons_group (gi : String) (t : Option String) (ch bs : List Block) :
    groupsDividerFree (Block.group gi t ch :: bs) = (noDivInside ch && groupsDividerFree bs) := by
  rw [groupsDividerFree]

theorem gdf_cons_nonGroup (b : Block) (hb : b.isGroup = false) (bs : List Block) :
    groupsDividerFree (b :: bs) = groupsDividerFree bs := by
  cases b <;> simp_all [Block.isGroup, Block.btype] <;> rw [groupsDividerFree] <;> simp

theorem ndi_remove (i : String) :
    ∀ l, noDivInside l = true → noDivInside (removeBlockRecursive l i) = true := by
  refine blist_ind _ ?_ ?_ ?_
  · simp [removeBlockRecursive]
  · intro gi t ch bs ihch ihbs h
    rw [ndi_cons_group] at h
    simp at h
    rw [rm_cons_group]
    by_cases hb : gi = i
    · rw [if_pos hb]
      exact ihbs h.2
    · rw [if_neg hb, ndi_cons_group]
      simp [ihch h.1, ihbs h.2]
  · intro b bs hng ih h
    by_cases hd : b.isDivider = true
    · cases b <;> simp_all [Block.isDivider, Block.btype]
      rw [ndi_cons_divider] at h
      cases h
    · have hd2 : b.isDivider = false := by
        cases hv : b.isDivider
        · rfl
        · exact absurd hv hd
      rw [ndi_cons_plain b hng hd2] at h
      rw [rm_cons_nonGroup b hng]
      by_cases hb : b.bid = i
      · rw [if_pos hb]
        exact ih h
      · rw [if_neg hb, ndi_cons_plain b hng hd2]
        exact ih h

theorem gdf_remove (i : String) :
    ∀ l, groupsDividerFree l = true → groupsDividerFree (removeBlockRecursive l i) = true := by
  refine blist_ind _ ?_ ?_ ?_
  · simp [removeBlockRecursive]
  · intro gi t ch bs ihch ihbs h
    rw [gdf_cons_group] at h
    simp at h
    rw [rm_cons_group]
    by_cases hb : gi = i
    · rw [if_pos hb]
      exact ihbs h.2
    · rw [if_neg hb, gdf_cons_group]
      simp [ndi_remove i ch h.1, ihbs h.2]
  · intro b bs hng ih h
    rw [gdf_cons_nonGroup b hng] at h
    rw [rm_cons_nonGroup b hng]
    by_cases hb : b.bid = i
    · rw [if_pos hb]
      exact ih h
    · rw [if_neg hb, gdf_cons_nonGroup b hng]
      exact ih h

theorem ndi_splice (m : Block) (hm : noDivInside [m] = true) :
    ∀ l k, noDivInside l = true → noDivInside (spliceIn l k m) = true := by
  intro l
  induction l with
  | nil =>
    intro k h
    match k with
    | 0 => simpa [spliceIn] using hm
    | k + 1 => simpa [spliceIn] using hm
  | cons x xs ih =>
    intro k h
    match k with
    | 0 =>
      rw [spliceIn]
      cases m with
      | group gi t ch =>
        rw [ndi_cons_group]
        rw [ndi_cons_group] at hm
        simp at hm ⊢
        exact ⟨hm.1, h⟩
      | divider i => rw [ndi_cons_divider] at hm; cases hm
      | text i c => rw [ndi_cons_plain (Block.text i c) rfl rfl]; exact h
      | embed i u t => rw [ndi_cons_plain (Block.embed i u t) rfl rfl]; exact h
      | question i q p li im de op ms ca =>
        rw [ndi_cons_plain (Block.question i q p li im de op ms ca) rfl rfl]; exact h
    | k + 1 =>
      rw [spliceIn]
      cases x with
      | group gi t ch =>
        rw [ndi_cons_group] at h ⊢
        simp at h ⊢
        exact ⟨h.1, ih k h.2⟩
      | divider i => rw [ndi_cons_divider] at h; cases h
      | text i c =>
        rw [ndi_cons_plain (Block.text i c) rfl rfl] at h ⊢
        exact ih k h
      | embed i u t =>
        rw [ndi_cons_plain (Block.embed i u t) rfl rfl] at h ⊢
        exact ih k h
      | question i q p li im de op ms ca =>
        rw [ndi_cons_plain (Block.question i q p li im de op ms ca) rfl rfl] at h ⊢
        exact ih k h

theorem gdf_splice (m : Block) (hm : blockInnerOk m = true) :
    ∀ l k, groupsDividerFree l = true → groupsDividerFree (spliceIn l k m) = true := by
  intro l
  induction l with
  | nil =>
    intro k h
    have hone : groupsDividerFree [m] = true := by
      cases m with
      | group gi t ch =>
        rw [gdf_cons_group]
        simp [groupsDividerFree]
        simpa [blockInnerOk] using hm
      | divider i => rw [gdf_cons_nonGroup (Block.divider i) rfl]; simp [groupsDividerFree]
      | text i c => rw [gdf_cons_nonGroup (Block.text i c) rfl]; simp [groupsDividerFree]
      | embed i u t => rw [gdf_cons_nonGroup (Block.embed i u t) rfl]; simp [groupsDividerFree]
      | question i q p li im de op ms ca =>
        rw [gdf_cons_nonGroup (Block.question i q p li im de op ms ca) rfl]
        simp [groupsDividerFree]
    match k with
    | 0 => simpa [spliceIn] using hone
    | k + 1 => simpa [spliceIn] using hone
  | cons x xs ih =>
    intro k h
    match k with
    | 0 =>
      rw [spliceIn]
      cases m with
      | group gi t ch =>
        rw [gdf_cons_group]
        simp only [blockInnerOk] at hm
        simp [hm, h]
      | divider i => rw [gdf_cons_nonGroup (Block.divider i) rfl]; exact h
      | text i c => rw [gdf_cons_nonGroup (Block.text i c) rfl]; exact h
      | embed i u t => rw [gdf_cons_nonGroup (Block.embed i u t) rfl]; exact h
      | question i q p li im de op ms ca =>
        rw [gdf_cons_nonGroup (Block.question i q p li im de op ms ca) rfl]; exact h
    | k + 1 =>
      rw [spliceIn]
      cases x with
      | group gi t ch =>
        rw [gdf_cons_group] at h ⊢
        simp at h ⊢
        exact ⟨h.1, ih k h.2⟩
      | divider i =>
        rw [gdf_cons_nonGroup (Block.divider i) rfl] at h ⊢
        exact ih k h
      | text i c =>
        rw [gdf_cons_nonGroup (Block.text i c) rfl] at h ⊢
        exact ih k h
      | embed i u t =>
        rw [gdf_cons_nonGroup (Block.embed i u t) rfl] at h ⊢
        exact ih k h
      | question i q p li im de op ms ca =>
        rw [gdf_cons_nonGroup (Block.question i q p li im de op ms ca) rfl] at h ⊢
        exact ih k h

theorem gdf_append_single (m : Block) (hm : blockInnerOk m = true) :
    ∀ l, groupsDividerFree l = true → groupsDividerFree (l ++ [m]) = true := by
  refine blist_ind _ ?_ ?_ ?_
  · intro _
    cases m with
    | group gi t ch =>
      simp only [List.nil_append]
      rw [gdf_cons_group]
      simp [groupsDividerFree]
      simpa [blockInnerOk] using hm
    | divider i => simp [gdf_cons_nonGroup (Block.divider i) rfl, groupsDividerFree]
    | text i c => simp [gdf_cons_nonGroup (Block.text i c) rfl, groupsDividerFree]
    | embed i u t => simp [gdf_cons_nonGroup (Block.embed i u t) rfl, groupsDividerFree]
    | question i q p li im de op ms ca =>
      simp [gdf_cons_nonGroup (Block.question i q p li im de op ms ca) rfl, groupsDividerFree]
  · intro gi t ch bs ihch ihbs h
    rw [gdf_cons_group] at h
    simp only [List.cons_append]
    rw [gdf_cons_group]
    simp at h ⊢
    exact ⟨h.1, ihbs h.2⟩
  · intro b bs hng ih h
    rw [gdf_cons_nonGroup b hng] at h
    simp only [List.cons_append]
    rw [gdf_cons_nonGroup b hng]
    exact ih h

theorem ndi_insert (pid : String) (idx : Int) (m : Block) (hm : noDivInside [m] = true) :
    ∀ l, noDivInside l = true → noDivInside (insertBlockAt l (some pid) idx m) = true := by
  refine blist_ind _ ?_ ?_ ?_
  · simp [insertBlockAt]
  · intro gi t ch bs ihch ihbs h
    rw [ndi_cons_group] at h
    simp at h
    rw [insertBlockAt_cons_group]
    by_cases hb : gi = pid
    · rw [if_pos hb, ndi_cons_group]
      simp [ndi_splice m hm ch _ h.1, ihbs h.2]
    · rw [if_neg hb, ndi_cons_group]
      simp [ihch h.1, ihbs h.2]
  · intro b bs hng ih h
    rw [insertBlockAt_cons_nonGroup b hng]
    by_cases hd : b.isDivider = true
    · cases b <;> simp_all [Block.isDivider, Block.btype]
      rw [ndi_cons_divider] at h
      cases h
    · have hd2 : b.isDivider = false := by
        cases hv : b.isDivider
        · rfl
        · exact absurd hv hd
      rw [ndi_cons_plain b hng hd2] at h
      rw [ndi_cons_plain b hng hd2]
      exact ih h

theorem gdf_insert (pid : String) (idx : Int) (m : Block) (hm : noDivInside [m] = true) :
    ∀ l, groupsDividerFree l = true → groupsDividerFree (insertBlockAt l (some pid) idx m) = true := by
  refine blist_ind _ ?_ ?_ ?_
  · simp [insertBlockAt]
  · intro gi t ch bs ihch ihbs h
    rw [gdf_cons_group] at h
    simp at h
    rw [insertBlockAt_cons_group]
    by_cases hb : gi = pid
    · rw [if_pos hb, gdf_cons_group]
      simp [ndi_splice m hm ch _ h.1, ihbs h.2]
    · rw [if_neg hb, gdf_cons_group]
      simp [ndi_insert pid idx m hm ch h.1, ihbs h.2]
  · intro b bs hng ih h
    rw [gdf_cons_nonGroup b hng] at h
    rw [insertBlockAt_cons_nonGroup b hng, gdf_cons_nonGroup b hng]
    exact ih h

theorem ndi_nodes_group :
    ∀ l, noDivInside l = true → ∀ gi t ch, Block.group gi t ch ∈ nodesL l →
      noDivInside ch = true := by
  refine blist_ind _ ?_ ?_ ?_
  · simp [nodesL]
  · intro gi2 t2 ch2 bs ihch ihbs h gi t ch hmem
    rw [ndi_cons_group] at h
    simp at h
    simp only [nodesL, List.mem_cons, List.mem_append] at hmem
    rcases hmem with he | hm | hm
    · cases he
      exact h.1
    · exact ihch h.1 gi t ch hm
    · exact ihbs h.2 gi t ch hm
  · intro b bs hng ih h gi t ch hmem
    rw [nodesL_cons_nonGroup b hng] at hmem
    by_cases hd : b.isDivider = true
    · cases b <;> simp_all [Block.isDivider, Block.btype]
      rw [ndi_cons_divider] at h
      cases h
    · have hd2 : b.isDivider = false := by
        cases hv : b.isDivider
        · rfl
        · exact absurd hv hd
      rw [ndi_cons_plain b hng hd2] at h
      rcases List.mem_cons.mp hmem with he | hm
      · subst he
        simp [Block.isGroup, Block.btype] at hng
      · exact ih h gi t ch hm

theorem gdf_nodes_group :
    ∀ l, groupsDividerFree l = true → ∀ gi t ch, Block.group gi t ch ∈ nodesL l →
      noDivInside ch = true := by
  refine blist_ind _ ?_ ?_ ?_
  · simp [nodesL]
  · intro gi2 t2 ch2 bs ihch ihbs h gi t ch hmem
    rw [gdf_cons_group] at h
    simp at h
    simp only [nodesL, List.mem_cons, List.mem_append] at hmem
    rcases hmem with he | hm | hm
    · cases he
      exact h.1
    · exact ndi_nodes_group ch2 h.1 gi t ch hm
    · exact ihbs h.2 gi t ch hm
  · intro b bs hng ih h gi t ch hmem
    rw [gdf_cons_nonGroup b hng] at h
    rw [nodesL_cons_nonGroup b hng] at hmem
    rcases List.mem_cons.mp hmem with he | hm
    · subst he
      simp [Block.isGroup, Block.btype] at hng
    · exact ih h gi t ch hm

theorem findBlock_mem_nodes (i : String) :
    ∀ bs mb, findBlock bs i = some mb → mb ∈ nodesL bs := by
  refine blist_ind _ ?_ ?_ ?_
  · simp [findBlock]
  · intro gi t ch bs ihch ihbs mb hf
    rw [findBlock_cons_group] at hf
    by_cases hb : gi = i
    · rw [if_pos hb] at hf
      simp at hf
      subst hf
      simp [nodesL]
    · rw [if_neg hb] at hf
      simp only [nodesL, List.mem_cons, List.mem_append]
      cases hch : findBlock ch i with
      | some r =>
        rw [hch] at hf
        simp at hf
        subst hf
        exact Or.inr (Or.inl (ihch r hch))
      | none =>
        rw [hch] at hf
        exact Or.inr (Or.inr (ihbs mb hf))
  · intro b bs hng ih mb hf
    rw [findBlock_cons_nonGroup b hng] at hf
    rw [nodesL_cons_nonGroup b hng]
    by_cases hb : b.bid = i
    · rw [if_pos hb] at hf
      simp at hf
      subst hf
      simp
    · rw [if_neg hb] at hf
      exact List.mem_cons_of_mem _ (ih mb hf)


theorem ndi_update (i : String) (nb : Block) (hnb : noDivInside [nb] = true) :
    ∀ l, noDivInside l = true → noDivInside (updateRecursive l i nb) = true := by
  refine blist_ind _ ?_ ?_ ?_
  · simp [updateRecursive]
  · intro gi t ch bs ihch ihbs h
    rw [ndi_cons_group] at h
    simp at h
    rw [upd_cons_group]
    by_cases hb : gi = i
    · rw [if_pos hb]
      have := ndi_splice nb hnb (updateRecursive bs i nb) 0 (ihbs h.2)
      simpa [spliceIn] using this
    · rw [if_neg hb, ndi_cons_group]
      simp [ihch h.1, ihbs h.2]
  · intro b bs hng ih h
    by_cases hd : b.isDivider = true
    · cases b <;> simp_all [Block.isDivider, Block.btype]
      rw [ndi_cons_divider] at h
      cases h
    · have hd2 : b.isDivider = false := by
        cases hv : b.isDivider
        · rfl
        · exact absurd hv hd
      rw [ndi_cons_plain b hng hd2] at h
      rw [upd_cons_nonGroup b hng]
      by_cases hb : b.bid = i
      · rw [if_pos hb]
        have := ndi_splice nb hnb (updateRecursive bs i nb) 0 (ih h)
        simpa [spliceIn] using this
      · rw [if_neg hb, ndi_cons_plain b hng hd2]
        exact ih h

theorem gdf_update (i : String) (nb : Block) (hnb : noDivInside [nb] = true) :
    ∀ l, groupsDividerFree l = true → groupsDividerFree (updateRecursive l i nb) = true := by
  refine blist_ind _ ?_ ?_ ?_
  · simp [updateRecursive]
  · intro gi t ch bs ihch ihbs h
    rw [gdf_cons_group] at h
    simp at h
    rw [upd_cons_group]
    by_cases hb : gi = i
    · rw [if_pos hb]
      have hone : groupsDividerFree [nb] = true := by
        cases nb with
        | group gi2 t2 ch2 =>
          rw [ndi_cons_group] at hnb
          simp at hnb
          rw [gdf_cons_group]
          simp [hnb.1, groupsDividerFree]
        | divider i2 => rw [ndi_cons_divider] at hnb; cases hnb
        | text i2 c => simp [gdf_cons_nonGroup (Block.text i2 c) rfl, groupsDividerFree]
        | embed i2 u t2 => simp [gdf_cons_nonGroup (Block.embed i2 u t2) rfl, groupsDividerFree]
        | question i2 q p li im de op ms ca =>
          simp [gdf_cons_nonGroup (Block.question i2 q p li im de op ms ca) rfl, groupsDividerFree]
      cases nb with
      | group gi2 t2 ch2 =>
        rw [gdf_cons_group]
        rw [gdf_cons_group] at hone
        simp at hone ⊢
        exact ⟨hone.1, ihbs h.2⟩
      | divider i2 => rw [ndi_cons_divider] at hnb; cases hnb
      | text i2 c => rw [gdf_cons_nonGroup (Block.text i2 c) rfl]; exact ihbs h.2
      | embed i2 u t2 => rw [gdf_cons_nonGroup (Block.embed i2 u t2) rfl]; exact ihbs h.2
      | question i2 q p li im de op ms ca =>
        rw [gdf_cons_nonGroup (Block.question i2 q p li im de op ms ca) rfl]; exact ihbs h.2
    · rw [if_neg hb, gdf_cons_group]
      simp [ndi_update i nb hnb ch h.1, ihbs h.2]
  · intro b bs hng ih h
    rw [gdf_cons_nonGroup b hng] at h
    rw [upd_cons_nonGroup b hng]
    by_cases hb : b.bid = i
    · rw [if_pos hb]
      cases nb with
      | group gi2 t2 ch2 =>
        rw [ndi_cons_group] at hnb
        simp at hnb
        rw [gdf_cons_group]
        simp [hnb.1, ih h]
      | divider i2 => rw [ndi_cons_divider] at hnb; cases hnb
      | text i2 c => rw [gdf_cons_nonGroup (Block.text i2 c) rfl]; exact ih h
      | embed i2 u t2 => rw [gdf_cons_nonGroup (Block.embed i2 u t2) rfl]; exact ih h
      | question i2 q p li im de op ms ca =>
        rw [gdf_cons_nonGroup (Block.question i2 q p li im de op ms ca) rfl]; exact ih h
    · rw [if_neg hb, gdf_cons_nonGroup b hng]
      exact ih h

theorem ndi_insertAfter (tid : String) (nb : Block) (hnb : noDivInside [nb] = true) :
    ∀ l, noDivInside l = true →
      noDivInside (insertAfterChildren l tid nb) = true ∧
      noDivInside (insertAfterRecursive l tid nb) = true := by
  refine blist_ind _ ?_ ?_ ?_
  · intro _
    refine ⟨by simp [insertAfterChildren, noDivInside], ?_⟩
    rw [insertAfterRecursive, if_neg (by simp [List.findIdx])]
    simp [insertAfterChildren, noDivInside]
  · intro gi t ch bs ihch ihbs h
    rw [ndi_cons_group] at h
    simp at h
    have hc : noDivInside (insertAfterChildren (Block.group gi t ch :: bs) tid nb) = true := by
      rw [insc_cons_group, ndi_cons_group]
      simp [(ihch h.1).2, (ihbs h.2).1]
    refine ⟨hc, ?_⟩
    rw [insertAfterRecursive]
    by_cases hf : ((Block.group gi t ch :: bs).findIdx fun x => x.bid = tid)
        < (Block.group gi t ch :: bs).length
    · rw [if_pos hf]
      refine ndi_splice nb hnb _ _ ?_
      rw [ndi_cons_group]
      simp [h.1, h.2]
    · rw [if_neg hf]
      exact hc
  · intro b bs hng ih h
    by_cases hd : b.isDivider = true
    · cases b <;> simp_all [Block.isDivider, Block.btype]
      rw [ndi_cons_divider] at h
      cases h
    · have hd2 : b.isDivider = false := by
        cases hv : b.isDivider
        · rfl
        · exact absurd hv hd
      rw [ndi_cons_plain b hng hd2] at h
      have hc : noDivInside (insertAfterChildren (b :: bs) tid nb) = true := by
        rw [insc_cons_nonGroup b hng, ndi_cons_plain b hng hd2]
        exact (ih h).1
      refine ⟨hc, ?_⟩
      rw [insertAfterRecursive]
      by_cases hf : ((b :: bs).findIdx fun x => x.bid = tid) < (b :: bs).length
      · rw [if_pos hf]
        refine ndi_splice nb hnb _ _ ?_
        rw [ndi_cons_plain b hng hd2]
        exact h
      · rw [if_neg hf]
        exact hc

theorem gdf_insertAfter (tid : String) (nb : Block) (hnb : noDivInside [nb] = true) :
    ∀ l, groupsDividerFree l = true →
      groupsDividerFree (insertAfterChildren l tid nb) = true ∧
      groupsDividerFree (insertAfterRecursive l tid nb) = true := by
  have hok : blockInnerOk nb = true := by
    cases nb with
    | group gi t ch =>
      rw [ndi_cons_group] at hnb
      simp at hnb
      simpa [blockInnerOk] using hnb.1
    | divider i => rw [ndi_cons_divider] at hnb; cases hnb
    | text i c => simp [blockInnerOk]
    | embed i u t => simp [blockInnerOk]
    | question i q p li im de op ms ca => simp [blockInnerOk]
  refine blist_ind _ ?_ ?_ ?_
  · intro _
    refine ⟨by simp [insertAfterChildren, groupsDividerFree], ?_⟩
    rw [insertAfterRecursive, if_neg (by simp [List.findIdx])]
    simp [insertAfterChildren, groupsDividerFree]
  · intro gi t ch bs ihch ihbs h
    rw [gdf_cons_group] at h
    simp at h
    have hc : groupsDividerFree (insertAfterChildren (Block.group gi t ch :: bs) tid nb) = true := by
      rw [insc_cons_group, gdf_cons_group]
      simp [(ndi_insertAfter tid nb hnb ch h.1).2, (ihbs h.2).1]
    refine ⟨hc, ?_⟩
    rw [insertAfterRecursive]
    by_cases hf : ((Block.group gi t ch :: bs).findIdx fun x => x.bid = tid)
        < (Block.group gi t ch :: bs).length
    · rw [if_pos hf]
      refine gdf_splice nb hok _ _ ?_
      rw [gdf_cons_group]
      simp [h.1, h.2]
    · rw [if_neg hf]
      exact hc
  · intro b bs hng ih h
    rw [gdf_cons_nonGroup b hng] at h
    have hc : groupsDividerFree (insertAfterChildren (b :: bs) tid nb) = true := by
      rw [insc_cons_nonGroup b hng, gdf_cons_nonGroup b hng]
      exact (ih h).1
    refine ⟨hc, ?_⟩
    rw [insertAfterRecursive]
    by_cases hf : ((b :: bs).findIdx fun x => x.bid = tid) < (b :: bs).length
    · rw [if_pos hf]
      refine gdf_splice nb hok _ _ ?_
      rw [gdf_cons_nonGroup b hng]
      exact h
    · rw [if_neg hf]
      exact hc


theorem createBlock_innerOk (i : String) (t : BlockType) (qt : Option QuestionType) :
    blockInnerOk (createBlock i t qt) = true := by
  cases t <;> simp [createBlock, blockInnerOk, noDivInside]

theorem createBlock_ndi (i : String) (t : BlockType) (qt : Option QuestionType)
    (h : t ≠ BlockType.divider) : noDivInside [createBlock i t qt] = true := by
  cases t with
  | divider => exact absurd rfl h
  | group =>
    rw [show createBlock i BlockType.group qt = Block.group i (some "New Group") [] from rfl]
    rw [ndi_cons_group]
    simp [noDivInside]
  | text =>
    rw [ndi_cons_plain (createBlock i BlockType.text qt) rfl rfl]
    simp [noDivInside]
  | embed =>
    rw [ndi_cons_plain (createBlock i BlockType.embed qt) rfl rfl]
    simp [noDivInside]
  | question =>
    rw [ndi_cons_plain (createBlock i BlockType.question qt) rfl rfl]
    simp [noDivInside]

theorem createBlock_divider_type (i : String) (t : BlockType) (qt : Option QuestionType) :
    (createBlock i t qt).isDivider = true → t = BlockType.divider := by
  cases t <;> simp [createBlock, Block.isDivider, Block.btype]

theorem nodes_innerOk (s : List Block) (mb : Block) (h : groupsDividerFree s = true)
    (hm : mb ∈ nodesL s) : blockInnerOk mb = true := by
  cases mb with
  | group gi t ch => simpa [blockInnerOk] using gdf_nodes_group s h gi t ch hm
  | divider i => simp [blockInnerOk]
  | text i c => simp [blockInnerOk]
  | embed i u t => simp [blockInnerOk]
  | question i q p li im de op ms ca => simp [blockInnerOk]

theorem nodes_ndi (s : List Block) (mb : Block) (h : groupsDividerFree s = true)
    (hm : mb ∈ nodesL s) (hd : mb.isDivider = false) : noDivInside [mb] = true := by
  cases mb with
  | group gi t ch =>
    rw [ndi_cons_group]
    simp [gdf_nodes_group s h gi t ch hm, noDivInside]
  | divider i => simp [Block.isDivider, Block.btype] at hd
  | text i c => rw [ndi_cons_plain (Block.text i c) rfl rfl]; simp [noDivInside]
  | embed i u t => rw [ndi_cons_plain (Block.embed i u t) rfl rfl]; simp [noDivInside]
  | question i q p li im de op ms ca =>
    rw [ndi_cons_plain (Block.question i q p li im de op ms ca) rfl rfl]
    simp [noDivInside]

theorem insert_preserves (cur : List Block) (tpId : Option String) (fi : Int) (mb : Block)
    (hcur : groupsDividerFree cur = true) (hok : blockInnerOk mb = true)
    (hnd : ∀ pid, tpId = some pid → noDivInside [mb] = true) :
    groupsDividerFree (insertBlockAt cur tpId fi mb) = true := by
  cases tpId with
  | none =>
    rw [insertBlockAt]
    exact gdf_splice mb hok cur _ hcur
  | some pid =>
    exact gdf_insert pid fi mb (hnd pid rfl) cur hcur

theorem drop_preserves (prev : List Block) (item : DragItem) (genId : String)
    (tId tpId : Option String) (tIdx : Option Int)
    (h : groupsDividerFree prev = true) :
    groupsDividerFree (handleDragDrop prev item genId tId tpId tIdx) = true := by
  rw [handleDragDrop]
  cases item with
  | mk kind id parentId payload =>
    cases kind with
    | newBlock =>
      cases payload with
      | none => exact h
      | some pq =>
        obtain ⟨t, qt⟩ := pq
        simp only []
        by_cases hdv : (createBlock genId t qt).isDivider = true ∧ tpId.isSome = true
        · rw [if_pos (by exact_mod_cast hdv)]
          exact h
        · rw [if_neg (by exact_mod_cast hdv)]
          refine insert_preserves prev tpId _ _ h (createBlock_innerOk genId t qt) ?_
          intro pid hpid
          refine createBlock_ndi genId t qt ?_
          intro ht
          exact hdv ⟨by rw [ht]; rfl, by rw [hpid]; rfl⟩
    | block =>
      cases id with
      | none => exact h
      | some i =>
        cases hf : findBlock prev i with
        | none => simp only [hf]; exact h
        | some mb =>
          simp only [hf]
          have hmem : mb ∈ nodesL prev := findBlock_mem_nodes i prev mb hf
          have hcur : groupsDividerFree (removeBlockRecursive prev i) = true :=
            gdf_remove i prev h
          by_cases hdv : mb.isDivider = true ∧ tpId.isSome = true
          · rw [if_pos (by exact_mod_cast hdv)]
            exact h
          · rw [if_neg (by exact_mod_cast hdv)]
            refine insert_preserves _ tpId _ _ hcur (nodes_innerOk prev mb h hmem) ?_
            intro pid hpid
            refine nodes_ndi prev mb h hmem ?_
            cases hv : mb.isDivider
            · rfl
            · exact absurd ⟨hv, by rw [hpid]; rfl⟩ hdv


theorem ndi_nodes_nondivider :
    ∀ l, noDivInside l = true → ∀ x ∈ nodesL l, x.isDivider = false := by
  refine blist_ind _ ?_ ?_ ?_
  · simp [nodesL]
  · intro gi t ch bs ihch ihbs h x hx
    rw [ndi_cons_group] at h
    simp at h
    simp only [nodesL, List.mem_cons, List.mem_append] at hx
    rcases hx with he | hm | hm
    · subst he
      simp [Block.isDivider, Block.btype]
    · exact ihch h.1 x hm
    · exact ihbs h.2 x hm
  · intro b bs hng ih h x hx
    by_cases hd : b.isDivider = true
    · cases b <;> simp_all [Block.isDivider, Block.btype]
      rw [ndi_cons_divider] at h
      cases h
    · have hd2 : b.isDivider = false := by
        cases hv : b.isDivider
        · rfl
        · exact absurd hv hd
      rw [ndi_cons_plain b hng hd2] at h
      rw [nodesL_cons_nonGroup b hng] at hx
      rcases List.mem_cons.mp hx with he | hm
      · subst he
        exact hd2
      · exact ih h x hm

theorem divider_node_at_root :
    ∀ s, groupsDividerFree s = true → ∀ b ∈ nodesL s, b.isDivider = true → b ∈ s := by
  refine blist_ind _ ?_ ?_ ?_
  · simp [nodesL]
  · intro gi t ch bs ihch ihbs h b hb hd
    rw [gdf_cons_group] at h
    simp at h
    simp only [nodesL, List.mem_cons, List.mem_append] at hb
    rcases hb with he | hm | hm
    · subst he
      simp [Block.isDivider, Block.btype] at hd
    · exact absurd hd (by simp [ndi_nodes_nondivider ch h.1 b hm])
    · exact List.mem_cons_of_mem _ (ihbs h.2 b hm hd)
  · intro x bs hng ih h b hb hd
    rw [gdf_cons_nonGroup x hng] at h
    rw [nodesL_cons_nonGroup x hng] at hb
    rcases List.mem_cons.mp hb with he | hm
    · subst he
      simp
    · exact List.mem_cons_of_mem _ (ih h b hm hd)

theorem mem_findIdx_lt (b : Block) :
    ∀ l : List Block, b ∈ l → (l.findIdx fun x => x.bid = b.bid) < l.length := by
  intro l hm
  have hle := @List.findIdx_le_length _ (fun x => decide (x.bid = b.bid)) l
  rcases Nat.lt_or_ge (l.findIdx fun x => x.bid = b.bid) l.length with h | h
  · exact h
  · exfalso
    have heq : (l.findIdx fun x => x.bid = b.bid) = l.length := by omega
    have := List.findIdx_eq_length.mp heq b hm
    simp at this
  
theorem dupB_btype (gen : Nat → String) (b : Block) (n : Nat) :
    (duplicateBlockHelper gen b n).1.btype = b.btype := by
  cases b <;> rw [duplicateBlockHelper] <;> simp [Block.btype]

theorem ndi_stripIds :
    ∀ l, noDivInside (stripIdsL l) = noDivInside l := by
  refine blist_ind _ ?_ ?_ ?_
  · simp [stripIdsL]
  · intro gi t ch bs ihch ihbs
    rw [stripIdsL, stripIds, ndi_cons_group, ndi_cons_group, ihch, ihbs]
  · intro b bs hng ih
    by_cases hd : b.isDivider = true
    · cases b <;> simp_all [Block.isDivider, Block.btype]
      rw [stripIdsL, stripIds, ndi_cons_divider, ndi_cons_divider]
    · have hd2 : b.isDivider = false := by
        cases hv : b.isDivider
        · rfl
        · exact absurd hv hd
      cases b with
      | group gi t ch => simp [Block.isGroup, Block.btype] at hng
      | divider i => simp [Block.isDivider, Block.btype] at hd2
      | text i c =>
        rw [stripIdsL, stripIds, ndi_cons_plain (Block.text "" c) rfl rfl,
          ndi_cons_plain (Block.text i c) rfl rfl, ih]
      | embed i u t =>
        rw [stripIdsL, stripIds, ndi_cons_plain (Block.embed "" u t) rfl rfl,
          ndi_cons_plain (Block.embed i u t) rfl rfl, ih]
      | question i q p li im de op ms ca =>
        rw [stripIdsL, stripIds, ndi_cons_plain (Block.question "" q p li im de op ms ca) rfl rfl,
          ndi_cons_plain (Block.question i q p li im de op ms ca) rfl rfl, ih]

theorem ndi_single_stripIds (x : Block) : noDivInside [x] = noDivInside [stripIds x] := by
  have h := ndi_stripIds [x]
  rw [stripIdsL, stripIdsL] at h
  exact h.symm

theorem dupB_ndi (gen : Nat → String) (b : Block) (n : Nat) :
    noDivInside [(duplicateBlockHelper gen b n).1] = noDivInside [b] := by
  rw [ndi_single_stripIds, dupB_stripIds, ← ndi_single_stripIds]

theorem duplicate_preserves (gen : Nat → String) (n : Nat) (s : List Block) (b : Block)
    (hb : b ∈ nodesL s) (h : groupsDividerFree s = true) :
    groupsDividerFree (duplicateBlock gen n s b) = true := by
  rw [duplicateBlock]
  by_cases hd : b.isDivider = true
  · have hroot : b ∈ s := divider_node_at_root s h b hb hd
    rw [insertAfterRecursive, if_pos (mem_findIdx_lt b s hroot)]
    refine gdf_splice _ ?_ s _ h
    have hbt := dupB_btype gen b n
    cases hx : (duplicateBlockHelper gen b n).1 with
    | group gi t ch =>
      rw [hx] at hbt
      cases b <;> simp [Block.btype] at hbt hd <;> simp_all [Block.isDivider, Block.btype]
    | divider i => simp [blockInnerOk]
    | text i c => simp [blockInnerOk]
    | embed i u t => simp [blockInnerOk]
    | question i q p li im de op ms ca => simp [blockInnerOk]
  · have hd2 : b.isDivider = false := by
      cases hv : b.isDivider
      · rfl
      · exact absurd hv hd
    have hnb : noDivInside [(duplicateBlockHelper gen b n).1] = true := by
      rw [dupB_ndi]
      exact nodes_ndi s b h hb hd2
    exact (gdf_insertAfter b.bid _ hnb s h).2

theorem step_preserves (s s2 : List Block) (hstep : EditStep s s2)
    (h : groupsDividerFree s = true) : groupsDividerFree s2 = true := by
  cases hstep with
  | add i t qt => exact gdf_append_single _ (createBlock_innerOk i t qt) s h
  | remove i => exact gdf_remove i s h
  | update i nb hnb => exact gdf_update i nb hnb s h
  | duplicate gen n b hb => exact duplicate_preserves gen n s b hb h
  | drop item genId tId tpId tIdx => exact drop_preserves s item genId tId tpId tIdx h


/-- C8: no reachable editor mutation puts a divider inside a group. The
first component shows every editor step (add, remove, update, duplicate,
drag drop) preserves the invariant that the subtree of every group is free
of dividers; the second and third show the enforcement point itself: a drop
of an existing divider, or of a palette divider, onto a target with a
defined parent id returns the previous tree unchanged. -/
theorem C8_group_divider_free :
    (∀ s s2, EditStep s s2 → groupsDividerFree s = true → groupsDividerFree s2 = true) ∧
    (∀ prev i mb genId pid0 pl tId pid tIdx, findBlock prev i = some mb →
      mb.isDivider = true →
      handleDragDrop prev (DragItem.mk DragKind.block (some i) pid0 pl) genId
        tId (some pid) tIdx = prev) ∧
    (∀ prev genId id0 pid0 qt tId pid tIdx,
      handleDragDrop prev (DragItem.mk DragKind.newBlock id0 pid0
          (some (BlockType.divider, qt))) genId tId (some pid) tIdx = prev) := by
  refine ⟨step_preserves, ?_, ?_⟩
  · intro prev i mb genId pid0 pl tId pid tIdx hf hd
    rw [handleDragDrop]
    simp only [hf]
    rw [if_pos ⟨hd, rfl⟩]
  · intro prev genId id0 pid0 qt tId pid tIdx
    rw [handleDragDrop]
    simp only []
    rw [if_pos ⟨rfl, rfl⟩]

/-- C8 witness: one concrete preserving step (removing the group of a
worksheet with a root divider) and the two divider rejections on concrete
inputs. -/
theorem C8_group_divider_free_witness :
    groupsDividerFree (removeBlockRecursive
        [Block.divider "d", Block.group "g" none [Block.text "t" "T"]] "g") = true ∧
    handleDragDrop [Block.divider "d"]
        (DragItem.mk DragKind.block (some "d") none none) "x" none (some "g") none
      = [Block.divider "d"] ∧
    handleDragDrop [Block.text "t" "T"]
        (DragItem.mk DragKind.newBlock none none (some (BlockType.divider, none))) "x"
        none (some "g") none
      = [Block.text "t" "T"] := by
  refine ⟨?_, ?_, ?_⟩
  · refine C8_group_divider_free.1
      [Block.divider "d", Block.group "g" none [Block.text "t" "T"]] _
      (EditStep.remove _ "g") ?_
    rw [gdf_cons_nonGroup (Block.divider "d") rfl, gdf_cons_group]
    simp [groupsDividerFree, noDivInside]
  · refine C8_group_divider_free.2.1 [Block.divider "d"] "d" (Block.divider "d")
      "x" none none none "g" none ?_ rfl
    simp [findBlock, Block.bid]
  · exact C8_group_divider_free.2.2 [Block.text "t" "T"] "x" none none none none "g" none



theorem hexVal_hexDigit : ∀ n, n < 16 → hexVal (hexDigit n) = some n := by decide

theorem b64Index_b64Char : ∀ n, n < 64 → b64Index (b64Char n) = some n := by decide

theorem b64Char_not_ws (n : Nat) : isAsciiWs (b64Char n) = false := by
  rcases Nat.lt_or_ge n 64 with h | h
  · revert n
    decide
  · show isAsciiWs (b64Alpha.getD n 'A') = false
    rw [List.getD_eq_default _ _ (Nat.le_trans (by decide) h)]
    decide

theorem skipWs_cons_not (c : Char) (cs : List Char) (h : isJsonWs c = false) :
    skipWs (c :: cs) = c :: cs := by
  simp [skipWs, h]

theorem smk_eta (s : String) : String.mk s.data = s := rfl


theorem b64Char_ne_pad (n : Nat) : b64Char n ≠ '=' := by
  rcases Nat.lt_or_ge n 64 with h | h
  · revert n
    decide
  · show b64Alpha.getD n 'A' ≠ '='
    rw [List.getD_eq_default _ _ (Nat.le_trans (by decide) h)]
    decide

theorem enc_all_not_ws (bs : List Nat) :
    ∀ c ∈ b64EncodeBytes bs, isAsciiWs c = false := by
  induction bs using b64EncodeBytes.induct with
  | case1 => simp [b64EncodeBytes]
  | case2 a =>
    intro c hc
    simp [b64EncodeBytes] at hc
    rcases hc with rfl | rfl | rfl <;> first | exact b64Char_not_ws _ | decide
  | case3 a b =>
    intro c hc
    simp [b64EncodeBytes] at hc
    rcases hc with rfl | rfl | rfl | rfl <;> first | exact b64Char_not_ws _ | decide
  | case4 a b cc rest ih =>
    intro c hc
    simp only [b64EncodeBytes, List.mem_cons] at hc
    rcases hc with rfl | rfl | rfl | rfl | hm
    · exact b64Char_not_ws _
    · exact b64Char_not_ws _
    · exact b64Char_not_ws _
    · exact b64Char_not_ws _
    · exact ih c hm

theorem enc_filter (bs : List Nat) :
    (b64EncodeBytes bs).filter (fun c => !(isAsciiWs c)) = b64EncodeBytes bs := by
  rw [List.filter_eq_self]
  intro a ha
  rw [enc_all_not_ws bs a ha]
  rfl

theorem enc_len_mod4 (bs : List Nat) : (b64EncodeBytes bs).length % 4 = 0 := by
  induction bs using b64EncodeBytes.induct with
  | case1 => simp [b64EncodeBytes]
  | case2 a => simp [b64EncodeBytes]
  | case3 a b => simp [b64EncodeBytes]
  | case4 a b cc rest ih =>
    simp only [b64EncodeBytes, List.length_cons]
    omega

theorem enc_len_ge_two (bs : List Nat) (h : bs ≠ []) :
    2 ≤ (b64EncodeBytes bs).length := by
  induction bs using b64EncodeBytes.induct with
  | case1 => exact absurd rfl h
  | case2 a => simp [b64EncodeBytes]
  | case3 a b => simp [b64EncodeBytes]
  | case4 a b cc rest ih =>
    simp only [b64EncodeBytes, List.length_cons]
    omega

theorem stripPadding_two_pads (w : List Char) : stripPadding (w ++ ['=', '=']) = w := by
  unfold stripPadding
  rw [show (w ++ ['=', '=']).reverse = '=' :: '=' :: w.reverse by simp]
  simp

theorem stripPadding_one_pad (w : List Char) (z : Char) (hz : z ≠ '=') :
    stripPadding (w ++ [z, '=']) = w ++ [z] := by
  unfold stripPadding
  rw [show (w ++ [z, '=']).reverse = '=' :: z :: w.reverse by simp]
  split
  · rename_i r heq
    simp only [List.cons.injEq] at heq
    exact absurd heq.2.1 hz
  · rename_i r heq
    simp only [List.cons.injEq] at heq
    rw [← heq.2]
    simp
  · rename_i hne1 hne2
    exact (hne2 (z :: w.reverse) rfl).elim

theorem stripPadding_no_pad (w : List Char) (z : Char) (hz : z ≠ '=') :
    stripPadding (w ++ [z]) = w ++ [z] := by
  unfold stripPadding
  rw [show (w ++ [z]).reverse = z :: w.reverse by simp]
  split
  · rename_i r heq
    simp only [List.cons.injEq] at heq
    exact absurd heq.1 hz
  · rename_i r heq
    simp only [List.cons.injEq] at heq
    exact absurd heq.1 hz
  · rfl

theorem stripPadding_append (xs ys : List Char) (h : 2 ≤ ys.length) :
    stripPadding (xs ++ ys) = xs ++ stripPadding ys := by
  obtain ⟨z1, z2, zr, hrev⟩ : ∃ z1 z2 zr, ys.reverse = z1 :: z2 :: zr := by
    have hlen : 2 ≤ ys.reverse.length := by simpa using h
    rcases hys : ys.reverse with _ | ⟨w1, _ | ⟨w2, wr⟩⟩
    · rw [hys] at hlen
      simp at hlen
    · rw [hys] at hlen
      simp at hlen
    · exact ⟨w1, w2, wr, rfl⟩
  have hys : ys = zr.reverse ++ [z2, z1] := by
    have := congrArg List.reverse hrev
    simpa using this
  subst hys
  by_cases h1 : z1 = '='
  · subst h1
    by_cases h2 : z2 = '='
    · subst h2
      rw [show xs ++ (zr.reverse ++ ['=', '=']) = (xs ++ zr.reverse) ++ ['=', '='] by simp,
        stripPadding_two_pads, stripPadding_two_pads]
    · rw [show xs ++ (zr.reverse ++ [z2, '=']) = (xs ++ zr.reverse) ++ [z2, '='] by simp,
        stripPadding_one_pad _ _ h2, stripPadding_one_pad _ _ h2]
      simp
  · rw [show xs ++ (zr.reverse ++ [z2, z1]) = (xs ++ zr.reverse ++ [z2]) ++ [z1] by simp,
      stripPadding_no_pad _ _ h1,
      show zr.reverse ++ [z2, z1] = (zr.reverse ++ [z2]) ++ [z1] by simp,
      stripPadding_no_pad _ _ h1]
    simp

theorem sextets_len_mod (bs : List Nat) : (b64Sextets bs).length % 4 ≠ 1 := by
  induction bs using b64Sextets.induct with
  | case1 => simp [b64Sextets]
  | case2 a => simp [b64Sextets]
  | case3 a b => simp [b64Sextets]
  | case4 a b cc rest ih =>
    simp only [b64Sextets, List.length_cons]
    omega

theorem strip_enc (bs : List Nat) : stripPadding (b64EncodeBytes bs) = b64Sextets bs := by
  induction bs using b64EncodeBytes.induct with
  | case1 =>
    simp [b64EncodeBytes, b64Sextets, stripPadding]
  | case2 a =>
    rw [show b64EncodeBytes [a] = [b64Char (a / 4), b64Char (a % 4 * 16)] ++ ['=', '='] by
      simp [b64EncodeBytes]]
    rw [stripPadding_two_pads]
    simp [b64Sextets]
  | case3 a b =>
    rw [show b64EncodeBytes [a, b] = [b64Char (a / 4), b64Char (a % 4 * 16 + b / 16)]
        ++ [b64Char (b % 16 * 4), '='] by simp [b64EncodeBytes]]
    rw [stripPadding_one_pad _ _ (b64Char_ne_pad _)]
    simp [b64Sextets]
  | case4 a b cc rest ih =>
    rcases Decidable.em (rest = []) with hr | hr
    · subst hr
      rw [show b64EncodeBytes [a, b, cc] = [b64Char (a / 4), b64Char (a % 4 * 16 + b / 16),
          b64Char (b % 16 * 4 + cc / 64)] ++ [b64Char (cc % 64)] by simp [b64EncodeBytes]]
      rw [stripPadding_no_pad _ _ (b64Char_ne_pad _)]
      simp [b64Sextets]
    · rw [show b64EncodeBytes (a :: b :: cc :: rest)
          = [b64Char (a / 4), b64Char (a % 4 * 16 + b / 16), b64Char (b % 16 * 4 + cc / 64),
             b64Char (cc % 64)] ++ b64EncodeBytes rest by simp [b64EncodeBytes]]
      rw [stripPadding_append _ _ (enc_len_ge_two rest hr), ih]
      simp [b64Sextets]

theorem dec_sextets (bs : List Nat) (h : ∀ x ∈ bs, x ≤ 255) :
    b64DecodeQuads (b64Sextets bs) = some bs := by
  induction bs using b64Sextets.induct with
  | case1 => simp [b64Sextets, b64DecodeQuads]
  | case2 a =>
    have ha : a ≤ 255 := h a (by simp)
    simp only [b64Sextets, b64DecodeQuads]
    rw [b64Index_b64Char _ (by omega), b64Index_b64Char _ (by omega)]
    simp only [Option.some.injEq, List.cons.injEq, and_true]
    omega
  | case3 a b =>
    have ha : a ≤ 255 := h a (by simp)
    have hb : b ≤ 255 := h b (by simp)
    simp only [b64Sextets, b64DecodeQuads]
    rw [b64Index_b64Char _ (by omega), b64Index_b64Char _ (by omega),
      b64Index_b64Char _ (by omega)]
    simp only [Option.some.injEq, List.cons.injEq, and_true]
    constructor <;> omega
  | case4 a b cc rest ih =>
    have ha : a ≤ 255 := h a (by simp)
    have hb : b ≤ 255 := h b (by simp)
    have hc : cc ≤ 255 := h cc (by simp)
    have ih2 := ih fun x hx => h x (by simp [hx])
    simp only [b64Sextets, b64DecodeQuads]
    rw [b64Index_b64Char _ (by omega), b64Index_b64Char _ (by omega),
      b64Index_b64Char _ (by omega), b64Index_b64Char _ (by omega), ih2]
    simp only [Option.some.injEq, List.cons.injEq, and_true]
    refine ⟨by omega, by omega, by omega⟩

theorem atobChars_enc (bs : List Nat) (h : ∀ x ∈ bs, x ≤ 255) :
    atobChars (b64EncodeBytes bs) = some bs := by
  unfold atobChars
  simp only [enc_filter, enc_len_mod4, if_pos, strip_enc]
  rw [if_neg (sextets_len_mod bs)]
  exact dec_sextets bs h

theorem char_valid_toNat (c : Char) : Nat.isValidChar c.toNat := c.valid

set_option maxHeartbeats 2000000 in
theorem parseStrAux_cons (c : Char) (cs acc : List Char) :
    parseStrAux (c :: cs) acc =
    (if c = '"' then some (String.mk acc.reverse, cs)
    else if c = '\\' then
      match cs with
      | '"' :: r => parseStrAux r ('"' :: acc)
      | '\\' :: r => parseStrAux r ('\\' :: acc)
      | '/' :: r => parseStrAux r ('/' :: acc)
      | 'b' :: r => parseStrAux r ('\x08' :: acc)
      | 'f' :: r => parseStrAux r ('\x0c' :: acc)
      | 'n' :: r => parseStrAux r ('\n' :: acc)
      | 'r' :: r => parseStrAux r ('\r' :: acc)
      | 't' :: r => parseStrAux r ('\t' :: acc)
      | 'u' :: h1 :: h2 :: h3 :: h4 :: r =>
        match hexVal h1, hexVal h2, hexVal h3, hexVal h4 with
        | some v1, some v2, some v3, some v4 =>
          let code := ((v1 * 16 + v2) * 16 + v3) * 16 + v4
          if h : code.isValidChar then parseStrAux r (Char.ofNat code :: acc) else none
        | _, _, _, _ => none
      | _ => none
    else if c.toNat < 32 then none
    else parseStrAux cs (c :: acc)) := by
  conv_lhs => rw [parseStrAux.eq_def]

theorem parseStr_escape (cs : List Char) : ∀ acc rest,
    parseStrAux ((cs.map escapeChar).flatten ++ '"' :: rest) acc
      = some (String.mk (acc.reverse ++ cs), rest) := by
  induction cs with
  | nil =>
    intro acc rest
    rw [List.map_nil, List.flatten_nil, List.nil_append, parseStrAux_cons]
    simp
  | cons c cs ih =>
    intro acc rest
    rw [List.map_cons, List.flatten_cons, List.append_assoc]
    by_cases h1 : c = '"'
    · subst h1
      rw [show escapeChar '"' = ['\\', '"'] from rfl, List.cons_append, List.cons_append,
        List.nil_append, parseStrAux_cons]
      simp only [reduceIte, reduceCtorEq]
      rw [ih]
      simp
    by_cases h2 : c = '\\'
    · subst h2
      rw [show escapeChar '\\' = ['\\', '\\'] from rfl, List.cons_append, List.cons_append,
        List.nil_append, parseStrAux_cons]
      simp only [reduceIte, reduceCtorEq]
      rw [ih]
      simp
    by_cases h3 : c = '\x08'
    · subst h3
      rw [show escapeChar '\x08' = ['\\', 'b'] from rfl, List.cons_append, List.cons_append,
        List.nil_append, parseStrAux_cons]
      simp only [reduceIte, reduceCtorEq]
      rw [ih]
      simp
    by_cases h4 : c = '\t'
    · subst h4
      rw [show escapeChar '\t' = ['\\', 't'] from rfl, List.cons_append, List.cons_append,
        List.nil_append, parseStrAux_cons]
      simp only [reduceIte, reduceCtorEq]
      rw [ih]
      simp
    by_cases h5 : c = '\n'
    · subst h5
      rw [show escapeChar '\n' = ['\\', 'n'] from rfl, List.cons_append, List.cons_append,
        List.nil_append, parseStrAux_cons]
      simp only [reduceIte, reduceCtorEq]
      rw [ih]
      simp
    by_cases h6 : c = '\x0c'
    · subst h6
      rw [show escapeChar '\x0c' = ['\\', 'f'] from rfl, List.cons_append, List.cons_append,
        List.nil_append, parseStrAux_cons]
      simp only [reduceIte, reduceCtorEq]
      rw [ih]
      simp
    by_cases h7 : c = '\r'
    · subst h7
      rw [show escapeChar '\r' = ['\\', 'r'] from rfl, List.cons_append, List.cons_append,
        List.nil_append, parseStrAux_cons]
      simp only [reduceIte, reduceCtorEq]
      rw [ih]
      simp
    by_cases h8 : c.toNat < 32
    · rw [show escapeChar c
          = ['\\', 'u', '0', '0', hexDigit (c.toNat / 16), hexDigit (c.toNat % 16)] by
        simp [escapeChar, h1, h2, h3, h4, h5, h6, h7, h8]]
      simp only [List.cons_append, List.nil_append]
      rw [parseStrAux_cons]
      simp only [reduceIte, reduceCtorEq]
      rw [show hexVal '0' = some 0 from rfl,
        hexVal_hexDigit _ (show c.toNat / 16 < 16 by omega),
        hexVal_hexDigit _ (show c.toNat % 16 < 16 by omega)]
      simp only
      rw [show ((0 * 16 + 0) * 16 + c.toNat / 16) * 16 + c.toNat % 16 = c.toNat by omega]
      rw [dif_pos (char_valid_toNat c)]
      rw [Char.ofNat_toNat, ih]
      simp
    · rw [show escapeChar c = [c] by
        simp [escapeChar, h1, h2, h3, h4, h5, h6, h7, h8]]
      rw [List.singleton_append, parseStrAux_cons, if_neg h1, if_neg h2, if_neg h8, ih]
      simp

set_option maxHeartbeats 1000000 in
theorem pVal_succ (fuel : Nat) (cs : List Char) :
    pVal (fuel + 1) cs =
    (match skipWs cs with
    | [] => none
    | 'n' :: 'u' :: 'l' :: 'l' :: r => some (.null, r)
    | 't' :: 'r' :: 'u' :: 'e' :: r => some (.bool true, r)
    | 'f' :: 'a' :: 'l' :: 's' :: 'e' :: r => some (.bool false, r)
    | '"' :: r =>
      match parseStrAux r [] with
      | some (s, r2) => some (.str s, r2)
      | none => none
    | '[' :: r =>
      if (skipWs r).head? = some ']' then some (.arr [], (skipWs r).tail)
      else pArrItems fuel (skipWs r) []
    | '{' :: r =>
      if (skipWs r).head? = some '}' then some (.obj [], (skipWs r).tail)
      else pObjItems fuel (skipWs r) []
    | c :: r =>
      if c = '-' ∨ c.isDigit then
        match parseNumToken (c :: r) with
        | some (tok, r2) => some (.num (String.mk tok), r2)
        | none => none
      else none) := by
  conv_lhs => rw [pVal.eq_def]

set_option maxHeartbeats 1000000 in
theorem pArrItems_succ (fuel : Nat) (cs : List Char) (acc : List Json) :
    pArrItems (fuel + 1) cs acc =
    (match pVal fuel cs with
    | none => none
    | some (v, r) =>
      match skipWs r with
      | ',' :: r2 => pArrItems fuel r2 (acc ++ [v])
      | ']' :: r2 => some (.arr (acc ++ [v]), r2)
      | _ => none) := by
  conv_lhs => rw [pArrItems.eq_def]

set_option maxHeartbeats 1000000 in
theorem pObjItems_succ (fuel : Nat) (cs : List Char) (acc : List (String × Json)) :
    pObjItems (fuel + 1) cs acc =
    (match skipWs cs with
    | '"' :: r =>
      match parseStrAux r [] with
      | none => none
      | some (k, r2) =>
        match skipWs r2 with
        | ':' :: r3 =>
          match pVal fuel r3 with
          | none => none
          | some (v, r4) =>
            match skipWs r4 with
            | ',' :: r5 => pObjItems fuel r5 (acc ++ [(k, v)])
            | '}' :: r5 => some (.obj (acc ++ [(k, v)]), r5)
            | _ => none
        | _ => none
    | _ => none) := by
  conv_lhs => rw [pObjItems.eq_def]

theorem jsonChars_head (j : Json) (hg : jsonGood j = true) :
    ∃ c cs, jsonChars j = c :: cs ∧ isJsonWs c = false ∧ c ≠ ']' ∧ c ≠ '}' := by
  cases j with
  | null => exact ⟨'n', ['u', 'l', 'l'], by simp [jsonChars], by decide, by decide, by decide⟩
  | bool b =>
    cases b
    · exact ⟨'f', ['a', 'l', 's', 'e'], by simp [jsonChars], by decide, by decide, by decide⟩
    · exact ⟨'t', ['r', 'u', 'e'], by simp [jsonChars], by decide, by decide, by decide⟩
  | num raw => simp [jsonGood] at hg
  | str s =>
    exact ⟨'"', strBody s ++ ['"'], by simp [jsonChars, strLit], by decide, by decide, by decide⟩
  | arr xs =>
    exact ⟨'[', jsonCharsArr xs ++ [']'], by simp [jsonChars], by decide, by decide, by decide⟩
  | obj kvs =>
    exact ⟨'{', jsonCharsObj kvs ++ ['}'], by simp [jsonChars], by decide, by decide, by decide⟩

theorem jsonCharsArr_head (x : Json) (xs : List Json) (hg : jsonGood x = true) :
    ∃ c cs, jsonCharsArr (x :: xs) = c :: cs ∧ isJsonWs c = false ∧ c ≠ ']' := by
  obtain ⟨c, cs, hx, h1, h2, h3⟩ := jsonChars_head x hg
  cases xs with
  | nil => exact ⟨c, cs, by simp [jsonCharsArr, hx], h1, h2⟩
  | cons y ys =>
    exact ⟨c, cs ++ ',' :: jsonCharsArr (y :: ys), by simp [jsonCharsArr, hx], h1, h2⟩

theorem jsonCharsObj_head (kv : String × Json) (kvs : List (String × Json)) :
    ∃ cs, jsonCharsObj (kv :: kvs) = '"' :: cs := by
  cases kvs with
  | nil =>
    exact ⟨strBody kv.1 ++ ['"'] ++ ':' :: jsonChars kv.2, by simp [jsonCharsObj, strLit]⟩
  | cons e rest =>
    exact ⟨strBody kv.1 ++ ['"'] ++ ':' :: jsonChars kv.2 ++ ',' :: jsonCharsObj (e :: rest),
      by simp [jsonCharsObj, strLit]⟩

theorem wVal_pos (j : Json) : 1 ≤ wVal j := by
  cases j with
  | arr xs => cases xs <;> simp [wVal]
  | obj kvs => cases kvs <;> simp [wVal]
  | null => simp [wVal]
  | bool b => simp [wVal]
  | num r => simp [wVal]
  | str s => simp [wVal]

theorem pVal_succ_null (fuel : Nat) (r : List Char) :
    pVal (fuel + 1) ('n' :: 'u' :: 'l' :: 'l' :: r) = some (.null, r) := by
  rw [pVal_succ, skipWs_cons_not _ _ (by decide)]
  rfl

theorem pVal_succ_true (fuel : Nat) (r : List Char) :
    pVal (fuel + 1) ('t' :: 'r' :: 'u' :: 'e' :: r) = some (.bool true, r) := by
  rw [pVal_succ, skipWs_cons_not _ _ (by decide)]
  rfl

theorem pVal_succ_false (fuel : Nat) (r : List Char) :
    pVal (fuel + 1) ('f' :: 'a' :: 'l' :: 's' :: 'e' :: r) = some (.bool false, r) := by
  rw [pVal_succ, skipWs_cons_not _ _ (by decide)]
  rfl

theorem pVal_succ_str (fuel : Nat) (r : List Char) :
    pVal (fuel + 1) ('"' :: r) =
      (match parseStrAux r [] with
       | some (s, r2) => some (Json.str s, r2)
       | none => none) := by
  rw [pVal_succ, skipWs_cons_not _ _ (by decide)]
  rfl

theorem pVal_succ_arr (fuel : Nat) (r : List Char) :
    pVal (fuel + 1) ('[' :: r) =
      (if (skipWs r).head? = some ']' then some (.arr [], (skipWs r).tail)
       else pArrItems fuel (skipWs r) []) := by
  rw [pVal_succ, skipWs_cons_not _ _ (by decide)]
  rfl

theorem pVal_succ_obj (fuel : Nat) (r : List Char) :
    pVal (fuel + 1) ('{' :: r) =
      (if (skipWs r).head? = some '}' then some (.obj [], (skipWs r).tail)
       else pObjItems fuel (skipWs r) []) := by
  rw [pVal_succ, skipWs_cons_not _ _ (by decide)]
  rfl

theorem pVal_rt (fuel : Nat) :
    (∀ j, jsonGood j = true → wVal j ≤ fuel → ∀ rest,
      pVal fuel (jsonChars j ++ rest) = some (j, rest)) ∧
    (∀ xs, jsonGoodL xs = true → wItems xs ≤ fuel → ∀ rest acc, xs ≠ [] →
      pArrItems fuel (jsonCharsArr xs ++ ']' :: rest) acc = some (.arr (acc ++ xs), rest)) ∧
    (∀ kvs, jsonGoodF kvs = true → wFields kvs ≤ fuel → ∀ rest acc, kvs ≠ [] →
      pObjItems fuel (jsonCharsObj kvs ++ '}' :: rest) acc = some (.obj (acc ++ kvs), rest)) := by
  induction fuel with
  | zero =>
    refine ⟨?_, ?_, ?_⟩
    · intro j hg hw rest
      exact absurd hw (by have := wVal_pos j; omega)
    · intro xs hg hw rest acc hne
      cases xs with
      | nil => exact absurd rfl hne
      | cons x xs => simp [wItems] at hw
    · intro kvs hg hw rest acc hne
      cases kvs with
      | nil => exact absurd rfl hne
      | cons kv kvs => simp [wFields] at hw
  | succ fuel ih =>
    obtain ⟨ihV, ihA, ihO⟩ := ih
    refine ⟨?_, ?_, ?_⟩
    · intro j hg hw rest
      cases j with
      | num raw => simp [jsonGood] at hg
      | null =>
        rw [show jsonChars Json.null = ['n', 'u', 'l', 'l'] by simp [jsonChars]]
        simp only [List.cons_append, List.nil_append]
        rw [pVal_succ_null]
      | bool b =>
        cases b
        · rw [show jsonChars (Json.bool false) = ['f', 'a', 'l', 's', 'e'] by simp [jsonChars]]
          simp only [List.cons_append, List.nil_append]
          rw [pVal_succ_false]
        · rw [show jsonChars (Json.bool true) = ['t', 'r', 'u', 'e'] by simp [jsonChars]]
          simp only [List.cons_append, List.nil_append]
          rw [pVal_succ_true]
      | str s =>
        rw [show jsonChars (Json.str s) = '"' :: (strBody s ++ ['"']) by
          simp [jsonChars, strLit]]
        simp only [List.cons_append, List.append_assoc, List.singleton_append,
          List.nil_append]
        rw [pVal_succ_str]
        simp only [strBody]
        rw [parseStr_escape]
        simp [smk_eta]
      | arr xs =>
        cases xs with
        | nil =>
          rw [show jsonChars (Json.arr []) = ['[', ']'] by simp [jsonChars, jsonCharsArr]]
          simp only [List.cons_append, List.nil_append]
          rw [pVal_succ_arr, skipWs_cons_not _ _ (by decide)]
          simp
        | cons x xs =>
          have hg2 : jsonGood x = true ∧ jsonGoodL xs = true := by
            simpa [jsonGood, jsonGoodL] using hg
          have hw2 : wItems (x :: xs) ≤ fuel := by
            simp [wVal] at hw
            omega
          obtain ⟨c, cs', hsh, hnw, hnb⟩ := jsonCharsArr_head x xs hg2.1
          rw [show jsonChars (Json.arr (x :: xs))
              = '[' :: (jsonCharsArr (x :: xs) ++ [']']) by simp [jsonChars]]
          simp only [List.cons_append, List.append_assoc, List.singleton_append,
            List.nil_append]
          rw [pVal_succ_arr]
          have hskip : skipWs (jsonCharsArr (x :: xs) ++ ']' :: rest)
              = jsonCharsArr (x :: xs) ++ ']' :: rest := by
            rw [hsh, List.cons_append]
            exact skipWs_cons_not _ _ hnw
          rw [hskip, if_neg (by rw [hsh, List.cons_append]; simp [hnb])]
          rw [ihA (x :: xs) (by simp [jsonGoodL, hg2.1, hg2.2]) hw2 rest [] (by simp)]
          simp
      | obj kvs =>
        cases kvs with
        | nil =>
          rw [show jsonChars (Json.obj []) = ['{', '}'] by simp [jsonChars, jsonCharsObj]]
          simp only [List.cons_append, List.nil_append]
          rw [pVal_succ_obj, skipWs_cons_not _ _ (by decide)]
          simp
        | cons kv kvs =>
          have hg2 : jsonGood kv.2 = true ∧ jsonGoodF kvs = true := by
            simpa [jsonGood, jsonGoodF] using hg
          have hw2 : wFields (kv :: kvs) ≤ fuel := by
            simp [wVal] at hw
            omega
          obtain ⟨cs', hsh⟩ := jsonCharsObj_head kv kvs
          rw [show jsonChars (Json.obj (kv :: kvs))
              = '{' :: (jsonCharsObj (kv :: kvs) ++ ['}']) by simp [jsonChars]]
          simp only [List.cons_append, List.append_assoc, List.singleton_append,
            List.nil_append]
          rw [pVal_succ_obj]
          have hskip : skipWs (jsonCharsObj (kv :: kvs) ++ '}' :: rest)
              = jsonCharsObj (kv :: kvs) ++ '}' :: rest := by
            rw [hsh, List.cons_append]
            exact skipWs_cons_not _ _ (by decide)
          rw [hskip, if_neg (by rw [hsh, List.cons_append]; simp)]
          rw [ihO (kv :: kvs) (by simp [jsonGoodF, hg2.1, hg2.2]) hw2 rest [] (by simp)]
          simp
    · intro xs hg hw rest acc hne
      cases xs with
      | nil => exact absurd rfl hne
      | cons x xs =>
        have hg2 : jsonGood x = true ∧ jsonGoodL xs = true := by
          simpa [jsonGoodL] using hg
        rw [pArrItems_succ]
        cases xs with
        | nil =>
          rw [show jsonCharsArr [x] = jsonChars x by simp [jsonCharsArr]]
          have hwx : wVal x ≤ fuel := by
            simp [wItems] at hw
            omega
          rw [ihV x hg2.1 hwx (']' :: rest)]
          simp [skipWs, isJsonWs]
        | cons y ys =>
          have hwx : wVal x ≤ fuel := by
            simp [wItems] at hw
            omega
          have hwy : wItems (y :: ys) ≤ fuel := by
            simp [wItems] at hw ⊢
            omega
          rw [show jsonCharsArr (x :: y :: ys) = jsonChars x ++ ',' :: jsonCharsArr (y :: ys) by
            simp [jsonCharsArr]]
          simp only [List.append_assoc, List.cons_append]
          rw [ihV x hg2.1 hwx (',' :: (jsonCharsArr (y :: ys) ++ ']' :: rest))]
          simp only [skipWs_cons_not _ _ (by decide : isJsonWs ',' = false)]
          rw [ihA (y :: ys) (by simpa [jsonGoodL] using hg2.2) hwy rest (acc ++ [x]) (by simp)]
          simp
    · intro kvs hg hw rest acc hne
      cases kvs with
      | nil => exact absurd rfl hne
      | cons kv kvs =>
        obtain ⟨k, v⟩ := kv
        have hg2 : jsonGood v = true ∧ jsonGoodF kvs = true := by
          simpa [jsonGoodF] using hg
        have hwv : wVal v ≤ fuel := by
          simp [wFields] at hw
          omega
        rw [pObjItems_succ]
        cases kvs with
        | nil =>
          rw [show jsonCharsObj [(k, v)] = strLit k ++ ':' :: jsonChars v by
            simp [jsonCharsObj]]
          simp only [strLit, strBody, List.cons_append, List.append_assoc,
            List.singleton_append, List.nil_append]
          rw [skipWs_cons_not _ _ (by decide)]
          show (match parseStrAux ((k.data.map escapeChar).flatten
                  ++ '"' :: ':' :: (jsonChars v ++ '}' :: rest)) [] with
                | none => none
                | some (kk, r2) =>
                  match skipWs r2 with
                  | ':' :: r3 =>
                    match pVal fuel r3 with
                    | none => none
                    | some (vv, r4) =>
                      match skipWs r4 with
                      | ',' :: r5 => pObjItems fuel r5 (acc ++ [(kk, vv)])
                      | '}' :: r5 => some (Json.obj (acc ++ [(kk, vv)]), r5)
                      | _ => none
                  | _ => none)
              = some (Json.obj (acc ++ [(k, v)]), rest)
          rw [parseStr_escape]
          simp only [List.reverse_nil, List.nil_append, smk_eta]
          rw [show skipWs (':' :: (jsonChars v ++ '}' :: rest))
              = ':' :: (jsonChars v ++ '}' :: rest) from skipWs_cons_not _ _ (by decide)]
          show (match pVal fuel (jsonChars v ++ '}' :: rest) with
              | none => none
              | some (vv, r4) =>
                match skipWs r4 with
                | ',' :: r5 => pObjItems fuel r5 (acc ++ [(k, vv)])
                | '}' :: r5 => some (Json.obj (acc ++ [(k, vv)]), r5)
                | _ => none)
              = some (Json.obj (acc ++ [(k, v)]), rest)
          rw [ihV v hg2.1 hwv ('}' :: rest)]
          simp [skipWs, isJsonWs]
        | cons e es =>
          have hwe : wFields (e :: es) ≤ fuel := by
            simp [wFields] at hw ⊢
            omega
          rw [show jsonCharsObj ((k, v) :: e :: es)
              = strLit k ++ ':' :: jsonChars v ++ ',' :: jsonCharsObj (e :: es) by
            simp [jsonCharsObj]]
          simp only [strLit, strBody, List.cons_append, List.append_assoc,
            List.singleton_append, List.nil_append]
          rw [skipWs_cons_not _ _ (by decide)]
          show (match parseStrAux ((k.data.map escapeChar).flatten
                  ++ '"' :: ':' :: (jsonChars v ++ ',' :: (jsonCharsObj (e :: es)
                    ++ '}' :: rest))) [] with
                | none => none
                | some (kk, r2) =>
                  match skipWs r2 with
                  | ':' :: r3 =>
                    match pVal fuel r3 with
                    | none => none
                    | some (vv, r4) =>
                      match skipWs r4 with
                      | ',' :: r5 => pObjItems fuel r5 (acc ++ [(kk, vv)])
                      | '}' :: r5 => some (Json.obj (acc ++ [(kk, vv)]), r5)
                      | _ => none
                  | _ => none)
              = some (Json.obj (acc ++ ((k, v) :: e :: es)), rest)
          rw [parseStr_escape]
          simp only [List.reverse_nil, List.nil_append, smk_eta]
          rw [show skipWs (':' :: (jsonChars v ++ ',' :: (jsonCharsObj (e :: es) ++ '}' :: rest)))
              = ':' :: (jsonChars v ++ ',' :: (jsonCharsObj (e :: es) ++ '}' :: rest)) from
            skipWs_cons_not _ _ (by decide)]
          show (match pVal fuel (jsonChars v
                  ++ ',' :: (jsonCharsObj (e :: es) ++ '}' :: rest)) with
              | none => none
              | some (vv, r4) =>
                match skipWs r4 with
                | ',' :: r5 => pObjItems fuel r5 (acc ++ [(k, vv)])
                | '}' :: r5 => some (Json.obj (acc ++ [(k, vv)]), r5)
                | _ => none)
              = some (Json.obj (acc ++ ((k, v) :: e :: es)), rest)
          rw [ihV v hg2.1 hwv (',' :: (jsonCharsObj (e :: es) ++ '}' :: rest))]
          simp only [skipWs_cons_not _ _ (by decide : isJsonWs ',' = false)]
          rw [ihO (e :: es) (by simpa [jsonGoodF] using hg2.2) hwe rest (acc ++ [(k, v)])
            (by simp)]
          simp

theorem smk_data (l : List Char) : (String.mk l).data = l := rfl

theorem wlen_aux (n : Nat) :
    (∀ j : Json, sizeOf j ≤ n → jsonGood j = true → wVal j ≤ (jsonChars j).length) ∧
    (∀ xs : List Json, sizeOf xs ≤ n → jsonGoodL xs = true →
      wItems xs ≤ (jsonCharsArr xs).length + 1) ∧
    (∀ kvs : List (String × Json), sizeOf kvs ≤ n → jsonGoodF kvs = true →
      wFields kvs ≤ (jsonCharsObj kvs).length + 1) := by
  induction n using Nat.strong_induction_on with
  | _ n ih =>
    refine ⟨?_, ?_, ?_⟩
    · intro j hs hg
      cases j with
      | null => simp [jsonChars, wVal]
      | bool b => cases b <;> simp [jsonChars, wVal]
      | num raw => simp [jsonGood] at hg
      | str s => simp [jsonChars, wVal, strLit]
      | arr xs =>
        cases xs with
        | nil => simp [jsonChars, wVal, jsonCharsArr]
        | cons x xs =>
          simp only [Json.arr.sizeOf_spec] at hs
          have hlt : sizeOf (x :: xs) < n := by omega
          have hgl : jsonGoodL (x :: xs) = true := by simpa [jsonGood] using hg
          have := (ih _ hlt).2.1 (x :: xs) (le_refl _) hgl
          simp only [jsonChars, wVal, List.length_cons, List.length_append,
            List.length_singleton]
          omega
      | obj kvs =>
        cases kvs with
        | nil => simp [jsonChars, wVal, jsonCharsObj]
        | cons kv kvs =>
          simp only [Json.obj.sizeOf_spec] at hs
          have hlt : sizeOf (kv :: kvs) < n := by omega
          have hgf : jsonGoodF (kv :: kvs) = true := by simpa [jsonGood] using hg
          have := (ih _ hlt).2.2 (kv :: kvs) (le_refl _) hgf
          simp only [jsonChars, wVal, List.length_cons, List.length_append,
            List.length_singleton]
          omega
    · intro xs hs hg
      cases xs with
      | nil => simp [wItems, jsonCharsArr]
      | cons x xs =>
        simp only [List.cons.sizeOf_spec] at hs
        have hx : sizeOf x < n := by omega
        have hxs : sizeOf xs < n := by omega
        have hg2 : jsonGood x = true ∧ jsonGoodL xs = true := by
          simpa [jsonGoodL] using hg
        have hvx := (ih _ hx).1 x (le_refl _) hg2.1
        cases xs with
        | nil =>
          simp only [wItems, jsonCharsArr, wItems]
          have : max (wVal x) (wItems []) = wVal x := by simp [wItems]
          omega
        | cons y ys =>
          have hys := (ih _ hxs).2.1 (y :: ys) (le_refl _) hg2.2
          simp only [wItems, jsonCharsArr, List.length_append, List.length_cons] at hys ⊢
          omega
    · intro kvs hs hg
      cases kvs with
      | nil => simp [wFields, jsonCharsObj]
      | cons kv kvs =>
        simp only [List.cons.sizeOf_spec, Prod.mk.sizeOf_spec] at hs
        have hv : sizeOf kv.2 < n := by
          cases kv
          simp_all
          omega
        have hkvs : sizeOf kvs < n := by omega
        have hg2 : jsonGood kv.2 = true ∧ jsonGoodF kvs = true := by
          simpa [jsonGoodF] using hg
        have hvv := (ih _ hv).1 kv.2 (le_refl _) hg2.1
        cases kvs with
        | nil =>
          obtain ⟨k, v⟩ := kv
          simp only [wFields, jsonCharsObj, List.length_append, List.length_cons,
            wFields] at hvv ⊢
          have : max (wVal v) 0 = wVal v := by simp
          omega
        | cons e es =>
          obtain ⟨k, v⟩ := kv
          have hes := (ih _ hkvs).2.2 (e :: es) (le_refl _) hg2.2
          simp only [wFields, jsonCharsObj, List.length_append, List.length_cons] at hvv hes ⊢
          omega

theorem jsonParse_rt (j : Json) (hg : jsonGood j = true) :
    jsonParse (String.mk (jsonChars j)) = some j := by
  unfold jsonParse
  rw [smk_data]
  have hb : wVal j ≤ (jsonChars j).length + 1 := by
    have := (wlen_aux (sizeOf j)).1 j (le_refl _) hg
    omega
  have hrt := (pVal_rt ((jsonChars j).length + 1)).1 j hg hb []
  rw [List.append_nil] at hrt
  rw [hrt]
  simp [skipWs]

theorem hexDigit_le : ∀ m, m < 16 → (hexDigit m).toNat ≤ 255 := by decide

theorem escapeChar_latin (c : Char) (hc : c.toNat ≤ 255) :
    ∀ d ∈ escapeChar c, d.toNat ≤ 255 := by
  intro d hd
  unfold escapeChar at hd
  split_ifs at hd with h1 h2 h3 h4 h5 h6 h7 h8 <;>
    simp only [List.mem_cons, List.not_mem_nil, or_false] at hd
  · rcases hd with rfl | rfl <;> decide
  · rcases hd with rfl | rfl <;> decide
  · rcases hd with rfl | rfl <;> decide
  · rcases hd with rfl | rfl <;> decide
  · rcases hd with rfl | rfl <;> decide
  · rcases hd with rfl | rfl <;> decide
  · rcases hd with rfl | rfl <;> decide
  · rcases hd with rfl | rfl | rfl | rfl | rfl | rfl
    · decide
    · decide
    · decide
    · decide
    · exact hexDigit_le (c.toNat / 16) (by omega)
    · exact hexDigit_le (c.toNat % 16) (by omega)
  · subst hd
    exact hc

theorem strOk_mem (s : String) (hs : strOk s = true) : ∀ c ∈ s.data, c.toNat ≤ 255 := by
  intro c hc
  simp only [strOk, List.all_eq_true, decide_eq_true_eq] at hs
  exact hs c hc

theorem strLit_latin (s : String) (hs : strOk s = true) :
    ∀ c ∈ strLit s, c.toNat ≤ 255 := by
  intro c hc
  simp only [strLit, strBody, List.mem_cons, List.mem_append, List.mem_flatten,
    List.mem_map, List.not_mem_nil, or_false] at hc
  rcases hc with rfl | ⟨l, ⟨a, ha, rfl⟩, hcl⟩ | rfl
  · decide
  · exact escapeChar_latin a (strOk_mem s hs a ha) c hcl
  · decide

theorem jsonLatin_chars_aux (n : Nat) :
    (∀ j : Json, sizeOf j ≤ n → jsonLatin j = true → ∀ c ∈ jsonChars j, c.toNat ≤ 255) ∧
    (∀ xs : List Json, sizeOf xs ≤ n → jsonLatinL xs = true →
      ∀ c ∈ jsonCharsArr xs, c.toNat ≤ 255) ∧
    (∀ kvs : List (String × Json), sizeOf kvs ≤ n → jsonLatinF kvs = true →
      ∀ c ∈ jsonCharsObj kvs, c.toNat ≤ 255) := by
  induction n using Nat.strong_induction_on with
  | _ n ih =>
    refine ⟨?_, ?_, ?_⟩
    · intro j hs hl c hc
      cases j with
      | null =>
        rw [show jsonChars Json.null = ['n', 'u', 'l', 'l'] by simp [jsonChars]] at hc
        simp only [List.mem_cons, List.not_mem_nil, or_false] at hc
        rcases hc with rfl | rfl | rfl | rfl <;> decide
      | bool b =>
        cases b
        · rw [show jsonChars (Json.bool false) = ['f', 'a', 'l', 's', 'e'] by
            simp [jsonChars]] at hc
          simp only [List.mem_cons, List.not_mem_nil, or_false] at hc
          rcases hc with rfl | rfl | rfl | rfl | rfl <;> decide
        · rw [show jsonChars (Json.bool true) = ['t', 'r', 'u', 'e'] by
            simp [jsonChars]] at hc
          simp only [List.mem_cons, List.not_mem_nil, or_false] at hc
          rcases hc with rfl | rfl | rfl | rfl <;> decide
      | num raw =>
        simp only [jsonChars] at hc
        exact strOk_mem raw (by simpa [jsonLatin] using hl) c hc
      | str s =>
        simp only [jsonChars] at hc
        exact strLit_latin s (by simpa [jsonLatin] using hl) c hc
      | arr xs =>
        simp only [Json.arr.sizeOf_spec] at hs
        have hlt : sizeOf xs < n := by omega
        rw [show jsonChars (Json.arr xs) = '[' :: (jsonCharsArr xs ++ [']']) by
          simp [jsonChars]] at hc
        simp only [List.mem_cons, List.mem_append, List.mem_singleton,
          List.not_mem_nil, or_false] at hc
        rcases hc with rfl | hin | rfl
        · decide
        · exact (ih _ hlt).2.1 xs (le_refl _) (by simpa [jsonLatin] using hl) c hin
        · decide
      | obj kvs =>
        simp only [Json.obj.sizeOf_spec] at hs
        have hlt : sizeOf kvs < n := by omega
        rw [show jsonChars (Json.obj kvs) = '{' :: (jsonCharsObj kvs ++ ['}']) by
          simp [jsonChars]] at hc
        simp only [List.mem_cons, List.mem_append, List.mem_singleton,
          List.not_mem_nil, or_false] at hc
        rcases hc with rfl | hin | rfl
        · decide
        · exact (ih _ hlt).2.2 kvs (le_refl _) (by simpa [jsonLatin] using hl) c hin
        · decide
    · intro xs hs hl c hc
      cases xs with
      | nil => simp [jsonCharsArr] at hc
      | cons x xs =>
        simp only [List.cons.sizeOf_spec] at hs
        have hx : sizeOf x < n := by omega
        have hxs : sizeOf xs < n := by omega
        have hl2 : jsonLatin x = true ∧ jsonLatinL xs = true := by
          simpa [jsonLatinL] using hl
        cases xs with
        | nil =>
          rw [show jsonCharsArr [x] = jsonChars x by simp [jsonCharsArr]] at hc
          exact (ih _ hx).1 x (le_refl _) hl2.1 c hc
        | cons y ys =>
          rw [show jsonCharsArr (x :: y :: ys)
              = jsonChars x ++ ',' :: jsonCharsArr (y :: ys) by simp [jsonCharsArr]] at hc
          simp only [List.mem_append, List.mem_cons] at hc
          rcases hc with hin | rfl | hin
          · exact (ih _ hx).1 x (le_refl _) hl2.1 c hin
          · decide
          · exact (ih _ hxs).2.1 (y :: ys) (le_refl _) hl2.2 c hin
    · intro kvs hs hl c hc
      cases kvs with
      | nil => simp [jsonCharsObj] at hc
      | cons kv kvs =>
        obtain ⟨k, v⟩ := kv
        simp only [List.cons.sizeOf_spec, Prod.mk.sizeOf_spec] at hs
        have hv : sizeOf v < n := by omega
        have hkvs : sizeOf kvs < n := by omega
        have hl2 : strOk k = true ∧ jsonLatin v = true ∧ jsonLatinF kvs = true := by
          simpa [jsonLatinF, and_assoc] using hl
        cases kvs with
        | nil =>
          rw [show jsonCharsObj [(k, v)] = strLit k ++ ':' :: jsonChars v by
            simp [jsonCharsObj]] at hc
          simp only [List.mem_append, List.mem_cons] at hc
          rcases hc with hin | rfl | hin
          · exact strLit_latin k hl2.1 c hin
          · decide
          · exact (ih _ hv).1 v (le_refl _) hl2.2.1 c hin
        | cons e es =>
          rw [show jsonCharsObj ((k, v) :: e :: es)
              = strLit k ++ ':' :: jsonChars v ++ ',' :: jsonCharsObj (e :: es) by
            simp [jsonCharsObj]] at hc
          simp only [List.mem_append, List.mem_cons] at hc
          rcases hc with (hin | rfl | hin) | rfl | hin
          · exact strLit_latin k hl2.1 c hin
          · decide
          · exact (ih _ hv).1 v (le_refl _) hl2.2.1 c hin
          · decide
          · exact (ih _ hkvs).2.2 (e :: es) (le_refl _) hl2.2.2 c hin

theorem jsonGoodF_append (a b : List (String × Json)) :
    jsonGoodF (a ++ b) = (jsonGoodF a && jsonGoodF b) := by
  induction a with
  | nil => simp [jsonGoodF]
  | cons kv a ih => simp [jsonGoodF, ih, Bool.and_assoc]

theorem jsonLatinF_append (a b : List (String × Json)) :
    jsonLatinF (a ++ b) = (jsonLatinF a && jsonLatinF b) := by
  induction a with
  | nil => simp [jsonLatinF]
  | cons kv a ih => simp [jsonLatinF, ih, Bool.and_assoc]

theorem jsonGoodL_map_str (l : List String) : jsonGoodL (l.map Json.str) = true := by
  induction l with
  | nil => simp [jsonGoodL]
  | cons s l ih => simp [jsonGoodL, jsonGood, ih]

theorem jsonLatinL_map_str (l : List String) (h : ∀ s ∈ l, strOk s = true) :
    jsonLatinL (l.map Json.str) = true := by
  induction l with
  | nil => simp [jsonLatinL]
  | cons s l ih =>
    simp only [List.map_cons, jsonLatinL, jsonLatin, Bool.and_eq_true]
    exact ⟨h s (by simp), ih fun a ha => h a (by simp [ha])⟩

theorem jsonGoodF_optField_str (nm : String) (o : Option String) :
    jsonGoodF (optField nm (o.map Json.str)) = true := by
  cases o <;> simp [optField, jsonGoodF, jsonGood]

theorem jsonGoodF_optField_bool (nm : String) (o : Option Bool) :
    jsonGoodF (optField nm (o.map Json.bool)) = true := by
  cases o <;> simp [optField, jsonGoodF, jsonGood]

theorem jsonGoodF_optField_strList (nm : String) (o : Option (List String)) :
    jsonGoodF (optField nm (o.map fun l => Json.arr (l.map Json.str))) = true := by
  cases o <;> simp [optField, jsonGoodF, jsonGood, jsonGoodL_map_str]

theorem jsonGoodF_optField_ca (nm : String) (o : Option (String ⊕ List String)) :
    jsonGoodF (optField nm (o.map caJson)) = true := by
  cases o with
  | none => simp [optField, jsonGoodF]
  | some v =>
    cases v <;> simp [optField, caJson, jsonGoodF, jsonGood, jsonGoodL_map_str]

theorem blockJson_good_aux (n : Nat) :
    (∀ b : Block, sizeOf b ≤ n → jsonGood (blockJson b) = true) ∧
    (∀ l : List Block, sizeOf l ≤ n → jsonGoodL (blockJsonL l) = true) := by
  induction n using Nat.strong_induction_on with
  | _ n ih =>
    constructor
    · intro b hs
      cases b with
      | text i cont => simp [blockJson, jsonGood, jsonGoodF]
      | divider i => simp [blockJson, jsonGood, jsonGoodF]
      | embed i u t =>
        simp [blockJson, jsonGood, jsonGoodF, jsonGoodF_append, jsonGoodF_optField_str]
      | question i q p li im de op ms ca =>
        simp [blockJson, jsonGood, jsonGoodF, jsonGoodF_append, jsonGoodF_optField_str,
          jsonGoodF_optField_bool, jsonGoodF_optField_strList, jsonGoodF_optField_ca]
      | group i t ch =>
        simp only [Block.group.sizeOf_spec] at hs
        have hch : sizeOf ch < n := by omega
        simp [blockJson, jsonGood, jsonGoodF, jsonGoodF_append, jsonGoodF_optField_str,
          (ih _ hch).2 ch (le_refl _)]
    · intro l hs
      cases l with
      | nil => simp [blockJsonL, jsonGoodL]
      | cons b l =>
        simp only [List.cons.sizeOf_spec] at hs
        have hb : sizeOf b < n := by omega
        have hl : sizeOf l < n := by omega
        simp [blockJsonL, jsonGoodL, (ih _ hb).1 b (le_refl _), (ih _ hl).2 l (le_refl _)]

theorem toJson_good (x : WorksheetData) : jsonGood (toJson x) = true := by
  have hb := (blockJson_good_aux (sizeOf x.blocks)).2 x.blocks (le_refl _)
  cases hd : x.design with
  | none => simp [toJson, jsonGood, jsonGoodF, jsonGoodF_append, hd, optField, hb]
  | some d =>
    simp [toJson, jsonGood, jsonGoodF, jsonGoodF_append, hd, optField, hb, designJson]

theorem optStr_all (o : Option String) (h : o.all strOk = true) :
    ∀ s, o = some s → strOk s = true := by
  cases o <;> simp_all [Option.all]

theorem optList_all (o : Option (List String)) (h : o.all (fun l => l.all strOk) = true) :
    ∀ l, o = some l → ∀ s ∈ l, strOk s = true := by
  cases o with
  | none => intro l hl; cases hl
  | some a =>
    intro l hl
    cases hl
    intro s hsm
    simp only [Option.all, List.all_eq_true] at h
    simpa using h s hsm

theorem jsonLatinF_optField_strAscii (nm : String) (hnm : strOk nm = true) (o : Option String)
    (ho : ∀ s, o = some s → strOk s = true) :
    jsonLatinF (optField nm (o.map Json.str)) = true := by
  cases o with
  | none => simp [optField, jsonLatinF]
  | some s => simp [optField, jsonLatinF, jsonLatin, ho s rfl, hnm]

theorem jsonLatinF_optField_boolAscii (nm : String) (hnm : strOk nm = true) (o : Option Bool) :
    jsonLatinF (optField nm (o.map Json.bool)) = true := by
  cases o <;> simp [optField, jsonLatinF, jsonLatin, hnm]

theorem jsonLatinF_optField_strListAscii (nm : String) (hnm : strOk nm = true)
    (o : Option (List String)) (ho : ∀ l, o = some l → ∀ s ∈ l, strOk s = true) :
    jsonLatinF (optField nm (o.map fun l => Json.arr (l.map Json.str))) = true := by
  cases o with
  | none => simp [optField, jsonLatinF]
  | some l =>
    simp [optField, jsonLatinF, jsonLatin, hnm, jsonLatinL_map_str l (ho l rfl)]

theorem jsonLatinF_optField_caAscii (nm : String) (hnm : strOk nm = true)
    (o : Option (String ⊕ List String))
    (ho : ∀ v, o = some v → (∀ s, v = Sum.inl s → strOk s = true) ∧
      (∀ l, v = Sum.inr l → ∀ s ∈ l, strOk s = true)) :
    jsonLatinF (optField nm (o.map caJson)) = true := by
  cases o with
  | none => simp [optField, jsonLatinF]
  | some v =>
    cases v with
    | inl s =>
      simp [optField, caJson, jsonLatinF, jsonLatin, hnm, (ho _ rfl).1 s rfl]
    | inr l =>
      simp [optField, caJson, jsonLatinF, jsonLatin, hnm,
        jsonLatinL_map_str l ((ho _ rfl).2 l rfl)]

theorem strOk_qTypeStr (q : QuestionType) : strOk (qTypeStr q) = true := by
  cases q <;> decide

theorem strOk_fontStr (f : Font) : strOk (fontStr f) = true := by
  cases f <;> decide

theorem optCa_all (o : Option (String ⊕ List String))
    (h : o.all (fun v => match v with
      | .inl s => strOk s
      | .inr l => l.all strOk) = true) :
    ∀ v, o = some v → (∀ s, v = Sum.inl s → strOk s = true) ∧
      (∀ l, v = Sum.inr l → ∀ s ∈ l, strOk s = true) := by
  cases o with
  | none => intro v hv; cases hv
  | some a =>
    intro v hv
    cases hv
    constructor
    · intro s hs
      subst hs
      simpa [Option.all] using h
    · intro l hl
      subst hl
      intro s hsm
      simp only [Option.all, List.all_eq_true] at h
      simpa using h s hsm

theorem blockJson_latin_aux (n : Nat) :
    (∀ b : Block, sizeOf b ≤ n → blockOk b = true → jsonLatin (blockJson b) = true) ∧
    (∀ l : List Block, sizeOf l ≤ n → blockOkL l = true →
      jsonLatinL (blockJsonL l) = true) := by
  induction n using Nat.strong_induction_on with
  | _ n ih =>
    constructor
    · intro b hs hb
      cases b with
      | text i cont =>
        simp only [blockOk, Bool.and_eq_true] at hb
        simp [blockJson, jsonLatin, jsonLatinF, hb.1, hb.2,
          show strOk "id" = true by decide, show strOk "type" = true by decide,
          show strOk "text" = true by decide, show strOk "content" = true by decide]
      | divider i =>
        simp only [blockOk] at hb
        simp [blockJson, jsonLatin, jsonLatinF, hb,
          show strOk "id" = true by decide, show strOk "type" = true by decide,
          show strOk "divider" = true by decide]
      | embed i u t =>
        simp only [blockOk, Bool.and_eq_true] at hb
        obtain ⟨⟨hi, hu⟩, ht⟩ := hb
        simp [blockJson, jsonLatin, jsonLatinF_append, jsonLatinF, hi, hu,
          jsonLatinF_optField_strAscii "title" (by decide) t (optStr_all t ht),
          show strOk "id" = true by decide, show strOk "type" = true by decide,
          show strOk "embed" = true by decide, show strOk "url" = true by decide]
      | question i q p li im de op ms ca =>
        simp only [blockOk, Bool.and_eq_true] at hb
        obtain ⟨⟨⟨⟨⟨⟨hi, hp⟩, hli⟩, him⟩, hde⟩, hop⟩, hca⟩ := hb
        simp [blockJson, jsonLatin, jsonLatinF_append, jsonLatinF, hi, hp, strOk_qTypeStr,
          jsonLatinF_optField_strListAscii "listItems" (by decide) li (optList_all li hli),
          jsonLatinF_optField_strAscii "image" (by decide) im (optStr_all im him),
          jsonLatinF_optField_strAscii "description" (by decide) de (optStr_all de hde),
          jsonLatinF_optField_strListAscii "options" (by decide) op (optList_all op hop),
          jsonLatinF_optField_boolAscii "multiSelect" (by decide) ms,
          jsonLatinF_optField_caAscii "correctAnswer" (by decide) ca (optCa_all ca hca),
          show strOk "id" = true by decide, show strOk "type" = true by decide,
          show strOk "question" = true by decide, show strOk "qType" = true by decide,
          show strOk "prompt" = true by decide]
      | group i t ch =>
        simp only [blockOk, Bool.and_eq_true] at hb
        obtain ⟨⟨hi, ht⟩, hch⟩ := hb
        simp only [Block.group.sizeOf_spec] at hs
        have hlt : sizeOf ch < n := by omega
        simp [blockJson, jsonLatin, jsonLatinF_append, jsonLatinF, hi,
          jsonLatinF_optField_strAscii "title" (by decide) t (optStr_all t ht),
          (ih _ hlt).2 ch (le_refl _) hch,
          show strOk "id" = true by decide, show strOk "type" = true by decide,
          show strOk "group" = true by decide, show strOk "children" = true by decide]
    · intro l hs hl
      cases l with
      | nil => simp [blockJsonL, jsonLatinL]
      | cons b l =>
        simp only [blockOkL, Bool.and_eq_true] at hl
        simp only [List.cons.sizeOf_spec] at hs
        have hb : sizeOf b < n := by omega
        have hl2 : sizeOf l < n := by omega
        simp [blockJsonL, jsonLatinL, (ih _ hb).1 b (le_refl _) hl.1,
          (ih _ hl2).2 l (le_refl _) hl.2]

theorem toJson_latin (x : WorksheetData) (h : dataOk x = true) :
    jsonLatin (toJson x) = true := by
  simp only [dataOk, Bool.and_eq_true] at h
  obtain ⟨⟨⟨ht, hd⟩, hbl⟩, hdes⟩ := h
  have hb := (blockJson_latin_aux (sizeOf x.blocks)).2 x.blocks (le_refl _) hbl
  cases hdx : x.design with
  | none =>
    rw [hdx] at hdes
    simp [toJson, jsonLatin, jsonLatinF_append, jsonLatinF, hdx, optField, ht, hd, hb,
      show strOk "title" = true by decide, show strOk "description" = true by decide,
      show strOk "blocks" = true by decide]
  | some d =>
    rw [hdx] at hdes
    have hac : strOk d.accentColor = true := by simpa [Option.all] using hdes
    simp [toJson, jsonLatin, jsonLatinF_append, jsonLatinF, hdx, optField, ht, hd, hb,
      designJson, hac, strOk_fontStr,
      show strOk "title" = true by decide, show strOk "description" = true by decide,
      show strOk "blocks" = true by decide, show strOk "design" = true by decide,
      show strOk "accentColor" = true by decide, show strOk "font" = true by decide]

theorem btoa_enc (s : String) (h : ∀ c ∈ s.data, c.toNat ≤ 255) :
    btoa s = some (String.mk (b64EncodeBytes (s.data.map Char.toNat))) := by
  unfold btoa
  rw [if_pos]
  simp only [List.all_eq_true, decide_eq_true_eq]
  exact h

theorem atob_of_btoa (s : String) (h : ∀ c ∈ s.data, c.toNat ≤ 255) :
    atob (String.mk (b64EncodeBytes (s.data.map Char.toNat))) = some s := by
  unfold atob
  rw [smk_data, atobChars_enc _ ?hbd]
  case hbd =>
    intro x hx
    simp only [List.mem_map] at hx
    obtain ⟨c, hc, rfl⟩ := hx
    exact h c hc
  simp only [Option.map_some']
  congr 1
  rw [List.map_map]
  rw [show (Char.ofNat ∘ Char.toNat) = id by
    funext c
    simp [Char.ofNat_toNat]]
  rw [List.map_id]

theorem replaceFirstAux_pref (pat tail repl : List Char) (h : pat ≠ []) :
    replaceFirstAux (pat ++ tail) pat repl = repl ++ tail := by
  cases pat with
  | nil => exact absurd rfl h
  | cons p ps =>
    rw [List.cons_append, replaceFirstAux, ← List.cons_append, if_pos]
    · rw [List.drop_left]
    · rw [List.isPrefixOf_iff_prefix]
      exact List.prefix_append _ _

theorem jsReplaceFirst_pref (B : String) :
    jsReplaceFirst ("#data=" ++ B) "#data=" "" = B := by
  unfold jsReplaceFirst
  rw [show ("#data=" ++ B).data = "#data=".data ++ B.data from rfl]
  rw [replaceFirstAux_pref _ _ _ (by decide)]
  rw [show ("" : String).data = [] from rfl, List.nil_append]

/-- C1 (round-trip law of the serialization codec): for every structurally
valid WorksheetData x whose strings use only characters representable by the
single-byte text encoding of btoa, decodeState applied to the encodeState
output of x, with the fragment prefix attached and stripped by the
replace-based prefix handling, succeeds and returns exactly the JSON object
graph of x, the value JSON.stringify serialized. -/
theorem C1_roundtrip (x : WorksheetData) (h : dataOk x = true) :
    decodeStateJson ("#data=" ++ encodeState x) = some (toJson x) := by
  have hlat : ∀ c ∈ (String.mk (jsonChars (toJson x))).data, c.toNat ≤ 255 := by
    rw [smk_data]
    intro c hc
    exact (jsonLatin_chars_aux (sizeOf (toJson x))).1 _ (le_refl _) (toJson_latin x h) c hc
  have henc : encodeState x
      = String.mk (b64EncodeBytes ((String.mk (jsonChars (toJson x))).data.map Char.toNat)) := by
    unfold encodeState
    rw [btoa_enc _ hlat]
  unfold decodeStateJson
  rw [henc, jsReplaceFirst_pref, atob_of_btoa _ hlat]
  show jsonParse (String.mk (jsonChars (toJson x))) = some (toJson x)
  exact jsonParse_rt _ (toJson_good x)

/-- C1 witness: the round-trip law evaluated at a concrete worksheet. -/
theorem C1_roundtrip_witness :
    dataOk (WorksheetData.mk "Sheet" "Intro" [Block.text "b1" "hello"]
        (some (DesignSettings.mk "#fff" Font.sans))) = true ∧
    decodeStateJson ("#data=" ++ encodeState (WorksheetData.mk "Sheet" "Intro"
        [Block.text "b1" "hello"] (some (DesignSettings.mk "#fff" Font.sans))))
      = some (toJson (WorksheetData.mk "Sheet" "Intro" [Block.text "b1" "hello"]
        (some (DesignSettings.mk "#fff" Font.sans)))) :=
  ⟨by simp [dataOk, blockOkL, blockOk, strOk, Option.all],
    C1_roundtrip _ (by simp [dataOk, blockOkL, blockOk, strOk, Option.all])⟩

/-- C2 counterexample: the base64 text "e30=" decodes to the JSON text of the
empty object, which parses but has no blocks field; decodeState still returns
it rather than the explicit failure value, because the source applies only an
unchecked type assertion to the parsed JSON and never validates the blocks
field (that check exists only on the separate file-import path). -/
theorem C2_counterexample :
    decodeStateJson "e30=" = some (Json.obj []) ∧ decodeStateJson "e30=" ≠ none := by
  have hatob : atob "e30=" = some "{}" := by
    simp [atob, atobChars, stripPadding, b64DecodeQuads, isAsciiWs,
      show b64Index 'e' = some 30 from rfl, show b64Index '3' = some 55 from rfl,
      show b64Index '0' = some 52 from rfl]
  have h : decodeStateJson "e30=" = some (Json.obj []) := by
    unfold decodeStateJson
    rw [show jsReplaceFirst "e30=" "#data=" "" = "e30=" from rfl, hatob]
    show jsonParse "{}" = some (Json.obj [])
    unfold jsonParse
    rw [show ("{}" : String).data = ['{', '}'] from rfl]
    rw [show pVal (['{', '}'] : List Char).length.succ ['{', '}']
        = pVal (1 + 1) ['{', '}'] from rfl]
    rw [pVal_succ]
    simp [skipWs, isJsonWs]
  exact ⟨h, by simp [h]⟩

/-- C2 amended: decodeState never throws (the model is total by
construction) and returns the explicit failure value whenever the base64
decode of the prefix-stripped input fails or the decoded text is not valid
JSON; in particular decode of the string "garbage-not-base64" returns the
failure value. The converse does not hold in the source: a payload whose
JSON text is null also yields the null return value, because JSON.parse of
that text is the very value the catch branch returns, as the "bnVsbA=="
conjunct shows. A missing blocks field is not part of the failure
condition at all: such inputs decode successfully. (The model diverges
from JSON.parse only on lone-surrogate unicode escapes, which Lean
characters cannot represent; that can only enlarge the malformed side of
the implication proved here.) -/
theorem C2_amended :
    (∀ s : String,
      (atob (jsReplaceFirst s "#data=" "") = none ∨
        ∃ t, atob (jsReplaceFirst s "#data=" "") = some t ∧ jsonParse t = none) →
      decodeState s = none) ∧
    decodeState "garbage-not-base64" = none ∧
    decodeState "bnVsbA==" = none := by
  have hjs : ∀ s : String,
      (atob (jsReplaceFirst s "#data=" "") = none ∨
        ∃ t, atob (jsReplaceFirst s "#data=" "") = some t ∧ jsonParse t = none) →
      decodeStateJson s = none := by
    intro s h
    unfold decodeStateJson
    rcases h with ha | ⟨t, ht, hp⟩
    · rw [ha]
    · rw [ht]
      show jsonParse t = none
      exact hp
  refine ⟨?_, ?_, ?_⟩
  · intro s h
    unfold decodeState
    rw [hjs s h]
  · unfold decodeState
    rw [hjs "garbage-not-base64" (Or.inl (by
      rw [show jsReplaceFirst "garbage-not-base64" "#data=" "" = "garbage-not-base64" from rfl]
      simp [atob, atobChars, stripPadding, b64DecodeQuads, isAsciiWs,
        show b64Index 'g' = some 32 from rfl, show b64Index 'a' = some 26 from rfl,
        show b64Index 'r' = some 43 from rfl, show b64Index 'b' = some 27 from rfl,
        show b64Index 'e' = some 30 from rfl, show b64Index '-' = none from rfl,
        show b64Index 'n' = some 39 from rfl, show b64Index 'o' = some 40 from rfl,
        show b64Index 't' = some 45 from rfl, show b64Index 's' = some 44 from rfl,
        show b64Index '6' = some 58 from rfl, show b64Index '4' = some 56 from rfl]))]
  · have hatob : atob "bnVsbA==" = some "null" := by
      simp [atob, atobChars, stripPadding, b64DecodeQuads, isAsciiWs,
        show b64Index 'b' = some 27 from rfl, show b64Index 'n' = some 39 from rfl,
        show b64Index 'V' = some 21 from rfl, show b64Index 's' = some 44 from rfl,
        show b64Index 'A' = some 0 from rfl]
    have hnull : decodeStateJson "bnVsbA==" = some Json.null := by
      unfold decodeStateJson
      rw [show jsReplaceFirst "bnVsbA==" "#data=" "" = "bnVsbA==" from rfl, hatob]
      show jsonParse "null" = some Json.null
      unfold jsonParse
      rw [show ("null" : String).data = ['n', 'u', 'l', 'l'] from rfl]
      rw [show pVal (['n', 'u', 'l', 'l'] : List Char).length.succ ['n', 'u', 'l', 'l']
          = pVal (4 + 1) ['n', 'u', 'l', 'l'] from rfl]
      rw [pVal_succ_null]
      simp [skipWs]
    unfold decodeState
    rw [hnull]

/-- C2 amended witness: the failure implication applied at a concrete
undecodable input. -/
theorem C2_amended_witness : decodeState "####" = none := by
  refine C2_amended.1 "####" (Or.inl ?_)
  rw [show jsReplaceFirst "####" "#data=" "" = "####" from rfl]
  simp [atob, atobChars, stripPadding, b64DecodeQuads, isAsciiWs,
    show b64Index '#' = none from rfl]


end Worksheeter
